import Mathlib

/-!
# Keyed-children reconciliation ("fast diff") of `renderer.js`

A shallow embedding of `src/第11章-快速Diff算法/js/renderer.js`:
`mountElement`, `patch`, `unmount`, `patchElement`, `patchChildren`,
`patchKeyeChildren` and `getSequence`, over an explicit host tree.

Conventions of the embedding

* A JavaScript reference that may be `undefined`/`null` is an `Option`.
  Reading a property of `undefined` raises `Err.typeError`, exactly where the
  source performs the read.
* An array read `xs[i]` outside `0 ≤ i < xs.length` yields `undefined` (`none`).
* Vnodes are immutable values here, so every function that assigns `vnode.el`
  returns the updated vnode; `patchKeyeChildren` returns `n2` with the
  `newChildren` it left. Old and new vnodes are assumed to be different
  objects.
* Keys are natural numbers (`none` is an absent key), so `===` on keys and the
  property lookup `keyIndex[key]` agree; properties inherited by the object
  literal `keyIndex` are not modelled.
* A `props` object is an ordinary object (an object literal), so the reads
  `props[key]` and the test `key in props` also find the members it inherits
  from `Object.prototype` (`protoNames`); the prototype is taken to be the one
  the language defines. Inherited members are not enumerable, so `for ... in`
  lists the own keys only.
* The host adapter is not part of `renderer.js`; it is modelled as a DOM-like
  tree with a log of the adapter calls that were made. The hierarchy check of
  `insertBefore` (a node cannot be inserted below itself) is not modelled.
* `patch` is recursive through the children of `n2`; it is unfolded to a
  recursion depth `fuel`, and the results below hold for every depth that is
  large enough (`reconcile_fuel`).

Layout: the embedding; auxiliary definitions; lemmas; one theorem per claim.
-/

namespace Renderer

/-! ## Values -/

/-- Host handle: an opaque reference to a backing object. -/
abbrev Handle := Nat

/-- A reference that may be `undefined`/`null`. -/
abbrev Ref := Option Handle

/-- The `type` field of a vnode: a tag string (`typeof type === 'string'`), a
component object (`typeof type === 'object'`), one of the three symbols
`Text`, `Comment`, `Fragment`, or `undefined`. -/
inductive VType where
  | tag (name : String)
  | component (id : Nat)
  | Text
  | Comment
  | Fragment
  | undef
deriving DecidableEq, Repr

/-- A prop value, compared with `!==`; `inherited name` is the member `name` of
`Object.prototype` (the function `Object.prototype.toString`, ...), and `val n`
stands for any other value. -/
inductive JSVal where
  | undefined
  | null
  | inherited (name : String)
  | val (n : Nat)
deriving DecidableEq, Repr

/-- The `props` object: own enumerable keys in `for ... in` order. -/
abbrev Props := List (String × JSVal)

/-- The `children` field: absent, a string, or an array of vnodes. -/
inductive Children (α : Type) where
  | absent
  | str (s : String)
  | arr (cs : List α)

/-- A virtual node `{ type, key, props, children, el }`. -/
inductive VNode where
  | mk (type : VType) (key : Option Nat) (props : Option Props)
      (children : Children VNode) (el : Ref)

namespace VNode

/-- Field `vnode.type`. -/
def type : VNode → VType
  | .mk t _ _ _ _ => t

/-- Field `vnode.key`. -/
def key : VNode → Option Nat
  | .mk _ k _ _ _ => k

/-- Field `vnode.props`. -/
def props : VNode → Option Props
  | .mk _ _ p _ _ => p

/-- Field `vnode.children`. -/
def children : VNode → Children VNode
  | .mk _ _ _ c _ => c

/-- Field `vnode.el`. -/
def el : VNode → Ref
  | .mk _ _ _ _ e => e

/-- Assignment `vnode.el = e`. -/
def setEl : VNode → Ref → VNode
  | .mk t k p c _, e => .mk t k p c e

/-- The vnode after its `children` array elements were mutated in place. -/
def setChildren : VNode → List VNode → VNode
  | .mk t k p _ e, cs => .mk t k p (.arr cs) e

end VNode

/-- What indexing a string yields: a one-character string, all of whose vnode
fields read as `undefined`. -/
def charNode : VNode := .mk .undef none none .absent none

/-- The value of `children` used as an array: `none` when it is `undefined`
(any index read throws), the characters of a string, or the array itself. -/
def arrayLike : Children VNode → Option (List VNode)
  | .absent => none
  | .str s => some (s.toList.map fun _ => charNode)
  | .arr cs => some cs

/-- JavaScript `a === b` on two `children` values: strings by value, arrays by
identity (two different vnodes never share an array). -/
def childrenStrictEq : Children VNode → Children VNode → Bool
  | .absent, .absent => true
  | .str a, .str b => a == b
  | _, _ => false

/-- The array read `xs[i]`. -/
def idx {α : Type} (xs : List α) (i : Int) : Option α :=
  if i < 0 then none else xs[i.toNat]?

/-- The array write `xs[i] = a` for an index inside the array. -/
def setIdx {α : Type} (xs : List α) (i : Int) (a : α) : List α :=
  if i < 0 then xs else xs.set i.toNat a

/-! ## Host tree and adapter -/

/-- Errors a call can end with. `fuel` is not a JavaScript error: it marks a
run of the model that was given too little recursion depth. -/
inductive Err where
  | typeError
  | rangeError
  | notFoundError
  | fuel
deriving DecidableEq, Repr

/-- One call of the host adapter (or of the DOM's `removeChild`). -/
inductive HostOp where
  | createElement (type : VType) (el : Handle)
  | createText (text : Option String) (el : Handle)
  | createComment (text : Option String) (el : Handle)
  | setElementText (el : Handle) (text : String)
  | setText (el : Handle) (text : Option String)
  | setComment (el : Handle) (text : Option String)
  | insert (el parent : Handle) (anchor : Ref)
  | removeChild (parent el : Handle)
  | patchProps (el : Handle) (key : String) (prev next : JSVal)
deriving DecidableEq, Repr

/-- The host tree: the next unused handle, `parentNode` and `childNodes` of
every handle, and the log of adapter calls, oldest first. -/
structure Host where
  next : Handle
  parentNode : Handle → Ref
  childNodes : Handle → List Handle
  log : List HostOp

/-- Computations over the host tree that may throw; the host state survives a
throw. -/
abbrev M := ExceptT Err (StateM Host)

/-- Dereference: using `undefined` as an object throws a `TypeError`. -/
def deref {α : Type} : Option α → M α
  | some a => pure a
  | none => throw .typeError

/-- Append one entry to the call log. -/
def logOp (op : HostOp) : M Unit :=
  modify fun h => { h with log := h.log ++ [op] }

/-- Allocate a fresh, detached backing object. -/
def fresh : M Handle := do
  let h ← get
  set { h with next := h.next + 1 }
  pure h.next

/-- Insert `el` into `xs` immediately before `anchor`. -/
def insertBefore (xs : List Handle) (el anchor : Handle) : List Handle :=
  match xs with
  | [] => []
  | x :: rest => if x = anchor then el :: x :: rest else x :: insertBefore rest el anchor

/-- Modelled from the spec: the Host Adapter `createElement(tag) -> handle`
(§6), which `renderer.js` receives through `options`. -/
def createElement (type : VType) : M Handle := do
  let el ← fresh
  logOp (.createElement type el)
  pure el

/-- Modelled from the spec: the Host Adapter `createText(content) -> handle`
(§6). -/
def createText (text : Option String) : M Handle := do
  let el ← fresh
  logOp (.createText text el)
  pure el

/-- Modelled from the spec: the Host Adapter `createComment(content) -> handle`
(§6). -/
def createComment (text : Option String) : M Handle := do
  let el ← fresh
  logOp (.createComment text el)
  pure el

/-- Detach `el` from its current parent, if it has one. -/
def detach (h : Host) (el : Handle) : Host :=
  match h.parentNode el with
  | none => h
  | some q =>
    { h with
      parentNode := fun x => if x = el then none else h.parentNode x
      childNodes := fun x => if x = q then (h.childNodes q).erase el else h.childNodes x }

/-- The host tree after `parent.insertBefore(el, anchor)` succeeded: `el` has
left its current parent and is a child of `parent`, immediately before
`anchor`, or last when there is no anchor. Inserting a node before itself
leaves the tree as it is. -/
def Host.place (h : Host) (el parent : Handle) (anchor : Ref) : Host :=
  match anchor with
  | none =>
    let h1 := detach h el
    { h1 with
      parentNode := fun x => if x = el then some parent else h1.parentNode x
      childNodes := fun x =>
        if x = parent then h1.childNodes parent ++ [el] else h1.childNodes x
      log := h1.log ++ [HostOp.insert el parent none] }
  | some a =>
    if a = el then
      { h with log := h.log ++ [HostOp.insert el parent (some a)] }
    else
      let h1 := detach h el
      { h1 with
        parentNode := fun x => if x = el then some parent else h1.parentNode x
        childNodes := fun x =>
          if x = parent then insertBefore (h1.childNodes parent) el a else h1.childNodes x
        log := h1.log ++ [HostOp.insert el parent (some a)] }

/-- Modelled from the spec: the Host Adapter
`insert(handle, parentHandle, anchorHandleOrNull)` (§6), as
`parent.insertBefore(el, anchor)` of `index.js`: `el` leaves its current
parent and becomes a child of `parent`, immediately before `anchor`, or last
when `anchor` is `null`/`undefined`. An `anchor` that is not a child of
`parent` raises `NotFoundError`; an `undefined` `el` or `parent` raises
`TypeError`. -/
def insert (el parent anchor : Ref) : M Unit := do
  let p ← deref parent
  let e ← deref el
  let h ← get
  match anchor with
  | none => set (h.place e p none)
  | some a =>
    if a ∈ h.childNodes p then
      set (h.place e p (some a))
    else
      throw Err.notFoundError

/-- The host tree after `el.textContent = text`: every child of `el` is
detached. -/
def Host.clear (h : Host) (el : Handle) (text : String) : Host :=
  { h with
    parentNode := fun x => if x ∈ h.childNodes el then none else h.parentNode x
    childNodes := fun x => if x = el then [] else h.childNodes x
    log := h.log ++ [HostOp.setElementText el text] }

/-- Modelled from the spec: the Host Adapter `setElementText(handle, content)`
(§6), as `el.textContent = text` of `index.js`: every child of `el` is
detached. -/
def setElementText (el : Ref) (text : String) : M Unit := do
  let e ← deref el
  let h ← get
  set (h.clear e text)

/-- Modelled from the spec: the Host Adapter `setText(handle, content)` (§6). -/
def setText (el : Ref) (text : Option String) : M Unit := do
  let e ← deref el
  logOp (.setText e text)

/-- Modelled from the spec: the Host Adapter `setComment(handle, content)`
(§6). -/
def setComment (el : Ref) (text : Option String) : M Unit := do
  let e ← deref el
  logOp (.setComment e text)

/-- Modelled from the spec: the Host Adapter
`patchProps(handle, key, oldValue, newValue)` (§6); only the call is
recorded. -/
def patchProps (el : Ref) (key : String) (prev next : JSVal) : M Unit := do
  let e ← deref el
  logOp (.patchProps e key prev next)

/-- The DOM call `parent.removeChild(el)` for a child `el` of `parent`. -/
def removeChild (parent el : Handle) : M Unit := do
  modify fun h =>
    { h with
      parentNode := fun x => if x = el then none else h.parentNode x
      childNodes := fun x => if x = parent then (h.childNodes parent).erase el else h.childNodes x
      log := h.log ++ [HostOp.removeChild parent el] }

/-! ## `getSequence` -/

/-- A JavaScript number that may be `undefined`. -/
abbrev JSNum := Option Int

/-- The read `xs[i]` of an array of numbers at an index that is itself a
JavaScript value (`xs[undefined]` is `undefined`). -/
def numAt (xs : List Int) (i : JSNum) : JSNum :=
  match i with
  | none => none
  | some k => idx xs k

/-- The read `xs[i]` of an array whose entries may be `undefined`. -/
def valAt (xs : List JSNum) (i : JSNum) : JSNum :=
  match i with
  | none => none
  | some k => (idx xs k).join

/-- JavaScript `a < b` on numbers: false as soon as one side is `undefined`. -/
def jsLt (a b : JSNum) : Bool :=
  match a, b with
  | some x, some y => decide (x < y)
  | _, _ => false

/-- The binary search `while (u < v) { c = (u + v) >> 1; ... }` of
`getSequence`; the first argument bounds the number of iterations, and
`v - u` of them are enough since every iteration shrinks `v - u`. -/
def getSequence.search (arr : List Int) (result : List JSNum) (arrI : Int) :
    Nat → Nat → Nat → Nat
  | 0, u, _ => u
  | fuel + 1, u, v =>
    if u < v then
      let c := (u + v) / 2
      if jsLt (numAt arr (valAt result (some (c : Int)))) (some arrI) then
        getSequence.search arr result arrI fuel (c + 1) v
      else
        getSequence.search arr result arrI fuel u c
    else u

/-- One iteration of `for (i = 0; i < len; i++)` of `getSequence`, on the pair
`(p, result)`. -/
def getSequence.step (arr : List Int) (st : List JSNum × List JSNum) (i : Nat) :
    List JSNum × List JSNum :=
  let p := st.1
  let result := st.2
  match arr[i]? with
  | none => (p, result)
  | some arrI =>
    if arrI ≠ 0 then
      let j := valAt result (some ((result.length : Int) - 1))
      if jsLt (numAt arr j) (some arrI) then
        (p.set i j, result ++ [some (i : Int)])
      else
        let u := getSequence.search arr result arrI result.length 0 (result.length - 1)
        if jsLt (some arrI) (numAt arr (valAt result (some (u : Int)))) then
          let p1 := if u > 0 then p.set i (valAt result (some ((u : Int) - 1))) else p
          (p1, result.set u (some (i : Int)))
        else (p, result)
    else (p, result)

/-- The final loop `while (u-- > 0) { result[u] = v; v = p[v] }` of
`getSequence`. -/
def getSequence.backtrack (p : List JSNum) : Nat → JSNum → List JSNum → List JSNum
  | 0, _, result => result
  | u + 1, v, result => getSequence.backtrack p u (valAt p v) (result.set u v)

/-- The function `getSequence(arr)`. -/
def getSequence (arr : List Int) : List JSNum :=
  let st := (List.range arr.length).foldl (getSequence.step arr)
    (arr.map some, [some 0])
  let p := st.1
  let result := st.2
  let u := result.length
  let v := valAt result (some ((u : Int) - 1))
  getSequence.backtrack p u v result

/-! ## The renderer -/

mutual
/-- The function `unmount(vnode)`. -/
def unmount : VNode → M Unit
  | .mk type _ _ children el =>
    if type = VType.Fragment then
      match children with
      | .arr cs => unmountEach cs
      | _ => throw Err.typeError
    else do
      let e ← deref el
      let h ← get
      match h.parentNode e with
      | some parent => removeChild parent e
      | none => pure ()
/-- The loop `children.forEach(c => unmount(c))`. -/
def unmountEach : List VNode → M Unit
  | [] => pure ()
  | c :: cs => do
    unmount c
    unmountEach cs
end

/-- The type of `patch(n1, n2, container, anchor)`; the result is `n2` after
the call (with `el` assigned, also in its children). -/
abbrev PatchFn := Option VNode → VNode → Ref → Ref → M VNode

/-- The argument `n2.children` of `createText`, `setText`, ...: the string, if
it is one. -/
def textOf : Children VNode → Option String
  | .str s => some s
  | _ => none

/-- The loop `children.forEach(child => patch(null, child, container))`. -/
def mountEach (patch : PatchFn) (container : Ref) : List VNode → M (List VNode)
  | [] => pure []
  | c :: cs => do
    let c1 ← patch none c container none
    let cs1 ← mountEach patch container cs
    pure (c1 :: cs1)

/-- The loop `for (const key in vnode.props) patchProps(el, key, null, ...)`
of `mountElement`. -/
def mountProps (el : Ref) : Props → M Unit
  | [] => pure ()
  | (key, v) :: rest => do
    patchProps el key JSVal.null v
    mountProps el rest

/-- The function `mountElement(vnode, container, anchor)`; `patch` is the
function it calls recursively. -/
def mountElement (patch : PatchFn) (vnode : VNode) (container anchor : Ref) : M VNode := do
  let el ← createElement vnode.type
  let vnode := vnode.setEl (some el)
  let vnode ← (match vnode.children with
    | .str s => do
      setElementText (some el) s
      pure vnode
    | .arr cs => do
      let cs1 ← mountEach patch (some el) cs
      pure (vnode.setChildren cs1)
    | .absent => pure vnode)
  match vnode.props with
  | some props => mountProps (some el) props
  | none => pure ()
  insert (some el) container anchor
  pure vnode

/-- The names of the members every ordinary object inherits from
`Object.prototype`. -/
def protoNames : List String :=
  ["constructor", "hasOwnProperty", "isPrototypeOf", "propertyIsEnumerable",
    "toLocaleString", "toString", "valueOf", "__proto__", "__defineGetter__",
    "__defineSetter__", "__lookupGetter__", "__lookupSetter__"]

/-- The property read `props[key]`: the own value, else the member inherited
from `Object.prototype`, else `undefined`. -/
def propAt (props : Props) (key : String) : JSVal :=
  match props.lookup key with
  | some v => v
  | none => if key ∈ protoNames then JSVal.inherited key else JSVal.undefined

/-- The test `key in props`: true for an own key and for a name inherited from
`Object.prototype`. -/
def hasKey (props : Props) (key : String) : Bool :=
  (props.lookup key).isSome || decide (key ∈ protoNames)

/-- The first loop of `patchElement`: `for (const key in newProps)`, over the
remaining keys `rest` of `newProps`. -/
def patchNewProps (el : Ref) (oldProps : Option Props) (newProps : Props) : Props → M Unit
  | [] => pure ()
  | (key, _) :: rest => do
    let old ← deref oldProps
    if propAt newProps key ≠ propAt old key then
      patchProps el key (propAt old key) (propAt newProps key)
    patchNewProps el oldProps newProps rest

/-- The second loop of `patchElement`: `for (const key in oldProps)`, over the
remaining keys `rest` of `oldProps`. -/
def patchOldProps (el : Ref) (oldProps : Props) (newProps : Option Props) : Props → M Unit
  | [] => pure ()
  | (key, _) :: rest => do
    let new ← deref newProps
    if ¬ hasKey new key then
      patchProps el key (propAt oldProps key) JSVal.null
    patchOldProps el oldProps newProps rest

/-- The prefix loop of `patchKeyeChildren` (lines 151-159):
`while (oldVNode.key === newVNode.key)`, entered with cursor `j`. Returns the
final `j` and the updated `newChildren`. The first argument bounds the number
of iterations; `oldChildren.length + 1` is enough, since `oldChildren[j]` is
`undefined` once `j` reaches the length. -/
def prefixLoop (patch : PatchFn) (oldChildren : List VNode) (container : Ref) :
    Nat → Nat → List VNode → M (Nat × List VNode)
  | 0, _, _ => throw Err.fuel
  | fuel + 1, j, newChildren => do
    let oldVNode ← deref (idx oldChildren j)
    let newVNode ← deref (idx newChildren j)
    if oldVNode.key = newVNode.key then
      let n ← patch (some oldVNode) newVNode container none
      prefixLoop patch oldChildren container fuel (j + 1) (setIdx newChildren j n)
    else
      pure (j, newChildren)

/-- The suffix loop of `patchKeyeChildren` (lines 162-172), entered with the
two cursors, the current `oldVNode`, and the current `newVNode` together with
the index `cur` it was read from: `newEnd` before the first iteration and
`oldEnd` afterwards, as line 171 reads `newChildren[oldEnd]`. Returns the final
`oldEnd`, `newEnd` and the updated `newChildren`. -/
def suffixLoop (patch : PatchFn) (oldChildren : List VNode) (container : Ref) :
    Nat → Int → Int → Option VNode → Int → List VNode → M (Int × Int × List VNode)
  | 0, _, _, _, _, _ => throw Err.fuel
  | fuel + 1, oldEnd, newEnd, oldVNode, cur, newChildren => do
    let o ← deref oldVNode
    let n ← deref (idx newChildren cur)
    if o.key = n.key then
      let n1 ← patch (some o) n container none
      let newChildren := setIdx newChildren cur n1
      let oldEnd := oldEnd - 1
      let newEnd := newEnd - 1
      suffixLoop patch oldChildren container fuel oldEnd newEnd
        (idx oldChildren oldEnd) oldEnd newChildren
    else
      pure (oldEnd, newEnd, newChildren)

/-- The anchor `nextPos < newChildren.length ? newChildren[nextPos].el : null`. -/
def anchorAt (newChildren : List VNode) (nextPos : Int) : M Ref :=
  if nextPos < newChildren.length then do
    let n ← deref (idx newChildren nextPos)
    pure n.el
  else
    pure none

/-- The loop `while (j <= newEnd) patch(null, newChildren[j++], container, anchor)`
of the insertion branch (lines 179-181); the first argument is the number of
iterations, `newEnd - j + 1`. -/
def insertLoop (patch : PatchFn) (container anchor : Ref) :
    Nat → Nat → List VNode → M (List VNode)
  | 0, _, newChildren => pure newChildren
  | n + 1, j, newChildren => do
    let v ← deref (idx newChildren j)
    let v1 ← patch none v container anchor
    insertLoop patch container anchor n (j + 1) (setIdx newChildren j v1)

/-- The loop `while (j <= oldEnd) unmount(oldChildren[j++])` of the removal
branch (lines 184-186); the first argument is the number of iterations,
`oldEnd - j + 1`. -/
def removeLoop (oldChildren : List VNode) : Nat → Nat → M Unit
  | 0, _ => pure ()
  | n + 1, j => do
    let v ← deref (idx oldChildren j)
    unmount v
    removeLoop oldChildren n (j + 1)

/-- The loop `for (let i = newStart; i <= newEnd; i++) keyIndex[newChildren[i].key] = i`
(lines 201-203); a later entry for the same key hides the earlier one. The
first argument is the number of iterations. -/
def buildKeyIndex (newChildren : List VNode) :
    Nat → Nat → List (Option Nat × Nat) → M (List (Option Nat × Nat))
  | 0, _, keyIndex => pure keyIndex
  | n + 1, i, keyIndex => do
    let v ← deref (idx newChildren i)
    buildKeyIndex newChildren n (i + 1) ((v.key, i) :: keyIndex)

/-- The variables the walk over the old remainder updates. -/
structure WalkState where
  newChildren : List VNode
  source : List Int
  patched : Nat
  moved : Bool
  pos : Nat

/-- The loop `for (let i = oldStart; i <= oldEnd; i++)` (lines 207-236); the
first argument is the number of iterations, `oldEnd - oldStart + 1`. -/
def walkOld (patch : PatchFn) (oldChildren : List VNode) (container : Ref)
    (keyIndex : List (Option Nat × Nat)) (count : Nat) (newStart : Nat) :
    Nat → Nat → WalkState → M WalkState
  | 0, _, st => pure st
  | n + 1, i, st => do
    let oldVNode := idx oldChildren i
    if st.patched ≤ count then
      let o ← deref oldVNode
      match keyIndex.lookup o.key with
      | some k =>
        let newVNode ← deref (idx st.newChildren k)
        let n1 ← patch (some o) newVNode container none
        let st1 : WalkState :=
          { newChildren := setIdx st.newChildren k n1
            source := setIdx st.source ((k : Int) - newStart) i
            patched := st.patched + 1
            moved := if k < st.pos then true else st.moved
            pos := if k < st.pos then st.pos else k }
        walkOld patch oldChildren container keyIndex count newStart n (i + 1) st1
      | none =>
        unmount o
        walkOld patch oldChildren container keyIndex count newStart n (i + 1) st
    else
      let o ← deref oldVNode
      unmount o
      walkOld patch oldChildren container keyIndex count newStart n (i + 1) st

/-- The loop `for (i; i >= 0; i--)` of the move phase (lines 246-271), entered
with `i + 1` as first argument and the cursor `s` into `seq`. -/
def moveLoop (patch : PatchFn) (container : Ref) (source : List Int) (seq : List JSNum)
    (newStart : Nat) : Nat → Int → List VNode → M (List VNode)
  | 0, _, newChildren => pure newChildren
  | i + 1, s, newChildren =>
    if idx source i = some (-1) then do
      let pos : Int := (i : Int) + newStart
      let newVNode ← deref (idx newChildren pos)
      let anchor ← anchorAt newChildren (pos + 1)
      let n1 ← patch none newVNode container anchor
      moveLoop patch container source seq newStart i s (setIdx newChildren pos n1)
    else if some (i : Int) ≠ (idx seq s).join then do
      let pos : Int := (i : Int) + newStart
      let newVNode := idx newChildren pos
      let anchor ← anchorAt newChildren (pos + 1)
      let v ← deref newVNode
      insert v.el container anchor
      moveLoop patch container source seq newStart i s newChildren
    else
      moveLoop patch container source seq newStart i (s - 1) newChildren

/-- The function `patchKeyeChildren(n1, n2, container)` (lines 146-274);
`patch` is the function it calls on every pair. The result is `n2` with its
`children` as the call left them. -/
def patchKeyeChildren (patch : PatchFn) (n1 n2 : VNode) (container : Ref) : M VNode := do
  let oldChildren ← deref (arrayLike n1.children)
  let newChildren ← deref (arrayLike n2.children)
  -- lines 151-159
  let (j, newChildren) ←
    prefixLoop patch oldChildren container (oldChildren.length + 1) 0 newChildren
  -- lines 162-172
  let oldEnd : Int := (oldChildren.length : Int) - 1
  let newEnd : Int := (newChildren.length : Int) - 1
  let (oldEnd, newEnd, newChildren) ←
    suffixLoop patch oldChildren container (oldChildren.length + 1) oldEnd newEnd
      (idx oldChildren oldEnd) newEnd newChildren
  if (j : Int) > oldEnd ∧ (j : Int) ≤ newEnd then
    -- lines 177-181
    let anchor ← anchorAt newChildren (newEnd + 1)
    let newChildren ← insertLoop patch container anchor (newEnd - j + 1).toNat j newChildren
    pure (n2.setChildren newChildren)
  else if (j : Int) > newEnd ∧ (j : Int) ≤ oldEnd then
    -- lines 184-186
    removeLoop oldChildren (oldEnd - j + 1).toNat j
    pure (n2.setChildren newChildren)
  else
    -- lines 188-203
    let count : Int := newEnd - j + 1
    if count < 0 then throw Err.rangeError
    let source : List Int := List.replicate count.toNat (-1)
    let keyIndex ← buildKeyIndex newChildren (newEnd - j + 1).toNat j []
    -- lines 205-236
    let st ← walkOld patch oldChildren container keyIndex count.toNat j
      (oldEnd - j + 1).toNat j
      { newChildren := newChildren, source := source, patched := 0, moved := false, pos := 0 }
    -- lines 239-272
    if st.moved then
      let seq := getSequence st.source
      let s : Int := (seq.length : Int) - 1
      let newChildren ← moveLoop patch container st.source seq j count.toNat s st.newChildren
      pure (n2.setChildren newChildren)
    else
      pure (n2.setChildren st.newChildren)

/-- The function `patchChildren(n1, n2, container)`. -/
def patchChildren (patch : PatchFn) (n1 n2 : VNode) (container : Ref) : M VNode :=
  match n2.children with
  | .str s => do
    match n1.children with
    | .arr cs => unmountEach cs
    | _ => pure ()
    setElementText container s
    pure n2
  | .arr _ => patchKeyeChildren patch n1 n2 container
  | .absent => do
    match n1.children with
    | .arr cs => unmountEach cs
    | _ => setElementText container ""
    pure n2

/-- The function `patchElement(n1, n2)`. -/
def patchElement (patch : PatchFn) (n1 n2 : VNode) : M VNode := do
  let el := n1.el
  let n2 := n2.setEl el
  let oldProps := n1.props
  let newProps := n2.props
  match newProps with
  | some ps => patchNewProps el oldProps ps ps
  | none => pure ()
  match oldProps with
  | some ps => patchOldProps el ps newProps ps
  | none => pure ()
  patchChildren patch n1 n2 el

/-- The body of `patch(n1, n2, container, anchor)`, with `patch` standing for
its recursive calls. -/
def patchStep (patch : PatchFn) (n1 : Option VNode) (n2 : VNode)
    (container anchor : Ref) : M VNode := do
  -- lines 39-42
  let n1 ← (match n1 with
    | some o =>
      if o.type ≠ n2.type then do
        unmount o
        pure none
      else pure (some o)
    | none => pure none)
  match n2.type with
  | .tag _ =>
    match n1 with
    | none => mountElement patch n2 container anchor
    | some o => patchElement patch o n2
  | .component _ => pure n2
  | .Text =>
    match n1 with
    | none => do
      let el ← createText (textOf n2.children)
      insert (some el) container none
      pure (n2.setEl (some el))
    | some o => do
      let el := o.el
      if ¬ childrenStrictEq n2.children o.children then
        setText el (textOf n2.children)
      pure (n2.setEl el)
  | .Comment =>
    match n1 with
    | none => do
      let el ← createComment (textOf n2.children)
      insert (some el) container none
      pure (n2.setEl (some el))
    | some o => do
      let el := o.el
      if ¬ childrenStrictEq n2.children o.children then
        setComment el (textOf n2.children)
      pure (n2.setEl el)
  | .Fragment =>
    match n1 with
    | none =>
      match n2.children with
      | .arr cs => do
        let cs1 ← mountEach patch container cs
        pure (n2.setChildren cs1)
      | _ => throw Err.typeError
    | some o => patchChildren patch o n2 container
  | .undef => pure n2

/-- The function `patch(n1, n2, container, anchor)`, unfolded to recursion
depth `fuel`: a call nested deeper than `fuel` ends with `Err.fuel`. The
recursion descends into the children of `n2`, so the nesting depth of `n2` is
always enough. -/
def patch : Nat → PatchFn
  | 0 => fun _ _ _ _ => throw Err.fuel
  | fuel + 1 => patchStep (patch fuel)

/-! ## Observing a run -/

/-- A host tree given by the child lists of its inner handles: `x` is a child
of `p` when `(p, xs)` is listed with `x` in `xs`. No adapter call has been made
yet, and the next unused handle is above every handle of the tree. -/
def Host.tree (t : List (Handle × List Handle)) : Host where
  next := (t.map fun e => (e.1 :: e.2).foldl max 0).foldl max 0 + 1
  parentNode := fun x => (t.find? fun e => decide (x ∈ e.2)).map Prod.fst
  childNodes := fun x => (t.lookup x).getD []
  log := []

/-- A host tree in which `els` are the children of `container`, in this
order, and nothing else is attached. -/
def Host.mounted (container : Handle) (els : List Handle) : Host :=
  Host.tree [(container, els)]

/-- The handles created by the calls of a log (mounts). -/
def created : List HostOp → List Handle
  | [] => []
  | .createElement _ el :: rest => el :: created rest
  | .createText _ el :: rest => el :: created rest
  | .createComment _ el :: rest => el :: created rest
  | _ :: rest => created rest

/-- The handles removed by the `removeChild` calls of a log (unmounts). -/
def removed : List HostOp → List Handle
  | [] => []
  | .removeChild _ el :: rest => el :: removed rest
  | _ :: rest => removed rest

/-- The `insert` calls of a log, as pairs of handle and anchor. -/
def inserted : List HostOp → List (Handle × Ref)
  | [] => []
  | .insert el _ anchor :: rest => (el, anchor) :: inserted rest
  | _ :: rest => inserted rest

/-- The moves of a log: the `insert` calls on a handle that the log did not
create, as pairs of handle and anchor. -/
def moves (log : List HostOp) : List (Handle × Ref) :=
  (inserted log).filter fun m => m.1 ∉ created log

/-- What a call left behind: the error it ended with, if any; the pairs
`(key, el)` of the new children when it returned; the children of the
container; the log of adapter calls. -/
structure Outcome where
  error : Option Err
  els : List (Option Nat × Ref)
  childNodes : List Handle
  log : List HostOp
deriving DecidableEq, Repr

/-- The pairs `(key, el)` of the children array of a vnode. -/
def keyEls (v : VNode) : List (Option Nat × Ref) :=
  match v.children with
  | .arr cs => cs.map fun c => (c.key, c.el)
  | _ => []

/-- Run a computation on a host tree. -/
def exec {α : Type} (m : M α) (h : Host) : Except Err α × Host := m.run.run h

/-- Run a call on a host tree and observe `container`. -/
def observe (m : M VNode) (h : Host) (container : Handle) : Outcome :=
  match exec m h with
  | (.ok v, h1) =>
    { error := none, els := keyEls v, childNodes := h1.childNodes container, log := h1.log }
  | (.error e, h1) =>
    { error := some e, els := [], childNodes := h1.childNodes container, log := h1.log }

/-- An element vnode `{ type: 'li', key, el }` without props and children. -/
def li (key : Nat) (el : Ref) : VNode :=
  .mk (.tag "li") (some key) none .absent el

/-- An element vnode `{ type: 'ul', children, el }` holding a sibling
sequence. -/
def ul (children : List VNode) (el : Ref) : VNode :=
  .mk (.tag "ul") none none (.arr children) el

/-- An element vnode `{ type: 'li', key, children, el }` with an array of
children. -/
def liWith (key : Nat) (children : List VNode) (el : Ref) : VNode :=
  .mk (.tag "li") (some key) none (.arr children) el

/-- The call `patchKeyeChildren(n1, n2, container)` for the sibling sequences
`old` and `new` under `container`, with `patch` unfolded to depth `fuel`,
observed on the host tree `h`. -/
def reconcile (fuel : Nat) (old new : List VNode) (h : Host) (container : Handle) : Outcome :=
  observe
    (patchKeyeChildren (patch fuel) (ul old (some container)) (ul new (some container))
      (some container))
    h container

/-- Reconcile `old` to `new` and then the result back to `back` (two
`patchKeyeChildren` calls, the second one starting from the vnodes the first
one left). -/
def roundTrip (fuel : Nat) (old new back : List VNode) (h : Host) (container : Handle) :
    Outcome :=
  observe
    (do
      let n2 ← patchKeyeChildren (patch fuel) (ul old (some container))
        (ul new (some container)) (some container)
      patchKeyeChildren (patch fuel) n2 (ul back (some container)) (some container))
    h container

/-- Whether a list of numbers is strictly increasing. -/
def strictlyIncreasing : List Int → Bool
  | [] => true
  | [_] => true
  | a :: b :: rest => decide (a < b) && strictlyIncreasing (b :: rest)

/-- The length of a longest strictly increasing subsequence of `xs`, by
enumeration of all subsequences. -/
def lisLength (xs : List Int) : Nat :=
  ((xs.sublists.filter strictlyIncreasing).map List.length).foldl max 0

/-! ## Recursion depth -/

/-- The computation `m1` agrees with `m` wherever `m` does not end with
`Err.fuel`. -/
def Approx {α : Type} (m m1 : M α) : Prop :=
  ∀ h, (exec m h).1 ≠ Except.error Err.fuel → exec m1 h = exec m h

/-- The function `q` agrees with `p` wherever `p` does not end with
`Err.fuel`. -/
def PApprox (p q : PatchFn) : Prop := ∀ a b c d, Approx (p a b c d) (q a b c d)

/-! ## Auxiliary definitions for the reversal of childless elements -/

/-- A host tree whose only inner node is `c`: the children of `c` are `L`, all
of them have `c` as parent, no other handle has children, and the log is
`lg`. -/
structure Flat (h : Host) (c : Handle) (L : List Handle) (lg : List HostOp) : Prop where
  kids : h.childNodes c = L
  leaf : ∀ x, x ≠ c → h.childNodes x = []
  par : ∀ x ∈ L, h.parentNode x = some c
  log : h.log = lg

/-- The sibling sequence of `n` childless `li` elements, the `i`-th with key
`k i` on handle `e i`. -/
def leaves (k e : Nat → Nat) (n : Nat) : List VNode :=
  (List.range n).map fun i => li (k i) (some (e i))

/-- The `source` array of the reversal of `n` nodes after `m` old nodes were
walked. -/
def revSource (n m : Nat) : List Int :=
  (List.range n).map fun x => if n - m ≤ x then ((n - 1 - x : Nat) : Int) else -1

/-- The variables of the walk of the reversal of `n` nodes after `m` old nodes
were walked. -/
def revWalk (k e : Nat → Nat) (n m : Nat) : WalkState where
  newChildren := (leaves k e n).reverse
  source := revSource n m
  patched := m
  moved := decide (2 ≤ m)
  pos := if m = 0 then 0 else n - 1

/-- The children of the container during the move phase of the reversal of
`n` nodes, once the handles `e 1 .. e m` are in their final, reversed order:
`e m, .., e 1`, then `e (m + 1), .., e (n - 1)` still in the old order, then
`e 0`, which was moved to the end first. -/
def revKids (e : Nat → Nat) (n m : Nat) : List Handle :=
  ((List.range' 1 m).map e).reverse ++ (List.range' (m + 1) (n - 1 - m)).map e ++ [e 0]

/-- The log of the reversal of `n` childless elements: every pair is patched,
then `e 0` is moved to the end, then `e 2, .., e (n - 1)` are moved, each
before its predecessor. -/
def revLog (e : Nat → Nat) (n : Nat) (c : Handle) : List HostOp :=
  ((List.range' 0 n).map fun m => HostOp.setElementText (e m) "") ++
    [HostOp.insert (e 0) c none] ++
    (List.range' 1 (n - 2)).map fun x => HostOp.insert (e (x + 1)) c (some (e x))

/-! ## The phases of `patchKeyeChildren` -/

/-- The two trims of `patchKeyeChildren` (lines 151-172): the prefix loop from
`j = 0` and the suffix loop from the two last indices. Returns the cursors
`j`, `oldEnd`, `newEnd` and the `newChildren` the loops left. -/
def trims (patch : PatchFn) (oldChildren newChildren : List VNode) (container : Ref) :
    M (Nat × Int × Int × List VNode) := do
  let (j, newChildren) ←
    prefixLoop patch oldChildren container (oldChildren.length + 1) 0 newChildren
  let oldEnd : Int := (oldChildren.length : Int) - 1
  let newEnd : Int := (newChildren.length : Int) - 1
  let (oldEnd, newEnd, newChildren) ←
    suffixLoop patch oldChildren container (oldChildren.length + 1) oldEnd newEnd
      (idx oldChildren oldEnd) newEnd newChildren
  pure (j, oldEnd, newEnd, newChildren)

/-- Lines 188-236 of `patchKeyeChildren`: `source`, the index table and the
walk over the old remainder. Returns the variables the walk left. -/
def indexAndWalk (patch : PatchFn) (oldChildren : List VNode) (container : Ref)
    (j : Nat) (oldEnd newEnd : Int) (newChildren : List VNode) : M WalkState := do
  let count : Int := newEnd - j + 1
  if count < 0 then throw Err.rangeError
  let source : List Int := List.replicate count.toNat (-1)
  let keyIndex ← buildKeyIndex newChildren (newEnd - j + 1).toNat j []
  walkOld patch oldChildren container keyIndex count.toNat j
    (oldEnd - j + 1).toNat j
    { newChildren := newChildren, source := source, patched := 0, moved := false, pos := 0 }

/-- Lines 174-273 of `patchKeyeChildren`: the three branches taken once the
trims have ended with the cursors `j`, `oldEnd`, `newEnd`. -/
def afterTrims (patch : PatchFn) (n2 : VNode) (oldChildren : List VNode) (container : Ref)
    (j : Nat) (oldEnd newEnd : Int) (newChildren : List VNode) : M VNode := do
  if (j : Int) > oldEnd ∧ (j : Int) ≤ newEnd then
    let anchor ← anchorAt newChildren (newEnd + 1)
    let newChildren ← insertLoop patch container anchor (newEnd - j + 1).toNat j newChildren
    pure (n2.setChildren newChildren)
  else if (j : Int) > newEnd ∧ (j : Int) ≤ oldEnd then
    removeLoop oldChildren (oldEnd - j + 1).toNat j
    pure (n2.setChildren newChildren)
  else
    let st ← indexAndWalk patch oldChildren container j oldEnd newEnd newChildren
    if st.moved then
      let seq := getSequence st.source
      let s : Int := (seq.length : Int) - 1
      let newChildren ← moveLoop patch container st.source seq j
        (newEnd - j + 1).toNat s st.newChildren
      pure (n2.setChildren newChildren)
    else
      pure (n2.setChildren st.newChildren)

/-- The cursors `(j, oldEnd, newEnd)` the trims of `patchKeyeChildren` end
with, when they end without error. -/
def trimsOutcome (fuel : Nat) (old new : List VNode) (h : Host) (container : Handle) :
    Option (Nat × Int × Int) :=
  match exec (trims (patch fuel) old new (some container)) h with
  | (.ok r, _) => some (r.1, r.2.1, r.2.2.1)
  | (.error _, _) => none

/-- The trims followed by the walk of the general case: the pair
`(count, patched)` when the walk has ended without error. -/
def walkOutcome (fuel : Nat) (old new : List VNode) (h : Host) (container : Handle) :
    Option (Int × Nat) :=
  match exec (do
      let r ← trims (patch fuel) old new (some container)
      let st ← indexAndWalk (patch fuel) old (some container) r.1 r.2.1 r.2.2.1 r.2.2.2
      pure (r.2.2.1 - r.1 + 1, st.patched)) h with
  | (.ok r, _) => some r
  | (.error _, _) => none

/-- Whenever the computation `m` returns, its result satisfies `P`. -/
def Ensures {α : Type} (m : M α) (P : α → Prop) : Prop :=
  ∀ h a h1, exec m h = (.ok a, h1) → P a

/-- The length of the longest common suffix of two lists of keys. -/
def commonSuffixLength (a b : List (Option Nat)) : Nat :=
  ((a.reverse.zip b.reverse).takeWhile fun p => p.1 == p.2).length

/-- A text vnode `{ type: Text, key, children: text, el }`. -/
def textNode (key : Nat) (text : String) (el : Ref) : VNode :=
  .mk .Text (some key) none (.str text) el

/-- A comment vnode `{ type: Comment, key, children: text, el }`. -/
def commentNode (key : Nat) (text : String) (el : Ref) : VNode :=
  .mk .Comment (some key) none (.str text) el

/-- The host tree after the adapter calls `ops` were recorded. -/
def Host.logged (h : Host) (ops : List HostOp) : Host :=
  { h with log := h.log ++ ops }

/-- The `patchProps` calls the spec requires of `patchElement` on handle `el`:
one call `patchProps(el, key, oldProps[key], newProps[key])` for each key of
`newProps` whose value differs from `oldProps[key]`, then one call
`patchProps(el, key, oldProps[key], null)` for each key of `oldProps` that is
absent from `newProps`, that is, not one of its keys. -/
def specPropCalls (el : Handle) (oldProps newProps : Props) : List HostOp :=
  ((newProps.filter fun kv => decide (kv.2 ≠ propAt oldProps kv.1)).map fun kv =>
      HostOp.patchProps el kv.1 (propAt oldProps kv.1) kv.2) ++
    ((oldProps.filter fun kv => (newProps.lookup kv.1).isNone).map fun kv =>
      HostOp.patchProps el kv.1 kv.2 JSVal.null)

/-- The `patchProps` calls of the amended claim: as `specPropCalls`, but a key
of `oldProps` is removed only if `key in newProps` is false, so a key that
`newProps` inherits from `Object.prototype` is never removed. -/
def inPropCalls (el : Handle) (oldProps newProps : Props) : List HostOp :=
  ((newProps.filter fun kv => decide (kv.2 ≠ propAt oldProps kv.1)).map fun kv =>
      HostOp.patchProps el kv.1 (propAt oldProps kv.1) kv.2) ++
    ((oldProps.filter fun kv => !hasKey newProps kv.1).map fun kv =>
      HostOp.patchProps el kv.1 kv.2 JSVal.null)

/-- An element vnode `{ type: 'li', key, props, el }` with props and without
children. -/
def liProps (key : Nat) (props : Props) (el : Ref) : VNode :=
  .mk (.tag "li") (some key) (some props) .absent el

/-- The host tree after `parent.removeChild(el)`. -/
def Host.without (h : Host) (parent el : Handle) : Host :=
  { h with
    parentNode := fun x => if x = el then none else h.parentNode x
    childNodes := fun x => if x = parent then (h.childNodes parent).erase el else h.childNodes x
    log := h.log ++ [HostOp.removeChild parent el] }

/-- The computation `m` returns, when it returns, a vnode with the key of
`n2`. -/
def KeepsKey (m : M VNode) (n2 : VNode) : Prop :=
  ∀ h v h1, exec m h = (.ok v, h1) → v.key = n2.key

/-- Both sequences have a node at index `i`, and the two keys are equal. -/
def Matched (old new : List VNode) (i : Nat) : Prop :=
  ∃ o n, idx old (i : Int) = some o ∧ idx new (i : Int) = some n ∧ o.key = n.key

/-- Both sequences have a node at index `i`, and the two keys differ. -/
def Differ (old new : List VNode) (i : Nat) : Prop :=
  ∃ o n, idx old (i : Int) = some o ∧ idx new (i : Int) = some n ∧ o.key ≠ n.key

/-! ## Auxiliary definitions for `getSequence` -/

/-- The value `arr[i]` of an in-range index (and `0` outside the array). -/
def valueAt (arr : List Int) (i : Nat) : Int := arr.getD i 0

/-- A list of indices as a JavaScript array of numbers. -/
def toJS (rs : List Nat) : List JSNum := rs.map fun (r : Nat) => some (r : Int)

/-- The value `arr[result[t]]` when `result` is the array of the indices `rs`. -/
def tailAt (arr : List Int) (rs : List Nat) (t : Nat) : Int := valueAt arr (rs.getD t 0)

/-- The array `p` links the indices of a chain, last index first: `p[b] = a`
for every neighbouring pair `b`, `a`. -/
def Linked (p : List JSNum) (ch : List Nat) : Prop :=
  ch.Chain' fun (b a : Nat) => valAt p (some (b : Int)) = some (a : Int)

/-- The state `(p, result)` of `getSequence` once the indices below `i` are
done: `result` holds indices below `i` whose values increase strictly, and
`result[t]` ends a chain of `t + 1` indices, linked by `p`, along which the
indices and the values decrease strictly when read from the end. -/
structure GsInv (arr : List Int) (i : Nat) (p : List JSNum) (rs : List Nat) : Prop where
  plen : p.length = arr.length
  pos : 0 < rs.length
  bound : ∀ r ∈ rs, r < i
  mono : ∀ s t, s < t → t < rs.length → tailAt arr rs s < tailAt arr rs t
  chain : ∀ t, t < rs.length → ∃ ch : List Nat, ch.length = t + 1 ∧
    ch.head? = some (rs.getD t 0) ∧ ch.Pairwise (· > ·) ∧
    (ch.map (valueAt arr)).Pairwise (· > ·) ∧ Linked p ch

/-- The state of `getSequence` is optimal for the indices below `i`: every
strictly increasing subsequence `is0 ++ [l]` of them is no longer than
`result`, and the value `result` holds at its length is at most its last
value. -/
def GsOpt (arr : List Int) (i : Nat) (rs : List Nat) : Prop :=
  ∀ (is0 : List Nat) (l : Nat), (is0 ++ [l]).Pairwise (· < ·) → l < i →
    ((is0 ++ [l]).map (valueAt arr)).Pairwise (· < ·) →
    is0.length < rs.length ∧ tailAt arr rs is0.length ≤ valueAt arr l

/-! ## Auxiliary definitions for the reconciliation of a permutation of leaves -/

/-- The list `[f 0, .., f (n - 1)]`. -/
def tab {α : Type} (f : Nat → α) (n : Nat) : List α := (List.range n).map f

/-- A flat host tree whose log holds no mount and no unmount. -/
def QFlat (h : Host) (c : Handle) (L : List Handle) : Prop :=
  ∃ lg, Flat h c L lg ∧ created lg = [] ∧ removed lg = []

/-- Patching the mounted node `o` into `n` under the container `c` returns on
every flat host tree, gives `n` the handle of `o`, leaves the children of `c`
as they are and neither mounts nor unmounts. -/
def QuietPatch (p : PatchFn) (c : Handle) (o n : VNode) : Prop :=
  ∀ (h : Host) (L : List Handle), QFlat h c L →
    ∃ h1, exec (p (some o) n (some c) none) h = (.ok (n.setEl o.el), h1) ∧ QFlat h1 c L

/-- A leaf: a text node, a comment node, or an element whose children are
absent or a string. -/
def isLeaf (v : VNode) : Bool :=
  match v.type, v.children with
  | .tag _, .absent => true
  | .tag _, .str _ => true
  | .Text, _ => true
  | .Comment, _ => true
  | _, _ => false

/-- The setting of the reconciliation of a permutation: the old nodes
`O 0, .., O (n - 1)` are mounted on the handles `e 0, .., e (n - 1)` under `c`,
the new node `N i` has the key of the old node `O (σ i)`, with `τ` the inverse
of `σ`, the keys are unique, every pair of nodes with the same key is patched
quietly by `p`, and `j0` and `E0` are the first and the last index that `σ`
moves. -/
structure PermRun (p : PatchFn) (c : Handle) (n : Nat) (O N : Nat → VNode)
    (e σ τ : Nat → Nat) (j0 E0 : Nat) : Prop where
  el : ∀ i, i < n → (O i).el = some (e i)
  key : ∀ i, i < n → (N i).key = (O (σ i)).key
  keyInj : ∀ a b, a < n → b < n → (O a).key = (O b).key → a = b
  slt : ∀ i, i < n → σ i < n
  tlt : ∀ i, i < n → τ i < n
  st : ∀ i, i < n → σ (τ i) = i
  ts : ∀ i, i < n → τ (σ i) = i
  eInj : ∀ a b, a < n → b < n → e a = e b → a = b
  eNe : ∀ i, i < n → e i ≠ c
  quiet : ∀ i, i < n → QuietPatch p c (O (σ i)) (N i)
  fixLo : ∀ i, i < j0 → σ i = i
  fixHi : ∀ i, E0 < i → i < n → σ i = i
  moveLo : σ j0 ≠ j0
  moveHi : σ E0 ≠ E0
  loLt : j0 < n
  hiLt : E0 < n

/-- The new node `N i` once it was patched: it is on the handle of the old
node with its key. -/
def patchedNode (N : Nat → VNode) (e σ : Nat → Nat) (i : Nat) : VNode :=
  (N i).setEl (some (e (σ i)))

/-- The array `newChildren` once the trims are done and the old nodes below
`i` are walked: the new nodes outside `j0 .. E0` and those with the key of a
walked old node are patched. -/
def walkNew (N : Nat → VNode) (e σ : Nat → Nat) (j0 E0 n i : Nat) : List VNode :=
  tab (fun x => if x < j0 ∨ E0 < x ∨ σ x < i then patchedNode N e σ x else N x) n

/-- The array `source` once the old nodes below `i` are walked. -/
def walkSource (σ : Nat → Nat) (j0 E0 i : Nat) : List Int :=
  tab (fun t => if σ (j0 + t) < i then ((σ (j0 + t) : Nat) : Int) else -1) (E0 - j0 + 1)

/-- The indices of `qs` that satisfy `S` are in increasing order. -/
def SortedOn (S : Nat → Prop) (qs : List Nat) : Prop :=
  qs.Pairwise fun x y => S x → S y → x < y

/-- The new indices that are in their final relative order when the move loop
is about to handle the index `m - 1` of the new remainder: the trimmed ones,
the ones the loop has handled, and the ones `getSequence` returned. -/
def settled (is : List Nat) (j0 m k : Nat) : Prop :=
  k < j0 ∨ j0 + m ≤ k ∨ (j0 ≤ k ∧ k - j0 ∈ is)

/-- The first index at which the key `k` occurs in a list of keys. -/
def keyIdx (ks : List (Option Nat)) (k : Option Nat) : Nat :=
  ks.findIdx fun x => decide (x = k)

/-! ## Lemmas: more recursion depth never changes a result -/

theorem exec_bind {α β : Type} (m : M α) (f : α → M β) (h : Host) :
    exec (m >>= f) h =
      match exec m h with
      | (.ok a, h1) => exec (f a) h1
      | (.error e, h1) => (.error e, h1) := by
  simp only [exec, ExceptT.run_bind]
  show (StateT.run (ExceptT.run m >>= _) h) = _
  simp only [StateT.run_bind]
  show (match ExceptT.run m h with | (a, s) => _) = _
  rcases hm : ExceptT.run m h with ⟨r, h1⟩
  have : StateT.run (ExceptT.run m) h = (r, h1) := hm
  rw [this]
  cases r <;> rfl

theorem exec_pure {α : Type} (a : α) (h : Host) : exec (pure a : M α) h = (.ok a, h) := rfl

theorem exec_throw {α : Type} (e : Err) (h : Host) :
    exec (throw e : M α) h = (.error e, h) := rfl

theorem Approx.refl {α : Type} (m : M α) : Approx m m := fun _ _ => rfl

theorem Approx.bind {α β : Type} {m m1 : M α} {f f1 : α → M β}
    (hm : Approx m m1) (hf : ∀ a, Approx (f a) (f1 a)) : Approx (m >>= f) (m1 >>= f1) := by
  intro h hne
  rw [exec_bind] at hne ⊢
  rw [exec_bind]
  rcases hx : exec m h with ⟨r, h1⟩
  rw [hx] at hne
  cases r with
  | error e =>
    have hne1 : (Except.error e : Except Err α) ≠ Except.error Err.fuel := by
      intro h2
      apply hne
      cases h2
      rfl
    have := hm h (by rw [hx]; exact hne1)
    rw [this, hx]
  | ok a =>
    have := hm h (by rw [hx]; simp)
    rw [this, hx]
    exact hf a h1 hne

theorem mountEach_mono {p q : PatchFn} (hpq : PApprox p q) (c : Ref) :
    ∀ cs, Approx (mountEach p c cs) (mountEach q c cs)
  | [] => Approx.refl _
  | x :: xs => by
    unfold mountEach
    exact Approx.bind (hpq _ _ _ _) fun _ =>
      Approx.bind (mountEach_mono hpq c xs) fun _ => Approx.refl _

theorem mountElement_mono {p q : PatchFn} (hpq : PApprox p q) (v : VNode) (c a : Ref) :
    Approx (mountElement p v c a) (mountElement q v c a) := by
  unfold mountElement
  refine Approx.bind (Approx.refl _) fun el => ?_
  refine Approx.bind ?_ fun _ => Approx.refl _
  split
  · exact Approx.refl _
  · exact Approx.bind (mountEach_mono hpq _ _) fun _ => Approx.refl _
  · exact Approx.refl _

theorem prefixLoop_mono {p q : PatchFn} (hpq : PApprox p q) (old : List VNode) (c : Ref) :
    ∀ fuel j new, Approx (prefixLoop p old c fuel j new) (prefixLoop q old c fuel j new)
  | 0, _, _ => Approx.refl _
  | fuel + 1, j, new => by
    unfold prefixLoop
    refine Approx.bind (Approx.refl _) fun o => ?_
    refine Approx.bind (Approx.refl _) fun n => ?_
    split
    · exact Approx.bind (hpq _ _ _ _) fun _ => prefixLoop_mono hpq old c fuel _ _
    · exact Approx.refl _


theorem suffixLoop_mono {p q : PatchFn} (hpq : PApprox p q) (old : List VNode) (c : Ref) :
    ∀ fuel oldEnd newEnd o cur new,
      Approx (suffixLoop p old c fuel oldEnd newEnd o cur new)
        (suffixLoop q old c fuel oldEnd newEnd o cur new)
  | 0, _, _, _, _, _ => Approx.refl _
  | fuel + 1, oldEnd, newEnd, o, cur, new => by
    unfold suffixLoop
    refine Approx.bind (Approx.refl _) fun o => ?_
    refine Approx.bind (Approx.refl _) fun n => ?_
    split
    · exact Approx.bind (hpq _ _ _ _) fun _ => suffixLoop_mono hpq old c fuel _ _ _ _ _
    · exact Approx.refl _

theorem insertLoop_mono {p q : PatchFn} (hpq : PApprox p q) (c a : Ref) :
    ∀ n j new, Approx (insertLoop p c a n j new) (insertLoop q c a n j new)
  | 0, _, _ => Approx.refl _
  | n + 1, j, new => by
    unfold insertLoop
    refine Approx.bind (Approx.refl _) fun v => ?_
    exact Approx.bind (hpq _ _ _ _) fun _ => insertLoop_mono hpq c a n _ _

theorem walkOld_mono {p q : PatchFn} (hpq : PApprox p q) (old : List VNode) (c : Ref)
    (keyIndex : List (Option Nat × Nat)) (count newStart : Nat) :
    ∀ n i st, Approx (walkOld p old c keyIndex count newStart n i st)
      (walkOld q old c keyIndex count newStart n i st)
  | 0, _, _ => Approx.refl _
  | n + 1, i, st => by
    unfold walkOld
    split
    · refine Approx.bind (Approx.refl _) fun o => ?_
      split
      · refine Approx.bind (Approx.refl _) fun v => ?_
        exact Approx.bind (hpq _ _ _ _) fun _ => walkOld_mono hpq old c keyIndex count newStart n _ _
      · exact Approx.bind (Approx.refl _) fun _ =>
          walkOld_mono hpq old c keyIndex count newStart n _ _
    · refine Approx.bind (Approx.refl _) fun o => ?_
      exact Approx.bind (Approx.refl _) fun _ =>
        walkOld_mono hpq old c keyIndex count newStart n _ _

theorem moveLoop_mono {p q : PatchFn} (hpq : PApprox p q) (c : Ref) (source : List Int)
    (seq : List JSNum) (newStart : Nat) :
    ∀ i s new, Approx (moveLoop p c source seq newStart i s new)
      (moveLoop q c source seq newStart i s new)
  | 0, _, _ => Approx.refl _
  | i + 1, s, new => by
    unfold moveLoop
    split
    · refine Approx.bind (Approx.refl _) fun v => ?_
      refine Approx.bind (Approx.refl _) fun a => ?_
      exact Approx.bind (hpq _ _ _ _) fun _ => moveLoop_mono hpq c source seq newStart i _ _
    · split
      · refine Approx.bind (Approx.refl _) fun a => ?_
        refine Approx.bind (Approx.refl _) fun v => ?_
        exact Approx.bind (Approx.refl _) fun _ => moveLoop_mono hpq c source seq newStart i _ _
      · exact moveLoop_mono hpq c source seq newStart i _ _

theorem patchKeyeChildren_mono {p q : PatchFn} (hpq : PApprox p q) (n1 n2 : VNode) (c : Ref) :
    Approx (patchKeyeChildren p n1 n2 c) (patchKeyeChildren q n1 n2 c) := by
  unfold patchKeyeChildren
  refine Approx.bind (Approx.refl _) fun old => ?_
  refine Approx.bind (Approx.refl _) fun new => ?_
  refine Approx.bind (prefixLoop_mono hpq _ _ _ _ _) fun r => ?_
  rcases r with ⟨j, new1⟩
  refine Approx.bind (suffixLoop_mono hpq _ _ _ _ _ _ _ _) fun r2 => ?_
  rcases r2 with ⟨oe, ne, new2⟩
  dsimp only
  split
  · refine Approx.bind (Approx.refl _) fun a => ?_
    exact Approx.bind (insertLoop_mono hpq _ _ _ _ _) fun _ => Approx.refl _
  · split
    · exact Approx.refl _
    · split <;>
      · refine Approx.bind (Approx.refl _) fun _ => ?_
        refine Approx.bind (Approx.refl _) fun ki => ?_
        refine Approx.bind (walkOld_mono hpq _ _ _ _ _ _ _ _) fun st => ?_
        split
        · exact Approx.bind (moveLoop_mono hpq _ _ _ _ _ _ _) fun _ => Approx.refl _
        · exact Approx.refl _

theorem patchChildren_mono {p q : PatchFn} (hpq : PApprox p q) (n1 n2 : VNode) (c : Ref) :
    Approx (patchChildren p n1 n2 c) (patchChildren q n1 n2 c) := by
  unfold patchChildren
  split
  · exact Approx.refl _
  · exact patchKeyeChildren_mono hpq _ _ _
  · exact Approx.refl _

theorem patchElement_mono {p q : PatchFn} (hpq : PApprox p q) (n1 n2 : VNode) :
    Approx (patchElement p n1 n2) (patchElement q n1 n2) := by
  unfold patchElement
  dsimp only
  split <;>
  · refine Approx.bind (Approx.refl _) fun _ => ?_
    split <;>
    · refine Approx.bind (Approx.refl _) fun _ => ?_
      exact patchChildren_mono hpq _ _ _

theorem patchStep_mono {p q : PatchFn} (hpq : PApprox p q) : PApprox (patchStep p) (patchStep q) := by
  intro n1 n2 c a
  unfold patchStep
  refine Approx.bind (Approx.refl _) fun o => ?_
  split
  · split
    · exact mountElement_mono hpq _ _ _
    · exact patchElement_mono hpq _ _
  · exact Approx.refl _
  · exact Approx.refl _
  · exact Approx.refl _
  · split
    · split
      · exact Approx.bind (mountEach_mono hpq _ _) fun _ => Approx.refl _
      · exact Approx.refl _
    · exact patchChildren_mono hpq _ _ _
  · exact Approx.refl _

theorem patch_succ_mono : ∀ fuel, PApprox (patch fuel) (patch (fuel + 1))
  | 0 => by
    intro a b c d h hne
    exact absurd rfl hne
  | fuel + 1 => patchStep_mono (patch_succ_mono fuel)

theorem patch_mono (fuel k : Nat) : PApprox (patch fuel) (patch (fuel + k)) := by
  induction k with
  | zero => exact fun _ _ _ _ => Approx.refl _
  | succ k ih =>
    intro a b c d h hne
    have h1 := ih a b c d h hne
    have h2 := patch_succ_mono (fuel + k) a b c d h (by rw [h1]; exact hne)
    rw [← h1]
    exact h2

theorem observe_of_approx {m m1 : M VNode} (hm : Approx m m1) (h : Host) (c : Handle)
    (hne : (observe m h c).error ≠ some Err.fuel) : observe m1 h c = observe m h c := by
  have key : (exec m h).1 ≠ Except.error Err.fuel := by
    intro he
    apply hne
    unfold observe
    rcases hx : exec m h with ⟨r, h1⟩
    rw [hx] at he
    cases r with
    | error e =>
      cases he
      rfl
    | ok a => cases he
  unfold observe
  rw [hm h key]

/-- Once `reconcile` ends without `Err.fuel`, every larger recursion depth
gives the same outcome. -/
theorem reconcile_fuel (fuel k : Nat) (old new : List VNode) (h : Host) (c : Handle)
    (hne : (reconcile fuel old new h c).error ≠ some Err.fuel) :
    reconcile (k + fuel) old new h c = reconcile fuel old new h c := by
  rw [Nat.add_comm]
  exact observe_of_approx (patchKeyeChildren_mono (patch_mono fuel k) _ _ _) h c hne

/-- Once `roundTrip` ends without `Err.fuel`, every larger recursion depth
gives the same outcome. -/
theorem roundTrip_fuel (fuel k : Nat) (old new back : List VNode) (h : Host) (c : Handle)
    (hne : (roundTrip fuel old new back h c).error ≠ some Err.fuel) :
    roundTrip (k + fuel) old new back h c = roundTrip fuel old new back h c := by
  rw [Nat.add_comm]
  exact observe_of_approx
    (Approx.bind (patchKeyeChildren_mono (patch_mono fuel k) _ _ _) fun _ =>
      patchKeyeChildren_mono (patch_mono fuel k) _ _ _) h c hne

/-! ## Lemmas: sequences with the same keys -/

theorem exec_deref_some {α : Type} (a : α) (h : Host) : exec (deref (some a)) h = (.ok a, h) := rfl

theorem exec_deref_none {α : Type} (h : Host) :
    exec (deref (none : Option α)) h = (.error Err.typeError, h) := rfl

theorem idx_setIdx_ne {α : Type} (xs : List α) (j i : Nat) (a : α) (hne : j ≠ i) :
    idx (setIdx xs (j : Int) a) (i : Int) = idx xs (i : Int) := by
  unfold idx setIdx
  have h1 : ¬ ((j : Int) < 0) := by omega
  have h2 : ¬ ((i : Int) < 0) := by omega
  simp only [h1, h2, if_false, Int.toNat_ofNat]
  exact List.getElem?_set_ne hne

/-- The prefix loop never returns when the two sequences carry the same keys
from `j` on: it ends with an error, whatever `patch` does. -/
theorem prefixLoop_same_keys (p : PatchFn) (old : List VNode) (c : Ref) :
    ∀ (fuel j : Nat) (new : List VNode) (h : Host),
      (∀ i : Nat, j ≤ i → (idx old i).map VNode.key = (idx new i).map VNode.key) →
      ∃ e h1, exec (prefixLoop p old c fuel j new) h = (.error e, h1)
  | 0, _, _, h, _ => ⟨Err.fuel, h, rfl⟩
  | fuel + 1, j, new, h, hk => by
    unfold prefixLoop
    have hj := hk j (Nat.le_refl j)
    cases ho : idx old (j : Int) with
    | none => exact ⟨Err.typeError, h, by rw [exec_bind, exec_deref_none]⟩
    | some o =>
      rw [ho] at hj
      cases hn : idx new (j : Int) with
      | none => rw [hn] at hj; cases hj
      | some n =>
        rw [hn] at hj
        have hkey : o.key = n.key := by
          simpa using hj
        rw [exec_bind, exec_deref_some]
        dsimp only
        rw [exec_bind, exec_deref_some]
        dsimp only
        rw [if_pos hkey, exec_bind]
        rcases hx : exec (p (some o) n c none) h with ⟨r, h1⟩
        cases r with
        | error e => exact ⟨e, h1, rfl⟩
        | ok n1 =>
          dsimp only
          apply prefixLoop_same_keys p old c fuel (j + 1)
          intro i hi
          have hne : j ≠ i := by omega
          rw [idx_setIdx_ne new j i n1 hne]
          exact hk i (by omega)


theorem patchKeyeChildren_same_keys (p : PatchFn) (old new : List VNode) (e1 e2 : Ref)
    (c : Ref) (h : Host) (hk : old.map VNode.key = new.map VNode.key) :
    ∃ e h1, exec (patchKeyeChildren p (ul old e1) (ul new e2) c) h = (.error e, h1) := by
  have hidx : ∀ i : Nat, 0 ≤ i →
      (idx old i).map VNode.key = (idx new i).map VNode.key := by
    intro i _
    have h1 := congrArg (fun l => l[i]?) hk
    simp only [List.getElem?_map] at h1
    unfold idx
    have h2 : ¬ ((i : Int) < 0) := by omega
    simpa [h2] using h1
  obtain ⟨e, h1, he⟩ := prefixLoop_same_keys p old c (old.length + 1) 0 new h hidx
  refine ⟨e, h1, ?_⟩
  unfold patchKeyeChildren
  have ho : arrayLike (ul old e1).children = some old := rfl
  have hn : arrayLike (ul new e2).children = some new := rfl
  rw [ho, hn, exec_bind, exec_deref_some]
  dsimp only
  rw [exec_bind, exec_deref_some]
  dsimp only
  rw [exec_bind, he]

/-! ## Lemmas: the reversal of childless elements -/

theorem Flat.clear {h : Host} {c : Handle} {L : List Handle} {lg : List HostOp}
    (hf : Flat h c L lg) (e : Handle) (text : String) (hne : e ≠ c) :
    Flat (h.clear e text) c L (lg ++ [HostOp.setElementText e text]) := by
  refine ⟨?_, ?_, ?_, ?_⟩
  · show (if c = e then [] else h.childNodes c) = L
    rw [if_neg (Ne.symm hne)]
    exact hf.kids
  · intro x hx
    show (if x = e then [] else h.childNodes x) = []
    split
    · rfl
    · exact hf.leaf x hx
  · intro x hx
    show (if x ∈ h.childNodes e then none else h.parentNode x) = some c
    rw [hf.leaf e hne]
    simp only [List.not_mem_nil, if_false]
    exact hf.par x hx
  · show h.log ++ _ = _
    rw [hf.log]

theorem exec_setElementText (e : Handle) (text : String) (h : Host) :
    exec (setElementText (some e) text) h = (.ok (), h.clear e text) := rfl

theorem exec_patch_li (fuel : Nat) (k k2 : Nat) (e : Handle) (x c a : Ref) (h : Host) :
    exec (patch (fuel + 1) (some (li k (some e))) (li k2 x) c a) h =
      (.ok (li k2 (some e)), h.clear e "") := by
  rfl

theorem mem_insertBefore {xs : List Handle} {e a x : Handle}
    (hx : x ∈ insertBefore xs e a) : x = e ∨ x ∈ xs := by
  induction xs with
  | nil => cases hx
  | cons y rest ih =>
    unfold insertBefore at hx
    split at hx
    · rcases List.mem_cons.1 hx with h1 | h1
      · exact Or.inl h1
      · exact Or.inr h1
    · rcases List.mem_cons.1 hx with h1 | h1
      · exact Or.inr (List.mem_cons.2 (Or.inl h1))
      · rcases ih h1 with h2 | h2
        · exact Or.inl h2
        · exact Or.inr (List.mem_cons.2 (Or.inr h2))

theorem Flat.detach_kids {h : Host} {c : Handle} {L : List Handle} {lg : List HostOp}
    (hf : Flat h c L lg) (e : Handle) (he : e ∈ L) :
    (detach h e).childNodes c = L.erase e ∧
    (∀ x, x ≠ c → (detach h e).childNodes x = []) ∧
    (∀ x, x ≠ e → (detach h e).parentNode x = h.parentNode x) ∧
    (detach h e).log = lg := by
  unfold detach
  rw [hf.par e he]
  refine ⟨?_, ?_, ?_, hf.log⟩
  · show (if c = c then (h.childNodes c).erase e else h.childNodes c) = L.erase e
    rw [if_pos rfl, hf.kids]
  · intro x hx
    show (if x = c then (h.childNodes c).erase e else h.childNodes x) = []
    rw [if_neg hx]
    exact hf.leaf x hx
  · intro x hx
    show (if x = e then none else h.parentNode x) = h.parentNode x
    rw [if_neg hx]

theorem Flat.place_none {h : Host} {c : Handle} {L : List Handle} {lg : List HostOp}
    (hf : Flat h c L lg) (e : Handle) (he : e ∈ L) :
    Flat (h.place e c none) c (L.erase e ++ [e]) (lg ++ [HostOp.insert e c none]) := by
  obtain ⟨h1, h2, h3, h4⟩ := hf.detach_kids e he
  refine ⟨?_, ?_, ?_, ?_⟩
  · show (if c = c then (detach h e).childNodes c ++ [e] else _) = _
    rw [if_pos rfl, h1]
  · intro x hx
    show (if x = c then (detach h e).childNodes c ++ [e] else (detach h e).childNodes x) = []
    rw [if_neg hx]
    exact h2 x hx
  · intro x hx
    show (if x = e then some c else (detach h e).parentNode x) = some c
    split
    · rfl
    · rename_i hxe
      rw [h3 x hxe]
      apply hf.par
      rcases List.mem_append.1 hx with h5 | h5
      · exact List.mem_of_mem_erase h5
      · exact absurd (List.mem_singleton.1 h5) hxe
  · show (detach h e).log ++ _ = _
    rw [h4]

theorem Flat.place_some {h : Host} {c : Handle} {L : List Handle} {lg : List HostOp}
    (hf : Flat h c L lg) (e a : Handle) (he : e ∈ L) (hae : a ≠ e) :
    Flat (h.place e c (some a)) c (insertBefore (L.erase e) e a)
      (lg ++ [HostOp.insert e c (some a)]) := by
  obtain ⟨h1, h2, h3, h4⟩ := hf.detach_kids e he
  unfold Host.place
  simp only [if_neg hae]
  refine ⟨?_, ?_, ?_, ?_⟩
  · show (if c = c then insertBefore ((detach h e).childNodes c) e a else _) = _
    rw [if_pos rfl, h1]
  · intro x hx
    show (if x = c then insertBefore ((detach h e).childNodes c) e a
      else (detach h e).childNodes x) = []
    rw [if_neg hx]
    exact h2 x hx
  · intro x hx
    show (if x = e then some c else (detach h e).parentNode x) = some c
    split
    · rfl
    · rename_i hxe
      rw [h3 x hxe]
      apply hf.par
      rcases mem_insertBefore hx with h5 | h5
      · exact absurd h5 hxe
      · exact List.mem_of_mem_erase h5
  · show (detach h e).log ++ _ = _
    rw [h4]

theorem exec_insert_none (e c : Handle) (h : Host) :
    exec (insert (some e) (some c) none) h = (.ok (), h.place e c none) := rfl

theorem exec_insert_some (e c a : Handle) (h : Host) (ha : a ∈ h.childNodes c) :
    exec (insert (some e) (some c) (some a)) h = (.ok (), h.place e c (some a)) := by
  unfold insert
  rw [exec_bind, exec_deref_some]
  dsimp only
  rw [exec_bind, exec_deref_some]
  dsimp only
  rw [exec_bind]
  have : exec (get : M Host) h = (.ok h, h) := rfl
  rw [this]
  dsimp only
  rw [if_pos ha]
  rfl

theorem idx_natCast {α : Type} (xs : List α) (i : Nat) : idx xs (i : Int) = xs[i]? := by
  unfold idx
  have h2 : ¬ ((i : Int) < 0) := by omega
  simp [h2]

theorem idx_leaves (k e : Nat → Nat) (n i : Nat) (hi : i < n) :
    idx (leaves k e n) (i : Int) = some (li (k i) (some (e i))) := by
  rw [idx_natCast]
  unfold leaves
  rw [List.getElem?_map, List.getElem?_range hi]
  rfl

theorem idx_leaves_reverse (k e : Nat → Nat) (n i : Nat) (hi : i < n) :
    idx (leaves k e n).reverse (i : Int) =
      some (li (k (n - 1 - i)) (some (e (n - 1 - i)))) := by
  rw [idx_natCast]
  have hlen : (leaves k e n).length = n := by simp [leaves]
  rw [List.getElem?_reverse (by rw [hlen]; exact hi), hlen]
  have := idx_leaves k e n (n - 1 - i) (by omega)
  rw [idx_natCast] at this
  exact this

theorem exec_prefixLoop_stop (p : PatchFn) (old new : List VNode) (c : Ref) (fuel j : Nat)
    (h : Host) (o n : VNode) (ho : idx old (j : Int) = some o) (hn : idx new (j : Int) = some n)
    (hk : o.key ≠ n.key) :
    exec (prefixLoop p old c (fuel + 1) j new) h = (.ok (j, new), h) := by
  unfold prefixLoop
  rw [ho, hn, exec_bind, exec_deref_some]
  dsimp only
  rw [exec_bind, exec_deref_some]
  dsimp only
  rw [if_neg hk]
  rfl

theorem exec_suffixLoop_stop (p : PatchFn) (old new : List VNode) (c : Ref) (fuel : Nat)
    (oldEnd newEnd cur : Int) (h : Host) (o n : VNode)
    (hn : idx new cur = some n) (hk : o.key ≠ n.key) :
    exec (suffixLoop p old c (fuel + 1) oldEnd newEnd (some o) cur new) h =
      (.ok (oldEnd, newEnd, new), h) := by
  unfold suffixLoop
  rw [hn, exec_bind, exec_deref_some]
  dsimp only
  rw [exec_bind, exec_deref_some]
  dsimp only
  rw [if_neg hk]
  rfl

theorem exec_buildKeyIndex (new : List VNode)
    (hd : ∀ (a b : Nat) (va vb : VNode), new[a]? = some va → new[b]? = some vb → va.key = vb.key → a = b) :
    ∀ (m i : Nat) (acc : List (Option Nat × Nat)) (h : Host), i + m ≤ new.length →
      ∃ ki, exec (buildKeyIndex new m i acc) h = (.ok ki, h) ∧
        (∀ t v, i ≤ t → t < i + m → new[t]? = some v → ki.lookup v.key = some t) ∧
        (∀ key, (∀ t v, i ≤ t → t < i + m → new[t]? = some v → v.key ≠ key) →
          ki.lookup key = acc.lookup key)
  | 0, i, acc, h, _ => by
    refine ⟨acc, rfl, ?_, ?_⟩
    · intro t v h1 h2
      omega
    · intro key _
      rfl
  | m + 1, i, acc, h, hlen => by
    have hi : i < new.length := by omega
    obtain ⟨ki, h1, h2, h3⟩ :=
      exec_buildKeyIndex new hd m (i + 1) ((new[i].key, i) :: acc) h (by omega)
    refine ⟨ki, ?_, ?_, ?_⟩
    · unfold buildKeyIndex
      rw [idx_natCast, List.getElem?_eq_getElem hi, exec_bind, exec_deref_some]
      exact h1
    · intro t v ht1 ht2 hv
      by_cases hti : t = i
      · subst hti
        have hv2 : new[t] = v := by
          rw [List.getElem?_eq_getElem hi] at hv
          exact Option.some.inj hv
        rw [h3 v.key]
        · rw [hv2]
          simp [List.lookup]
        · intro t2 v2 h4 h5 h6 h7
          have := hd t2 t v2 v h6 hv h7
          omega
      · exact h2 t v (by omega) (by omega) hv
    · intro key hkey
      rw [h3 key]
      · have hne : new[i].key ≠ key := hkey i new[i] (Nat.le_refl i) (by omega)
          (List.getElem?_eq_getElem hi)
        simp only [List.lookup]
        have : (key == new[i].key) = false := by
          simp only [beq_eq_false_iff_ne, ne_eq]
          exact fun h5 => hne h5.symm
        rw [this]
      · intro t v h4 h5 h6
        exact hkey t v (by omega) (by omega) h6

theorem setIdx_self {α : Type} (xs : List α) (i : Nat) (a : α) (h : xs[i]? = some a) :
    setIdx xs (i : Int) a = xs := by
  unfold setIdx
  have h2 : ¬ ((i : Int) < 0) := by omega
  simp only [h2, if_false, Int.toNat_ofNat]
  apply List.ext_getElem?
  intro j
  by_cases hj : i = j
  · subst hj
    have hlt : i < xs.length := by
      rcases Nat.lt_or_ge i xs.length with h3 | h3
      · exact h3
      · rw [List.getElem?_eq_none h3] at h
        cases h
    rw [List.getElem?_set_self hlt, h]
  · rw [List.getElem?_set_ne hj]

theorem revSource_step (n i : Nat) (hi : i < n) :
    setIdx (revSource n i) (((n - 1 - i : Nat) : Int) - ((0 : Nat) : Int)) (i : Int) =
      revSource n (i + 1) := by
  have h0 : (((n - 1 - i : Nat) : Int) - ((0 : Nat) : Int)) = ((n - 1 - i : Nat) : Int) := by
    simp
  rw [h0]
  unfold setIdx
  have h2 : ¬ (((n - 1 - i : Nat) : Int) < 0) := by omega
  simp only [h2, if_false, Int.toNat_ofNat]
  apply List.ext_getElem?
  intro j
  unfold revSource
  by_cases hj : n - 1 - i = j
  · subst hj
    have hlt : n - 1 - i < ((List.range n).map fun x =>
        if n - i ≤ x then ((n - 1 - x : Nat) : Int) else -1).length := by
      simp
      omega
    rw [List.getElem?_set_self hlt, List.getElem?_map, List.getElem?_range (by omega)]
    simp only [Option.map_some']
    have h3 : n - (i + 1) ≤ n - 1 - i := by omega
    rw [if_pos h3]
    congr 2
    omega
  · rw [List.getElem?_set_ne hj, List.getElem?_map, List.getElem?_map]
    by_cases hjn : j < n
    · rw [List.getElem?_range hjn]
      simp only [Option.map_some']
      by_cases h4 : n - i ≤ j
      · have h5 : n - (i + 1) ≤ j := by omega
        rw [if_pos h4, if_pos h5]
      · have h5 : ¬ (n - (i + 1) ≤ j) := by omega
        rw [if_neg h4, if_neg h5]
    · rw [List.getElem?_eq_none (by simp; omega)]
      rfl

theorem exec_walkOld_reverse (fuel : Nat) (k e : Nat → Nat) (n : Nat) (c : Handle)
    (ki : List (Option Nat × Nat)) (L : List Handle)
    (hki : ∀ m, m < n → ki.lookup (some (k m)) = some (n - 1 - m))
    (hc : ∀ m, m < n → e m ≠ c) :
    ∀ (t i : Nat) (h : Host) (lg : List HostOp), i + t = n → Flat h c L lg →
      ∃ h1, exec (walkOld (patch (fuel + 1)) (leaves k e n) (some c) ki n 0 t i
          (revWalk k e n i)) h = (.ok (revWalk k e n n), h1) ∧
        Flat h1 c L (lg ++ (List.range' i t).map fun m => HostOp.setElementText (e m) "")
  | 0, i, h, lg, hit, hf => by
    have : i = n := by omega
    subst this
    exact ⟨h, rfl, by simpa using hf⟩
  | t + 1, i, h, lg, hit, hf => by
    have hi : i < n := by omega
    have hstep : revWalk k e n (i + 1) =
        { newChildren := setIdx (revWalk k e n i).newChildren ((n - 1 - i : Nat) : Int)
            (li (k i) (some (e i)))
          source := setIdx (revWalk k e n i).source
            (((n - 1 - i : Nat) : Int) - ((0 : Nat) : Int)) (i : Int)
          patched := (revWalk k e n i).patched + 1
          moved := if n - 1 - i < (revWalk k e n i).pos then true else (revWalk k e n i).moved
          pos := if n - 1 - i < (revWalk k e n i).pos then (revWalk k e n i).pos
            else n - 1 - i } := by
      have hnew : setIdx (leaves k e n).reverse ((n - 1 - i : Nat) : Int)
          (li (k i) (some (e i))) = (leaves k e n).reverse := by
        apply setIdx_self
        have := idx_leaves_reverse k e n (n - 1 - i) (by omega)
        rw [idx_natCast] at this
        rw [this]
        have h6 : n - 1 - (n - 1 - i) = i := by omega
        rw [h6]
      unfold revWalk
      simp only [hnew, revSource_step n i hi]
      congr 1
      · by_cases h0 : i = 0
        · subst h0
          simp
        · have h7 : n - 1 - i < n - 1 := by omega
          simp only [if_neg h0, h7, if_true]
          simp
          omega
      · by_cases h0 : i = 0
        · subst h0
          simp
        · have h7 : n - 1 - i < n - 1 := by omega
          simp only [if_neg h0, h7, if_true]
          simp
    obtain ⟨h1, hx, hf1⟩ := exec_walkOld_reverse fuel k e n c ki L hki hc t (i + 1)
      (h.clear (e i) "") (lg ++ [HostOp.setElementText (e i) ""]) (by omega)
      (hf.clear (e i) "" (hc i hi))
    refine ⟨h1, ?_, ?_⟩
    · unfold walkOld
      have hp : (revWalk k e n i).patched ≤ n := by
        show i ≤ n
        omega
      rw [if_pos hp, idx_leaves k e n i hi, exec_bind, exec_deref_some]
      dsimp only
      have hkey : (li (k i) (some (e i))).key = some (k i) := rfl
      rw [hkey, hki i hi]
      dsimp only
      have hnew : idx (revWalk k e n i).newChildren ((n - 1 - i : Nat) : Int) =
          some (li (k i) (some (e i))) := by
        have := idx_leaves_reverse k e n (n - 1 - i) (by omega)
        have h6 : n - 1 - (n - 1 - i) = i := by omega
        rw [h6] at this
        exact this
      rw [hnew, exec_bind, exec_deref_some]
      dsimp only
      rw [exec_bind, exec_patch_li]
      dsimp only
      rw [← hstep]
      exact hx
    · have : (lg ++ [HostOp.setElementText (e i) ""]) ++
          (List.range' (i + 1) t).map (fun m => HostOp.setElementText (e m) "") =
          lg ++ (List.range' i (t + 1)).map (fun m => HostOp.setElementText (e m) "") := by
        simp [List.range'_succ]
      rw [← this]
      exact hf1

theorem revSource_full (n : Nat) :
    revSource n n = (List.range n).map fun x => ((n - 1 - x : Nat) : Int) := by
  unfold revSource
  apply List.map_congr_left
  intro x _
  have : n - n ≤ x := by omega
  rw [if_pos this]

theorem revSource_getElem? (n x : Nat) (hx : x < n) :
    (revSource n n)[x]? = some ((n - 1 - x : Nat) : Int) := by
  rw [revSource_full, List.getElem?_map, List.getElem?_range hx]
  rfl

theorem numAt_revSource (n x : Nat) (hx : x < n) :
    numAt (revSource n n) (some (x : Int)) = some ((n - 1 - x : Nat) : Int) := by
  show idx (revSource n n) (x : Int) = _
  rw [idx_natCast, revSource_getElem? n x hx]

theorem revSource_step_first (n : Nat) (hn : 2 ≤ n) (p : List JSNum) :
    getSequence.step (revSource n n) (p, [some 0]) 0 = (p, [some 0]) := by
  unfold getSequence.step
  rw [revSource_getElem? n 0 (by omega)]
  have h1 : ((n - 1 - 0 : Nat) : Int) ≠ 0 := by omega
  simp only [h1, ne_eq, not_false_eq_true, if_true, List.length_singleton]
  have hj : valAt [some (0 : Int)] (some (((1 : Nat) : Int) - 1)) = some 0 := by decide
  have hj0 : valAt [some (0 : Int)] (some ((0 : Nat) : Int)) = some 0 := by decide
  have hs : getSequence.search (revSource n n) [some 0] ((n - 1 - 0 : Nat) : Int) 1 0 (1 - 1)
      = 0 := by
    simp [getSequence.search]
  rw [hj, hs, hj0]
  have h0 := numAt_revSource n 0 (by omega)
  simp only [Nat.cast_zero] at h0
  rw [h0]
  simp [jsLt]

theorem revSource_step_next (n m : Nat) (hm1 : 1 ≤ m) (hm : m + 1 < n) (p : List JSNum) :
    getSequence.step (revSource n n) (p, [some ((m - 1 : Nat) : Int)]) m =
      (p, [some (m : Int)]) := by
  unfold getSequence.step
  rw [revSource_getElem? n m (by omega)]
  have h1 : ((n - 1 - m : Nat) : Int) ≠ 0 := by omega
  simp only [h1, ne_eq, not_false_eq_true, if_true, List.length_singleton]
  have hj : valAt [some ((m - 1 : Nat) : Int)] (some (((1 : Nat) : Int) - 1)) =
      some ((m - 1 : Nat) : Int) := by
    simp [valAt, idx]
  have hj0 : valAt [some ((m - 1 : Nat) : Int)] (some ((0 : Nat) : Int)) =
      some ((m - 1 : Nat) : Int) := by
    simp [valAt, idx]
  have hs : getSequence.search (revSource n n) [some ((m - 1 : Nat) : Int)]
      ((n - 1 - m : Nat) : Int) 1 0 (1 - 1) = 0 := by
    simp [getSequence.search]
  rw [hj, hs, hj0, numAt_revSource n (m - 1) (by omega)]
  have h2 : jsLt (some ((n - 1 - (m - 1) : Nat) : Int)) (some ((n - 1 - m : Nat) : Int))
      = false := by
    simp only [jsLt, decide_eq_false_iff_not]
    omega
  have h3 : jsLt (some ((n - 1 - m : Nat) : Int)) (some ((n - 1 - (m - 1) : Nat) : Int))
      = true := by
    simp only [jsLt, decide_eq_true_eq]
    omega
  rw [h2, h3]
  simp

theorem revSource_step_last (n : Nat) (hn : 1 ≤ n) (st : List JSNum × List JSNum) :
    getSequence.step (revSource n n) st (n - 1) = st := by
  unfold getSequence.step
  rw [revSource_getElem? n (n - 1) (by omega)]
  have h1 : ((n - 1 - (n - 1) : Nat) : Int) = 0 := by omega
  simp [h1]

theorem revSource_fold (n : Nat) (p : List JSNum) :
    ∀ m, 1 ≤ m → m < n →
      (List.range m).foldl (getSequence.step (revSource n n)) (p, [some 0]) =
        (p, [some ((m - 1 : Nat) : Int)])
  | 0, h, _ => absurd h (by omega)
  | 1, _, hn => by
    have : List.range 1 = [0] := rfl
    rw [this]
    simp only [List.foldl_cons, List.foldl_nil]
    rw [revSource_step_first n (by omega) p]
    rfl
  | m + 2, _, hn => by
    rw [List.range_succ, List.foldl_append, revSource_fold n p (m + 1) (by omega) (by omega)]
    simp only [List.foldl_cons, List.foldl_nil]
    have := revSource_step_next n (m + 1) (by omega) (by omega) p
    simpa using this

theorem getSequence_revSource (n : Nat) (hn : 2 ≤ n) :
    getSequence (revSource n n) = [some ((n - 2 : Nat) : Int)] := by
  unfold getSequence
  have hlen : (revSource n n).length = n := by simp [revSource]
  have hr : List.range n = List.range (n - 1) ++ [n - 1] := by
    have : n = (n - 1) + 1 := by omega
    conv_lhs => rw [this]
    rw [List.range_succ]
  rw [hlen, hr, List.foldl_append, revSource_fold n _ (n - 1) (by omega) (by omega)]
  simp only [List.foldl_cons, List.foldl_nil]
  rw [revSource_step_last n (by omega)]
  have h2 : n - 1 - 1 = n - 2 := by omega
  simp [getSequence.backtrack, valAt, idx, h2]

theorem revKids_first (e : Nat → Nat) (n : Nat) (hn : 2 ≤ n) :
    ((List.range n).map e).erase (e 0) ++ [e 0] = revKids e n 1 := by
  have h1 : List.range n = 0 :: List.range' 1 (n - 1) := by
    rw [List.range_eq_range']
    have : n = (n - 1) + 1 := by omega
    conv_lhs => rw [this]
    rw [List.range'_succ]
  have h2 : List.range' 1 (n - 1) = 1 :: List.range' 2 (n - 2) := by
    have : n - 1 = (n - 2) + 1 := by omega
    rw [this, List.range'_succ]
  rw [h1]
  simp only [List.map_cons, List.erase_cons_head]
  unfold revKids
  rw [h2]
  simp
  rfl

theorem revKids_last (e : Nat → Nat) (n : Nat) (hn : 1 ≤ n) :
    revKids e n (n - 1) = ((List.range n).map e).reverse := by
  have h1 : List.range n = 0 :: List.range' 1 (n - 1) := by
    rw [List.range_eq_range']
    have : n = (n - 1) + 1 := by omega
    conv_lhs => rw [this]
    rw [List.range'_succ]
  unfold revKids
  rw [h1]
  have : n - 1 - (n - 1) = 0 := by omega
  simp [this]

theorem revKids_step (e : Nat → Nat) (n m : Nat) (hm : 1 ≤ m) (hmn : m + 1 < n)
    (he : ∀ a b, a < n → b < n → e a = e b → a = b) :
    insertBefore ((revKids e n m).erase (e (m + 1))) (e (m + 1)) (e m) =
      revKids e n (m + 1) := by
  have hA : List.range' 1 m = List.range' 1 (m - 1) ++ [m] := by
    have : m = (m - 1) + 1 := by omega
    conv_lhs => rw [this]
    rw [List.range'_concat]
    congr 2
    omega
  have hB : List.range' (m + 1) (n - 1 - m) = (m + 1) :: List.range' (m + 2) (n - 1 - (m + 1)) := by
    have : n - 1 - m = (n - 1 - (m + 1)) + 1 := by omega
    rw [this, List.range'_succ]
  have hnot : e (m + 1) ∉ ((List.range' 1 m).map e).reverse := by
    intro hmem
    rw [List.mem_reverse, List.mem_map] at hmem
    obtain ⟨x, hx, hxe⟩ := hmem
    rw [List.mem_range'_1] at hx
    have := he x (m + 1) (by omega) (by omega) hxe
    omega
  unfold revKids
  rw [hB]
  simp only [List.map_cons, List.append_assoc, List.cons_append]
  rw [List.erase_append_right _ hnot, List.erase_cons_head]
  rw [hA]
  simp only [List.map_append, List.map_cons, List.map_nil, List.reverse_append,
    List.reverse_cons, List.reverse_nil, List.nil_append, List.cons_append]
  unfold insertBefore
  rw [if_pos rfl]
  have hA2 : List.range' 1 (m + 1) = List.range' 1 (m - 1) ++ [m] ++ [m + 1] := by
    rw [← hA, List.range'_concat]
    congr 2
    omega
  rw [hA2]
  simp

theorem revKids_mem_next (e : Nat → Nat) (n m : Nat) (hmn : m + 1 < n) :
    e (m + 1) ∈ revKids e n m := by
  unfold revKids
  simp only [List.mem_append, List.mem_map, List.mem_reverse, List.mem_singleton]
  refine Or.inl (Or.inr ⟨m + 1, ?_, rfl⟩)
  rw [List.mem_range'_1]
  omega

theorem revKids_mem_cur (e : Nat → Nat) (n m : Nat) (hm : 1 ≤ m) :
    e m ∈ revKids e n m := by
  unfold revKids
  simp only [List.mem_append, List.mem_map, List.mem_reverse, List.mem_singleton]
  refine Or.inl (Or.inl ⟨m, ?_, rfl⟩)
  rw [List.mem_range'_1]
  omega

theorem exec_anchorAt_none (new : List VNode) (x : Int) (h : Host)
    (hx : ¬ (x < (new.length : Int))) : exec (anchorAt new x) h = (.ok none, h) := by
  unfold anchorAt
  rw [if_neg hx]
  rfl

theorem exec_anchorAt_some (new : List VNode) (x : Int) (h : Host) (v : VNode)
    (hx : x < (new.length : Int)) (hv : idx new x = some v) :
    exec (anchorAt new x) h = (.ok v.el, h) := by
  unfold anchorAt
  rw [if_pos hx, hv, exec_bind, exec_deref_some]
  rfl

theorem leaves_length (k e : Nat → Nat) (n : Nat) : (leaves k e n).length = n := by
  simp [leaves]

theorem exec_moveLoop_reverse_tail (p : PatchFn) (k e : Nat → Nat) (n : Nat) (c : Handle)
    (he : ∀ a b, a < n → b < n → e a = e b → a = b) :
    ∀ (t m : Nat) (h : Host) (lg : List HostOp), m + t + 1 = n → 1 ≤ m →
      Flat h c (revKids e n m) lg →
      ∃ h1, exec (moveLoop p (some c) (revSource n n) [some ((n - 2 : Nat) : Int)] 0 t (-1)
          (leaves k e n).reverse) h = (.ok (leaves k e n).reverse, h1) ∧
        Flat h1 c (revKids e n (n - 1))
          (lg ++ (List.range' m t).map fun x => HostOp.insert (e (x + 1)) c (some (e x)))
  | 0, m, h, lg, hmt, _, hf => by
    have : m = n - 1 := by omega
    subst this
    exact ⟨h, rfl, by simpa using hf⟩
  | t + 1, m, h, lg, hmt, hm, hf => by
    have hmem : e m ∈ h.childNodes c := by
      rw [hf.kids]
      exact revKids_mem_cur e n m hm
    have hne : e m ≠ e (m + 1) := by
      intro h2
      have := he m (m + 1) (by omega) (by omega) h2
      omega
    have hf1 := hf.place_some (e (m + 1)) (e m) (revKids_mem_next e n m (by omega)) hne
    rw [revKids_step e n m hm (by omega) he] at hf1
    obtain ⟨h1, hx, hf2⟩ := exec_moveLoop_reverse_tail p k e n c he t (m + 1) _ _ (by omega)
      (by omega) hf1
    refine ⟨h1, ?_, ?_⟩
    · unfold moveLoop
      have hsrc : idx (revSource n n) (t : Int) ≠ some (-1) := by
        rw [idx_natCast, revSource_getElem? n t (by omega)]
        intro h3
        have := Option.some.inj h3
        omega
      rw [if_neg hsrc]
      have hseq : some (t : Int) ≠ (idx [some ((n - 2 : Nat) : Int)] (-1)).join := by
        simp [idx]
      rw [if_pos hseq]
      dsimp only
      have hpos : (t : Int) + ((0 : Nat) : Int) = (t : Int) := by simp
      have hpos1 : (t : Int) + 1 = ((t + 1 : Nat) : Int) := by simp
      rw [hpos, hpos1, exec_bind]
      have hlt : ((t + 1 : Nat) : Int) < (((leaves k e n).reverse.length : Nat) : Int) := by
        rw [List.length_reverse, leaves_length]
        omega
      rw [exec_anchorAt_some _ _ _ _ hlt (idx_leaves_reverse k e n (t + 1) (by omega))]
      dsimp only
      rw [idx_leaves_reverse k e n t (by omega), exec_bind, exec_deref_some]
      dsimp only
      have h4 : n - 1 - t = m + 1 := by omega
      have h5 : n - 1 - (t + 1) = m := by omega
      rw [h4, h5, exec_bind]
      have hel1 : (li (k (m + 1)) (some (e (m + 1)))).el = some (e (m + 1)) := rfl
      have hel2 : (li (k m) (some (e m))).el = some (e m) := rfl
      rw [hel1, hel2, exec_insert_some _ _ _ _ hmem]
      exact hx
    · have : (lg ++ [HostOp.insert (e (m + 1)) c (some (e m))]) ++
          (List.range' (m + 1) t).map (fun x => HostOp.insert (e (x + 1)) c (some (e x))) =
          lg ++ (List.range' m (t + 1)).map
            (fun x => HostOp.insert (e (x + 1)) c (some (e x))) := by
        simp [List.range'_succ]
      rw [← this]
      exact hf2

theorem exec_moveLoop_reverse (p : PatchFn) (k e : Nat → Nat) (n : Nat) (c : Handle)
    (hn : 2 ≤ n) (he : ∀ a b, a < n → b < n → e a = e b → a = b)
    (h : Host) (lg : List HostOp) (hf : Flat h c ((List.range n).map e) lg) :
    ∃ h1, exec (moveLoop p (some c) (revSource n n) [some ((n - 2 : Nat) : Int)] 0 n 0
        (leaves k e n).reverse) h = (.ok (leaves k e n).reverse, h1) ∧
      Flat h1 c ((List.range n).map e).reverse
        (lg ++ [HostOp.insert (e 0) c none] ++
          (List.range' 1 (n - 2)).map fun x => HostOp.insert (e (x + 1)) c (some (e x))) := by
  obtain ⟨t, rfl⟩ : ∃ t, n = t + 2 := ⟨n - 2, by omega⟩
  have hmem : e 0 ∈ (List.range (t + 2)).map e :=
    List.mem_map.2 ⟨0, List.mem_range.2 (by omega), rfl⟩
  have hf1 := hf.place_none (e 0) hmem
  rw [revKids_first e (t + 2) hn] at hf1
  obtain ⟨h1, hx, hf2⟩ := exec_moveLoop_reverse_tail p k e (t + 2) c he t 1 _ _ (by omega)
    (by omega) hf1
  have hlast := revKids_last e (t + 2) (by omega)
  have ht1 : t + 2 - 1 = t + 1 := by omega
  rw [ht1] at hlast hf2
  rw [hlast] at hf2
  have ht2 : t + 2 - 2 = t := by omega
  rw [ht2] at hx ⊢
  refine ⟨h1, ?_, hf2⟩
  -- first iteration: `i = n - 1`, the node of `e 0` moves to the end
  unfold moveLoop
  have hsrc : idx (revSource (t + 2) (t + 2)) ((t + 1 : Nat) : Int) ≠ some (-1) := by
    rw [idx_natCast, revSource_getElem? (t + 2) (t + 1) (by omega)]
    intro h3
    have := Option.some.inj h3
    omega
  rw [if_neg hsrc]
  have hseq : some ((t + 1 : Nat) : Int) ≠ (idx [some (t : Int)] 0).join := by
    simp [idx]
  rw [if_pos hseq]
  dsimp only
  have hpos : ((t + 1 : Nat) : Int) + ((0 : Nat) : Int) = ((t + 1 : Nat) : Int) := by simp
  rw [hpos, exec_bind]
  have hge : ¬ (((t + 1 : Nat) : Int) + 1 < (((leaves k e (t + 2)).reverse.length : Nat) : Int)) := by
    rw [List.length_reverse, leaves_length]
    omega
  rw [exec_anchorAt_none _ _ _ hge]
  dsimp only
  rw [idx_leaves_reverse k e (t + 2) (t + 1) (by omega), exec_bind, exec_deref_some]
  dsimp only
  have h4 : t + 2 - 1 - (t + 1) = 0 := by omega
  rw [h4, exec_bind]
  have hel : (li (k 0) (some (e 0))).el = some (e 0) := rfl
  rw [hel, exec_insert_none]
  dsimp only
  -- second iteration: `i = n - 2` is the member of `seq`
  unfold moveLoop
  have hsrc2 : idx (revSource (t + 2) (t + 2)) (t : Int) ≠ some (-1) := by
    rw [idx_natCast, revSource_getElem? (t + 2) t (by omega)]
    intro h3
    have := Option.some.inj h3
    omega
  rw [if_neg hsrc2]
  have hseq2 : ¬ (some (t : Int) ≠ (idx [some (t : Int)] 0).join) := by
    simp [idx]
  rw [if_neg hseq2]
  have hs : (0 : Int) - 1 = -1 := rfl
  rw [hs]
  exact hx

theorem revSource_zero (n : Nat) : List.replicate n (-1 : Int) = revSource n 0 := by
  unfold revSource
  apply List.ext_getElem?
  intro j
  by_cases hj : j < n
  · rw [List.getElem?_map, List.getElem?_range hj, List.getElem?_replicate]
    simp only [hj, if_true, Option.map_some']
    have : ¬ (n - 0 ≤ j) := by omega
    rw [if_neg this]
  · rw [List.getElem?_eq_none (by simp; omega), List.getElem?_eq_none (by simp; omega)]

theorem exec_patchKeyeChildren_reverse (fuel : Nat) (k e : Nat → Nat) (n : Nat) (c : Handle)
    (r1 r2 : Ref) (hn : 2 ≤ n)
    (hk : ∀ a b, a < n → b < n → k a = k b → a = b)
    (he : ∀ a b, a < n → b < n → e a = e b → a = b)
    (hc : ∀ m, m < n → e m ≠ c)
    (h : Host) (lg : List HostOp) (hf : Flat h c ((List.range n).map e) lg) :
    ∃ h1, exec (patchKeyeChildren (patch (fuel + 1)) (ul (leaves k e n) r1)
        (ul (leaves k e n).reverse r2) (some c)) h =
        (.ok (ul (leaves k e n).reverse r2), h1) ∧
      Flat h1 c ((List.range n).map e).reverse
        (lg ++ ((List.range' 0 n).map fun m => HostOp.setElementText (e m) "") ++
          [HostOp.insert (e 0) c none] ++
          (List.range' 1 (n - 2)).map fun x => HostOp.insert (e (x + 1)) c (some (e x))) := by
  -- the index table
  have hd : ∀ (a b : Nat) (va vb : VNode), (leaves k e n).reverse[a]? = some va →
      (leaves k e n).reverse[b]? = some vb → va.key = vb.key → a = b := by
    intro a b va vb ha hb hkey
    have hal : a < n := by
      rcases Nat.lt_or_ge a n with h3 | h3
      · exact h3
      · rw [List.getElem?_eq_none (by rw [List.length_reverse, leaves_length]; exact h3)] at ha
        cases ha
    have hbl : b < n := by
      rcases Nat.lt_or_ge b n with h3 | h3
      · exact h3
      · rw [List.getElem?_eq_none (by rw [List.length_reverse, leaves_length]; exact h3)] at hb
        cases hb
    have h1 := idx_leaves_reverse k e n a hal
    have h2 := idx_leaves_reverse k e n b hbl
    rw [idx_natCast] at h1 h2
    rw [h1] at ha
    rw [h2] at hb
    cases ha
    cases hb
    have h3 : k (n - 1 - a) = k (n - 1 - b) := Option.some.inj hkey
    have := hk _ _ (by omega) (by omega) h3
    omega
  obtain ⟨ki, hki1, hki2, _⟩ := exec_buildKeyIndex (leaves k e n).reverse hd n 0 [] h
    (by rw [List.length_reverse, leaves_length]; omega)
  have hki : ∀ m, m < n → ki.lookup (some (k m)) = some (n - 1 - m) := by
    intro m hm
    have h1 := idx_leaves_reverse k e n (n - 1 - m) (by omega)
    rw [idx_natCast] at h1
    have h2 : n - 1 - (n - 1 - m) = m := by omega
    rw [h2] at h1
    exact hki2 (n - 1 - m) _ (by omega) (by omega) h1
  obtain ⟨h1, hw, hf1⟩ := exec_walkOld_reverse fuel k e n c ki _ hki hc n 0 h lg (by omega) hf
  obtain ⟨h2, hm, hf2⟩ := exec_moveLoop_reverse (patch (fuel + 1)) k e n c hn he h1 _ hf1
  refine ⟨h2, ?_, ?_⟩
  · unfold patchKeyeChildren
    have ho : arrayLike (ul (leaves k e n) r1).children = some (leaves k e n) := rfl
    have hnw : arrayLike (ul (leaves k e n).reverse r2).children =
        some (leaves k e n).reverse := rfl
    rw [ho, hnw, exec_bind, exec_deref_some]
    dsimp only
    rw [exec_bind, exec_deref_some]
    dsimp only
    have hkey0 : (li (k 0) (some (e 0))).key ≠ (li (k (n - 1 - 0)) (some (e (n - 1 - 0)))).key := by
      intro h3
      have h4 : k 0 = k (n - 1 - 0) := Option.some.inj h3
      have := hk _ _ (by omega) (by omega) h4
      omega
    rw [exec_bind, exec_prefixLoop_stop _ _ _ _ _ 0 h _ _ (idx_leaves k e n 0 (by omega))
      (idx_leaves_reverse k e n 0 (by omega)) hkey0]
    dsimp only
    have hlen1 : (((leaves k e n).length : Nat) : Int) - 1 = ((n - 1 : Nat) : Int) := by
      rw [leaves_length]
      omega
    have hlen2 : (((leaves k e n).reverse.length : Nat) : Int) - 1 = ((n - 1 : Nat) : Int) := by
      rw [List.length_reverse, leaves_length]
      omega
    rw [hlen1, hlen2, idx_leaves k e n (n - 1) (by omega)]
    have hkey1 : (li (k (n - 1)) (some (e (n - 1)))).key ≠
        (li (k (n - 1 - (n - 1))) (some (e (n - 1 - (n - 1))))).key := by
      intro h3
      have h4 : k (n - 1) = k (n - 1 - (n - 1)) := Option.some.inj h3
      have := hk _ _ (by omega) (by omega) h4
      omega
    rw [exec_bind, exec_suffixLoop_stop _ _ _ _ _ _ _ _ h _ _
      (idx_leaves_reverse k e n (n - 1) (by omega)) hkey1]
    dsimp only
    have hb1 : ¬ (((0 : Nat) : Int) > ((n - 1 : Nat) : Int) ∧
        ((0 : Nat) : Int) ≤ ((n - 1 : Nat) : Int)) := by omega
    have hb2 : ¬ (((0 : Nat) : Int) > ((n - 1 : Nat) : Int) ∧
        ((0 : Nat) : Int) ≤ ((n - 1 : Nat) : Int)) := by omega
    rw [if_neg hb1, if_neg hb2]
    have hcount : ((n - 1 : Nat) : Int) - ((0 : Nat) : Int) + 1 = (n : Int) := by omega
    rw [hcount]
    have hc0 : ¬ ((n : Int) < 0) := by omega
    rw [if_neg hc0]
    simp only [Int.toNat_ofNat]
    rw [exec_bind]
    have hp : exec (pure PUnit.unit : M PUnit) h = (.ok PUnit.unit, h) := rfl
    rw [hp]
    dsimp only
    rw [exec_bind, hki1]
    dsimp only
    rw [revSource_zero n]
    have hst : WalkState.mk (leaves k e n).reverse (revSource n 0) 0 false 0 =
        revWalk k e n 0 := by
      unfold revWalk
      simp
    rw [hst, exec_bind, hw]
    dsimp only
    have hmoved : (revWalk k e n n).moved = true := by
      show decide (2 ≤ n) = true
      simp [hn]
    rw [if_pos hmoved]
    have hsrc : (revWalk k e n n).source = revSource n n := rfl
    have hnc : (revWalk k e n n).newChildren = (leaves k e n).reverse := rfl
    rw [hsrc, hnc, getSequence_revSource n hn]
    have hs : ((([some ((n - 2 : Nat) : Int)] : List JSNum).length : Nat) : Int) - 1 = 0 := rfl
    rw [hs, exec_bind, hm]
    rfl
  · exact hf2

theorem flat_mounted (c : Handle) (L : List Handle) : Flat (Host.mounted c L) c L [] := by
  refine ⟨?_, ?_, ?_, rfl⟩
  · show (List.lookup c [(c, L)]).getD [] = L
    simp [List.lookup]
  · intro x hx
    show (List.lookup x [(c, L)]).getD [] = []
    have : (x == c) = false := by simpa using hx
    simp [List.lookup, this]
  · intro x hx
    show (List.find? (fun e => decide (x ∈ e.2)) [(c, L)]).map Prod.fst = some c
    simp [List.find?, hx]

theorem reconcile_reverse_leaves (fuel : Nat) (k e : Nat → Nat) (n : Nat) (c : Handle)
    (hn : 2 ≤ n)
    (hk : ∀ a b, a < n → b < n → k a = k b → a = b)
    (he : ∀ a b, a < n → b < n → e a = e b → a = b)
    (hc : ∀ m, m < n → e m ≠ c) :
    reconcile (fuel + 1) (leaves k e n) (leaves k e n).reverse
        (Host.mounted c ((List.range n).map e)) c =
      { error := none
        els := (leaves k e n).reverse.map fun v => (v.key, v.el)
        childNodes := ((List.range n).map e).reverse
        log := revLog e n c } := by
  obtain ⟨h1, hx, hf⟩ := exec_patchKeyeChildren_reverse fuel k e n c (some c) (some c) hn hk he hc
    _ [] (flat_mounted c _)
  unfold reconcile observe
  rw [hx]
  dsimp only
  rw [hf.kids, hf.log]
  rfl

theorem created_append (a b : List HostOp) : created (a ++ b) = created a ++ created b := by
  induction a with
  | nil => rfl
  | cons op rest ih =>
    cases op <;> simp [created, ih]

theorem removed_append (a b : List HostOp) : removed (a ++ b) = removed a ++ removed b := by
  induction a with
  | nil => rfl
  | cons op rest ih =>
    cases op <;> simp [removed, ih]

theorem inserted_append (a b : List HostOp) :
    inserted (a ++ b) = inserted a ++ inserted b := by
  induction a with
  | nil => rfl
  | cons op rest ih =>
    cases op <;> simp [inserted, ih]

theorem created_setElementText (f : Nat → Handle) (xs : List Nat) :
    created (xs.map fun m => HostOp.setElementText (f m) "") = [] := by
  induction xs with
  | nil => rfl
  | cons x rest ih => simpa [created] using ih

theorem removed_setElementText (f : Nat → Handle) (xs : List Nat) :
    removed (xs.map fun m => HostOp.setElementText (f m) "") = [] := by
  induction xs with
  | nil => rfl
  | cons x rest ih => simpa [removed] using ih

theorem inserted_setElementText (f : Nat → Handle) (xs : List Nat) :
    inserted (xs.map fun m => HostOp.setElementText (f m) "") = [] := by
  induction xs with
  | nil => rfl
  | cons x rest ih => simpa [inserted] using ih

theorem created_insert (f : Nat → Handle) (g : Nat → Ref) (c : Handle) (xs : List Nat) :
    created (xs.map fun x => HostOp.insert (f x) c (g x)) = [] := by
  induction xs with
  | nil => rfl
  | cons x rest ih => simpa [created] using ih

theorem removed_insert (f : Nat → Handle) (g : Nat → Ref) (c : Handle) (xs : List Nat) :
    removed (xs.map fun x => HostOp.insert (f x) c (g x)) = [] := by
  induction xs with
  | nil => rfl
  | cons x rest ih => simpa [removed] using ih

theorem inserted_insert (f : Nat → Handle) (g : Nat → Ref) (c : Handle) (xs : List Nat) :
    inserted (xs.map fun x => HostOp.insert (f x) c (g x)) = xs.map fun x => (f x, g x) := by
  induction xs with
  | nil => rfl
  | cons x rest ih => simpa [inserted] using ih

theorem created_revLog (e : Nat → Nat) (n : Nat) (c : Handle) : created (revLog e n c) = [] := by
  unfold revLog
  rw [created_append, created_append, created_setElementText,
    created_insert (fun x => e (x + 1)) (fun x => some (e x))]
  rfl

theorem removed_revLog (e : Nat → Nat) (n : Nat) (c : Handle) : removed (revLog e n c) = [] := by
  unfold revLog
  rw [removed_append, removed_append, removed_setElementText,
    removed_insert (fun x => e (x + 1)) (fun x => some (e x))]
  rfl

theorem moves_revLog (e : Nat → Nat) (n : Nat) (c : Handle) :
    moves (revLog e n c) =
      (e 0, none) :: (List.range' 1 (n - 2)).map fun x => (e (x + 1), some (e x)) := by
  unfold moves
  rw [created_revLog]
  unfold revLog
  rw [inserted_append, inserted_append, inserted_setElementText,
    inserted_insert (fun x => e (x + 1)) (fun x => some (e x))]
  simp [inserted]

/-- The reversal of childless elements. For every `n ≥ 2`, every sequence of
`n` childless `li` elements with distinct keys `k i` mounted on distinct
handles `e i`, and every recursion depth, reconciling the sequence to its
reverse returns, leaves the container's children in the reversed order, creates
and removes nothing, issues exactly `n - 1` moves, and never moves the node on
handle `e 1`. -/
theorem reversal_of_leaves (fuel : Nat) (k e : Nat → Nat) (n : Nat) (c : Handle)
    (hn : 2 ≤ n)
    (hk : ∀ a b, a < n → b < n → k a = k b → a = b)
    (he : ∀ a b, a < n → b < n → e a = e b → a = b)
    (hc : ∀ m, m < n → e m ≠ c) :
    (reconcile (fuel + 1) (leaves k e n) (leaves k e n).reverse
        (Host.mounted c ((List.range n).map e)) c).error = none ∧
    (reconcile (fuel + 1) (leaves k e n) (leaves k e n).reverse
        (Host.mounted c ((List.range n).map e)) c).childNodes =
      ((List.range n).map e).reverse ∧
    created (reconcile (fuel + 1) (leaves k e n) (leaves k e n).reverse
        (Host.mounted c ((List.range n).map e)) c).log = [] ∧
    removed (reconcile (fuel + 1) (leaves k e n) (leaves k e n).reverse
        (Host.mounted c ((List.range n).map e)) c).log = [] ∧
    (moves (reconcile (fuel + 1) (leaves k e n) (leaves k e n).reverse
        (Host.mounted c ((List.range n).map e)) c).log).length = n - 1 ∧
    ∀ m ∈ moves (reconcile (fuel + 1) (leaves k e n) (leaves k e n).reverse
        (Host.mounted c ((List.range n).map e)) c).log, m.1 ≠ e 1 := by
  rw [reconcile_reverse_leaves fuel k e n c hn hk he hc]
  refine ⟨rfl, rfl, created_revLog e n c, removed_revLog e n c, ?_, ?_⟩
  · show (moves (revLog e n c)).length = n - 1
    rw [moves_revLog]
    simp
    omega
  · intro m hm
    have hm2 : m ∈ moves (revLog e n c) := hm
    rw [moves_revLog] at hm2
    rcases List.mem_cons.1 hm2 with h1 | h1
    · rw [h1]
      intro h2
      have := he 0 1 (by omega) (by omega) h2
      omega
    · obtain ⟨x, hx, hxe⟩ := List.mem_map.1 h1
      rw [List.mem_range'_1] at hx
      rw [← hxe]
      intro h2
      have := he (x + 1) 1 (by omega) (by omega) h2
      omega

/-- The reversal of childless elements at `n = 3`, keys `1, 2, 3` on handles
`1, 2, 3` under container `0`: the hypotheses hold, the order is reversed, and
two moves are issued. -/
theorem reversal_of_leaves_witness :
    (2 ≤ 3) ∧
    (reconcile 1 (leaves (· + 1) (· + 1) 3) (leaves (· + 1) (· + 1) 3).reverse
        (Host.mounted 0 ((List.range 3).map (· + 1))) 0).childNodes = [3, 2, 1] ∧
    (moves (reconcile 1 (leaves (· + 1) (· + 1) 3) (leaves (· + 1) (· + 1) 3).reverse
        (Host.mounted 0 ((List.range 3).map (· + 1))) 0).log).length = 2 :=
  have h := reversal_of_leaves 0 (· + 1) (· + 1) 3 0 (by decide)
    (fun a b _ _ hab => Nat.succ.inj hab) (fun a b _ _ hab => Nat.succ.inj hab)
    (fun m _ => Nat.succ_ne_zero m)
  ⟨by decide, h.2.1, h.2.2.2.2.1⟩

/-! ## Lemmas: the phases of `patchKeyeChildren` -/

/-- The function `patchKeyeChildren` is its phases in sequence. -/
theorem patchKeyeChildren_phases (patch : PatchFn) (n1 n2 : VNode) (container : Ref) :
    patchKeyeChildren patch n1 n2 container =
      (do
        let oldChildren ← deref (arrayLike n1.children)
        let newChildren ← deref (arrayLike n2.children)
        let r ← trims patch oldChildren newChildren container
        afterTrims patch n2 oldChildren container r.1 r.2.1 r.2.2.1 r.2.2.2) := by
  unfold patchKeyeChildren trims afterTrims indexAndWalk
  simp only [bind_assoc, pure_bind]
  refine congrArg _ (funext fun old => ?_)
  refine congrArg _ (funext fun new => ?_)
  refine congrArg _ (funext fun r1 => ?_)
  refine congrArg _ (funext fun r2 => ?_)
  split
  · rfl
  · split
    · rfl
    · split
      · rfl
      · simp only [bind_assoc, pure_bind]

theorem trims_mono {p q : PatchFn} (hpq : PApprox p q) (old new : List VNode) (c : Ref) :
    Approx (trims p old new c) (trims q old new c) := by
  unfold trims
  refine Approx.bind (prefixLoop_mono hpq _ _ _ _ _) fun r => ?_
  rcases r with ⟨j, new1⟩
  exact Approx.bind (suffixLoop_mono hpq _ _ _ _ _ _ _ _) fun _ => Approx.refl _

theorem indexAndWalk_mono {p q : PatchFn} (hpq : PApprox p q) (old : List VNode) (c : Ref)
    (j : Nat) (oldEnd newEnd : Int) (new : List VNode) :
    Approx (indexAndWalk p old c j oldEnd newEnd new)
      (indexAndWalk q old c j oldEnd newEnd new) := by
  unfold indexAndWalk
  dsimp only
  split <;>
  · refine Approx.bind (Approx.refl _) fun _ => ?_
    refine Approx.bind (Approx.refl _) fun ki => ?_
    exact walkOld_mono hpq _ _ _ _ _ _ _ _

theorem exec_of_approx_ok {α : Type} {m m1 : M α} (hm : Approx m m1) (h h1 : Host) (a : α)
    (hx : exec m h = (.ok a, h1)) : exec m1 h = (.ok a, h1) := by
  rw [hm h (by rw [hx]; simp), hx]

/-- Once the trims end without error, every larger recursion depth gives the
same cursors. -/
theorem trimsOutcome_fuel (fuel k : Nat) (old new : List VNode) (h : Host) (c : Handle)
    (r : Nat × Int × Int) (hr : trimsOutcome fuel old new h c = some r) :
    trimsOutcome (k + fuel) old new h c = some r := by
  unfold trimsOutcome at hr ⊢
  rcases hx : exec (trims (patch fuel) old new (some c)) h with ⟨res, h1⟩
  rw [hx] at hr
  cases res with
  | error e => cases hr
  | ok a =>
    rw [Nat.add_comm, exec_of_approx_ok (trims_mono (patch_mono fuel k) old new (some c)) h h1 a hx]
    exact hr

/-- Once the walk ends without error, every larger recursion depth gives the
same `count` and `patched`. -/
theorem walkOutcome_fuel (fuel k : Nat) (old new : List VNode) (h : Host) (c : Handle)
    (r : Int × Nat) (hr : walkOutcome fuel old new h c = some r) :
    walkOutcome (k + fuel) old new h c = some r := by
  unfold walkOutcome at hr ⊢
  rcases hx : exec (do
      let r ← trims (patch fuel) old new (some c)
      let st ← indexAndWalk (patch fuel) old (some c) r.1 r.2.1 r.2.2.1 r.2.2.2
      pure (r.2.2.1 - r.1 + 1, st.patched)) h with ⟨res, h1⟩
  rw [hx] at hr
  cases res with
  | error e => cases hr
  | ok a =>
    have hm : Approx
        (do
          let r ← trims (patch fuel) old new (some c)
          let st ← indexAndWalk (patch fuel) old (some c) r.1 r.2.1 r.2.2.1 r.2.2.2
          pure (r.2.2.1 - r.1 + 1, st.patched))
        (do
          let r ← trims (patch (fuel + k)) old new (some c)
          let st ← indexAndWalk (patch (fuel + k)) old (some c) r.1 r.2.1 r.2.2.1 r.2.2.2
          pure (r.2.2.1 - r.1 + 1, st.patched)) :=
      Approx.bind (trims_mono (patch_mono fuel k) old new (some c)) fun r =>
        Approx.bind (indexAndWalk_mono (patch_mono fuel k) old (some c) _ _ _ _) fun _ =>
          Approx.refl _
    rw [Nat.add_comm, exec_of_approx_ok hm h h1 a hx]
    exact hr

/-- Once a `patch` call ends without `Err.fuel`, every larger recursion depth
gives the same outcome. -/
theorem observe_patch_fuel (fuel k : Nat) (n1 : Option VNode) (n2 : VNode) (container anchor : Ref)
    (h : Host) (c : Handle)
    (hne : (observe (patch fuel n1 n2 container anchor) h c).error ≠ some Err.fuel) :
    observe (patch (k + fuel) n1 n2 container anchor) h c =
      observe (patch fuel n1 n2 container anchor) h c := by
  rw [Nat.add_comm]
  exact observe_of_approx (patch_mono fuel k n1 n2 container anchor) h c hne

/-- Once a `patchChildren` call ends without `Err.fuel`, every larger
recursion depth gives the same outcome. -/
theorem observe_patchChildren_fuel (fuel k : Nat) (n1 n2 : VNode) (container : Ref)
    (h : Host) (c : Handle)
    (hne : (observe (patchChildren (patch fuel) n1 n2 container) h c).error ≠ some Err.fuel) :
    observe (patchChildren (patch (k + fuel)) n1 n2 container) h c =
      observe (patchChildren (patch fuel) n1 n2 container) h c := by
  rw [Nat.add_comm]
  exact observe_of_approx (patchChildren_mono (patch_mono fuel k) n1 n2 container) h c hne

/-! ## Lemmas: props and `unmount` -/

theorem Host.logged_nil (h : Host) : h.logged [] = h := by
  unfold Host.logged
  simp

theorem Host.logged_logged (h : Host) (a b : List HostOp) :
    (h.logged a).logged b = h.logged (a ++ b) := by
  unfold Host.logged
  simp

theorem exec_patchProps (e : Handle) (key : String) (a b : JSVal) (h : Host) :
    exec (patchProps (some e) key a b) h = (.ok (), h.logged [HostOp.patchProps e key a b]) :=
  rfl

theorem lookup_of_mem (ps : Props) (hnd : (ps.map Prod.fst).Nodup) (kv : String × JSVal)
    (hkv : kv ∈ ps) : ps.lookup kv.1 = some kv.2 := by
  induction ps with
  | nil => cases hkv
  | cons x rest ih =>
    rw [List.map_cons, List.nodup_cons] at hnd
    rcases List.mem_cons.1 hkv with h1 | h1
    · subst h1
      simp [List.lookup]
    · have hne : kv.1 ≠ x.1 := by
        intro h2
        apply hnd.1
        rw [← h2]
        exact List.mem_map.2 ⟨kv, h1, rfl⟩
      have : (kv.1 == x.1) = false := by simpa using hne
      obtain ⟨xk, xv⟩ := x
      simp only [List.lookup, this]
      exact ih hnd.2 h1

theorem propAt_of_mem (ps : Props) (hnd : (ps.map Prod.fst).Nodup) (kv : String × JSVal)
    (hkv : kv ∈ ps) : propAt ps kv.1 = kv.2 := by
  unfold propAt
  rw [lookup_of_mem ps hnd kv hkv]

theorem exec_patchNewProps (e : Handle) (oldProps newProps : Props) :
    ∀ (rest : Props) (h : Host), (∀ kv ∈ rest, propAt newProps kv.1 = kv.2) →
      exec (patchNewProps (some e) (some oldProps) newProps rest) h =
        (.ok (), h.logged ((rest.filter fun kv => decide (kv.2 ≠ propAt oldProps kv.1)).map
          fun kv => HostOp.patchProps e kv.1 (propAt oldProps kv.1) kv.2))
  | [], h, _ => by
    unfold patchNewProps
    rw [exec_pure]
    simp [Host.logged_nil]
  | (key, v) :: rest, h, hv => by
    have hkv : propAt newProps key = v := hv (key, v) (List.mem_cons_self _ _)
    have hrest : ∀ kv ∈ rest, propAt newProps kv.1 = kv.2 :=
      fun kv hm => hv kv (List.mem_cons_of_mem _ hm)
    unfold patchNewProps
    rw [exec_bind, exec_deref_some]
    dsimp only
    rw [hkv]
    by_cases hd : v ≠ propAt oldProps key
    · rw [if_pos hd, exec_bind, exec_patchProps]
      dsimp only
      rw [exec_patchNewProps e oldProps newProps rest _ hrest, Host.logged_logged]
      simp [List.filter, hd]
    · rw [if_neg hd, exec_bind, exec_pure]
      dsimp only
      rw [exec_patchNewProps e oldProps newProps rest _ hrest]
      simp [List.filter, hd]

theorem exec_patchOldProps (e : Handle) (oldProps newProps : Props) :
    ∀ (rest : Props) (h : Host), (∀ kv ∈ rest, propAt oldProps kv.1 = kv.2) →
      exec (patchOldProps (some e) oldProps (some newProps) rest) h =
        (.ok (), h.logged ((rest.filter fun kv => !hasKey newProps kv.1).map
          fun kv => HostOp.patchProps e kv.1 kv.2 JSVal.null))
  | [], h, _ => by
    unfold patchOldProps
    rw [exec_pure]
    simp [Host.logged_nil]
  | (key, v) :: rest, h, hv => by
    have hkv : propAt oldProps key = v := hv (key, v) (List.mem_cons_self _ _)
    have hrest : ∀ kv ∈ rest, propAt oldProps kv.1 = kv.2 :=
      fun kv hm => hv kv (List.mem_cons_of_mem _ hm)
    unfold patchOldProps
    rw [exec_bind, exec_deref_some]
    dsimp only
    rw [hkv]
    by_cases hd : ¬ hasKey newProps key = true
    · have hb : hasKey newProps key = false := by simpa using hd
      rw [if_pos hd, exec_bind, exec_patchProps]
      dsimp only
      rw [exec_patchOldProps e oldProps newProps rest _ hrest, Host.logged_logged]
      simp [List.filter, hb]
    · have hb : hasKey newProps key = true := by simpa using hd
      rw [if_neg hd, exec_bind, exec_pure]
      dsimp only
      rw [exec_patchOldProps e oldProps newProps rest _ hrest]
      simp [List.filter, hb]

/-! ## Lemmas: `patch` keeps the key, and the trims -/

theorem VNode.key_setEl (v : VNode) (e : Ref) : (v.setEl e).key = v.key := by
  cases v
  rfl

theorem VNode.key_setChildren (v : VNode) (cs : List VNode) : (v.setChildren cs).key = v.key := by
  cases v
  rfl

theorem keepsKey_pure {v n2 : VNode} (hv : v.key = n2.key) : KeepsKey (pure v) n2 := by
  intro h w h1 hx
  rw [exec_pure] at hx
  cases hx
  exact hv

theorem keepsKey_throw (e : Err) (n2 : VNode) : KeepsKey (throw e) n2 := by
  intro h w h1 hx
  rw [exec_throw] at hx
  cases hx

theorem keepsKey_bind {α : Type} {m : M α} {f : α → M VNode} {n2 : VNode}
    (hf : ∀ a, KeepsKey (f a) n2) : KeepsKey (m >>= f) n2 := by
  intro h w h1 hx
  rw [exec_bind] at hx
  rcases hm : exec m h with ⟨r, h2⟩
  rw [hm] at hx
  cases r with
  | error e => cases hx
  | ok a => exact hf a h2 w h1 hx

theorem keepsKey_congr {m : M VNode} {n2 n3 : VNode} (hm : KeepsKey m n2) (hk : n2.key = n3.key) :
    KeepsKey m n3 := fun h w h1 hx => (hm h w h1 hx).trans hk

theorem keepsKey_bind_keeps {m : M VNode} {f : VNode → M VNode} {n2 : VNode}
    (hm : KeepsKey m n2) (hf : ∀ a, a.key = n2.key → KeepsKey (f a) n2) :
    KeepsKey (m >>= f) n2 := by
  intro h w h1 hx
  rw [exec_bind] at hx
  rcases hm2 : exec m h with ⟨r, h2⟩
  rw [hm2] at hx
  cases r with
  | error e => cases hx
  | ok a => exact hf a (hm h a h2 hm2) h2 w h1 hx

theorem mountElement_keepsKey (p : PatchFn) (v : VNode) (c a : Ref) :
    KeepsKey (mountElement p v c a) v := by
  unfold mountElement
  refine keepsKey_bind fun el => ?_
  refine keepsKey_bind_keeps ?_ fun w hw => ?_
  · split
    · exact keepsKey_bind fun _ => keepsKey_pure (VNode.key_setEl _ _)
    · exact keepsKey_bind fun _ =>
        keepsKey_pure ((VNode.key_setChildren _ _).trans (VNode.key_setEl _ _))
    · exact keepsKey_pure (VNode.key_setEl _ _)
  · dsimp only
    split <;> exact keepsKey_bind fun _ => keepsKey_bind fun _ => keepsKey_pure hw

theorem patchKeyeChildren_keepsKey (p : PatchFn) (n1 n2 : VNode) (c : Ref) :
    KeepsKey (patchKeyeChildren p n1 n2 c) n2 := by
  rw [patchKeyeChildren_phases]
  refine keepsKey_bind fun old => ?_
  refine keepsKey_bind fun new => ?_
  refine keepsKey_bind fun r => ?_
  unfold afterTrims
  split
  · exact keepsKey_bind fun _ => keepsKey_bind fun _ =>
      keepsKey_pure (VNode.key_setChildren _ _)
  · split
    · exact keepsKey_bind fun _ => keepsKey_pure (VNode.key_setChildren _ _)
    · refine keepsKey_bind fun st => ?_
      split
      · exact keepsKey_bind fun _ => keepsKey_pure (VNode.key_setChildren _ _)
      · exact keepsKey_pure (VNode.key_setChildren _ _)

theorem patchChildren_keepsKey (p : PatchFn) (n1 n2 : VNode) (c : Ref) :
    KeepsKey (patchChildren p n1 n2 c) n2 := by
  unfold patchChildren
  split
  · dsimp only
    split <;> exact keepsKey_bind fun _ => keepsKey_bind fun _ => keepsKey_pure rfl
  · exact patchKeyeChildren_keepsKey p n1 n2 c
  · dsimp only
    split <;> exact keepsKey_bind fun _ => keepsKey_pure rfl

theorem patchElement_keepsKey (p : PatchFn) (n1 n2 : VNode) :
    KeepsKey (patchElement p n1 n2) n2 := by
  unfold patchElement
  dsimp only
  split <;>
  · refine keepsKey_bind fun _ => ?_
    split <;>
    · refine keepsKey_bind fun _ => ?_
      exact keepsKey_congr (patchChildren_keepsKey p n1 _ _) (VNode.key_setEl _ _)

theorem patchStep_keepsKey (p : PatchFn) (n1 : Option VNode) (n2 : VNode) (c a : Ref) :
    KeepsKey (patchStep p n1 n2 c a) n2 := by
  unfold patchStep
  refine keepsKey_bind fun o => ?_
  split
  · split
    · exact mountElement_keepsKey p n2 c a
    · exact patchElement_keepsKey p _ n2
  · exact keepsKey_pure rfl
  · split
    · exact keepsKey_bind fun _ => keepsKey_bind fun _ => keepsKey_pure (VNode.key_setEl _ _)
    · dsimp only
      split <;> exact keepsKey_bind fun _ => keepsKey_pure (VNode.key_setEl _ _)
  · split
    · exact keepsKey_bind fun _ => keepsKey_bind fun _ => keepsKey_pure (VNode.key_setEl _ _)
    · dsimp only
      split <;> exact keepsKey_bind fun _ => keepsKey_pure (VNode.key_setEl _ _)
  · split
    · split
      · exact keepsKey_bind fun _ => keepsKey_pure (VNode.key_setChildren _ _)
      · exact keepsKey_throw _ _
    · exact patchChildren_keepsKey p _ n2 c
  · exact keepsKey_pure rfl

/-- At every recursion depth, `patch` returns `n2` with its key unchanged. -/
theorem patch_keepsKey (fuel : Nat) (n1 : Option VNode) (n2 : VNode) (c a : Ref) :
    KeepsKey (patch fuel n1 n2 c a) n2 := by
  cases fuel with
  | zero => exact keepsKey_throw _ _
  | succ f => exact patchStep_keepsKey (patch f) n1 n2 c a

theorem idx_setIdx_self {α : Type} (xs : List α) (i : Nat) (a b : α)
    (hi : idx xs (i : Int) = some b) : idx (setIdx xs (i : Int) a) (i : Int) = some a := by
  rw [idx_natCast] at hi ⊢
  unfold setIdx
  have h2 : ¬ ((i : Int) < 0) := by omega
  simp only [h2, if_false, Int.toNat_ofNat]
  have hlt : i < xs.length := by
    rcases Nat.lt_or_ge i xs.length with h3 | h3
    · exact h3
    · rw [List.getElem?_eq_none h3] at hi
      cases hi
  rw [List.getElem?_set_self hlt]

theorem idx_nonneg {α : Type} (xs : List α) (i : Int) (a : α) (hi : idx xs i = some a) :
    0 ≤ i := by
  unfold idx at hi
  by_cases h0 : i < 0
  · rw [if_pos h0] at hi
    cases hi
  · omega

/-- Replacing a node by one with the same key leaves `Matched` as it is. -/
theorem matched_setIdx {old new : List VNode} {i : Nat} (hm : Matched old new i) (cur : Int)
    (n n1 : VNode) (hn : idx new cur = some n) (hk : n1.key = n.key) :
    Matched old (setIdx new cur n1) i := by
  obtain ⟨o, m, ho, hm1, hkey⟩ := hm
  have hc := idx_nonneg new cur n hn
  obtain ⟨ci, rfl⟩ : ∃ ci : Nat, cur = (ci : Int) := ⟨cur.toNat, by omega⟩
  by_cases hci : ci = i
  · subst hci
    refine ⟨o, n1, ho, idx_setIdx_self new ci n1 n hn, ?_⟩
    rw [hn] at hm1
    cases hm1
    rw [hkey, hk]
  · exact ⟨o, m, ho, by rw [idx_setIdx_ne new ci i n1 hci]; exact hm1, hkey⟩

/-- Replacing a node by one with the same key leaves `Differ` as it is. -/
theorem differ_setIdx {old new : List VNode} {i : Nat} (hm : Differ old new i) (cur : Int)
    (n n1 : VNode) (hn : idx new cur = some n) (hk : n1.key = n.key) :
    Differ old (setIdx new cur n1) i := by
  obtain ⟨o, m, ho, hm1, hkey⟩ := hm
  have hc := idx_nonneg new cur n hn
  obtain ⟨ci, rfl⟩ : ∃ ci : Nat, cur = (ci : Int) := ⟨cur.toNat, by omega⟩
  by_cases hci : ci = i
  · subst hci
    refine ⟨o, n1, ho, idx_setIdx_self new ci n1 n hn, ?_⟩
    rw [hn] at hm1
    cases hm1
    rw [hk]
    exact hkey
  · exact ⟨o, m, ho, by rw [idx_setIdx_ne new ci i n1 hci]; exact hm1, hkey⟩

/-- When the prefix loop returns, the keys agree below the cursor and differ
at the cursor. -/
theorem prefixLoop_returns (p : PatchFn) (hp : ∀ n1 n2 c a, KeepsKey (p n1 n2 c a) n2)
    (old : List VNode) (c : Ref) :
    ∀ (fuel j : Nat) (new : List VNode) (h : Host) (j1 : Nat) (new1 : List VNode) (h1 : Host),
      (∀ i, i < j → Matched old new i) →
      exec (prefixLoop p old c fuel j new) h = (.ok (j1, new1), h1) →
      (∀ i, i < j1 → Matched old new1 i) ∧ Differ old new1 j1
  | 0, j, new, h, j1, new1, h1, _, hx => by
    unfold prefixLoop at hx
    rw [exec_throw] at hx
    cases hx
  | fuel + 1, j, new, h, j1, new1, h1, hm, hx => by
    unfold prefixLoop at hx
    rw [exec_bind] at hx
    cases ho : idx old (j : Int) with
    | none =>
      rw [ho, exec_deref_none] at hx
      cases hx
    | some o =>
      rw [ho, exec_deref_some] at hx
      dsimp only at hx
      rw [exec_bind] at hx
      cases hn : idx new (j : Int) with
      | none =>
        rw [hn, exec_deref_none] at hx
        cases hx
      | some n =>
        rw [hn, exec_deref_some] at hx
        dsimp only at hx
        by_cases hk : o.key = n.key
        · rw [if_pos hk, exec_bind] at hx
          rcases hpx : exec (p (some o) n c none) h with ⟨r, h2⟩
          rw [hpx] at hx
          cases r with
          | error e => cases hx
          | ok n1 =>
            dsimp only at hx
            have hk1 : n1.key = n.key := hp _ _ _ _ h n1 h2 hpx
            refine prefixLoop_returns p hp old c fuel (j + 1) _ h2 j1 new1 h1 ?_ hx
            intro i hi
            by_cases hij : i = j
            · subst hij
              exact ⟨o, n1, ho, idx_setIdx_self new i n1 n hn, by rw [hk, hk1]⟩
            · exact matched_setIdx (hm i (by omega)) (j : Int) n n1 hn hk1
        · rw [if_neg hk, exec_pure] at hx
          cases hx
          exact ⟨hm, o, n, ho, hn, hk⟩

/-- When the suffix loop returns, `oldEnd` has not passed the index `j` at
which the keys differ: the loop either stops at `j` or above, or it runs
through the matched prefix down to `oldChildren[-1]` and throws. -/
theorem suffixLoop_returns (p : PatchFn) (hp : ∀ n1 n2 c a, KeepsKey (p n1 n2 c a) n2)
    (old : List VNode) (c : Ref) (j : Nat) :
    ∀ (fuel : Nat) (oldEnd newEnd cur : Int) (new : List VNode) (h : Host)
      (oe ne : Int) (new1 : List VNode) (h1 : Host),
      (∀ i, i < j → Matched old new i) → Differ old new j →
      (cur = oldEnd ∨ (j : Int) ≤ oldEnd) →
      exec (suffixLoop p old c fuel oldEnd newEnd (idx old oldEnd) cur new) h =
        (.ok (oe, ne, new1), h1) →
      (j : Int) ≤ oe
  | 0, oldEnd, newEnd, cur, new, h, oe, ne, new1, h1, _, _, _, hx => by
    unfold suffixLoop at hx
    rw [exec_throw] at hx
    cases hx
  | fuel + 1, oldEnd, newEnd, cur, new, h, oe, ne, new1, h1, hm, hd, hmode, hx => by
    unfold suffixLoop at hx
    rw [exec_bind] at hx
    cases ho : idx old oldEnd with
    | none =>
      rw [ho, exec_deref_none] at hx
      cases hx
    | some o =>
      rw [ho, exec_deref_some] at hx
      dsimp only at hx
      rw [exec_bind] at hx
      cases hn : idx new cur with
      | none =>
        rw [hn, exec_deref_none] at hx
        cases hx
      | some n =>
        rw [hn, exec_deref_some] at hx
        dsimp only at hx
        by_cases hk : o.key = n.key
        · rw [if_pos hk, exec_bind] at hx
          rcases hpx : exec (p (some o) n c none) h with ⟨r, h2⟩
          rw [hpx] at hx
          cases r with
          | error e => cases hx
          | ok n1 =>
            dsimp only at hx
            have hk1 : n1.key = n.key := hp _ _ _ _ h n1 h2 hpx
            exact suffixLoop_returns p hp old c j fuel (oldEnd - 1) (newEnd - 1) (oldEnd - 1)
              _ h2 oe ne new1 h1
              (fun i hi => matched_setIdx (hm i hi) cur n n1 hn hk1)
              (differ_setIdx hd cur n n1 hn hk1) (Or.inl rfl) hx
        · rw [if_neg hk, exec_pure] at hx
          cases hx
          rcases hmode with hc | hc
          · by_contra hlt
            have h0 := idx_nonneg old oldEnd o ho
            obtain ⟨ei, rfl⟩ : ∃ ei : Nat, oldEnd = (ei : Int) := ⟨oldEnd.toNat, by omega⟩
            obtain ⟨o2, n2, ho2, hn2, hk2⟩ := hm ei (by omega)
            rw [ho] at ho2
            rw [← hc, hn] at hn2
            cases ho2
            cases hn2
            exact hk hk2
          · exact hc

/-- When the trims return, `j ≤ oldEnd`. -/
theorem trims_returns (p : PatchFn) (hp : ∀ n1 n2 c a, KeepsKey (p n1 n2 c a) n2)
    (old new : List VNode) (c : Ref) (h h1 : Host) (j : Nat) (oe ne : Int) (new1 : List VNode)
    (hx : exec (trims p old new c) h = (.ok (j, oe, ne, new1), h1)) : (j : Int) ≤ oe := by
  unfold trims at hx
  rw [exec_bind] at hx
  rcases hpre : exec (prefixLoop p old c (old.length + 1) 0 new) h with ⟨r, h2⟩
  rw [hpre] at hx
  cases r with
  | error e => cases hx
  | ok r1 =>
    obtain ⟨j1, new2⟩ := r1
    dsimp only at hx
    rw [exec_bind] at hx
    obtain ⟨hm, hd⟩ := prefixLoop_returns p hp old c _ 0 new h j1 new2 h2
      (fun i hi => absurd hi (Nat.not_lt_zero i)) hpre
    rcases hsuf : exec (suffixLoop p old c (old.length + 1) ((old.length : Int) - 1)
        ((new2.length : Int) - 1) (idx old ((old.length : Int) - 1))
        ((new2.length : Int) - 1) new2) h2 with ⟨r, h3⟩
    rw [hsuf] at hx
    cases r with
    | error e => cases hx
    | ok r2 =>
      obtain ⟨oe2, ne2, new3⟩ := r2
      dsimp only at hx
      rw [exec_pure] at hx
      cases hx
      have hlen : (j : Int) ≤ (old.length : Int) - 1 := by
        obtain ⟨o, n, ho, _, _⟩ := hd
        rw [idx_natCast] at ho
        have : j < old.length := by
          rcases Nat.lt_or_ge j old.length with h3 | h3
          · exact h3
          · rw [List.getElem?_eq_none h3] at ho
            cases ho
        omega
      exact suffixLoop_returns p hp old c j _ _ _ _ new2 h2 _ _ _ _ hm hd (Or.inr hlen)
        hsuf

/-! ## Lemmas: `getSequence` -/

theorem valueAt_eq (arr : List Int) (i : Nat) (hi : i < arr.length) :
    arr[i]? = some (valueAt arr i) := by
  unfold valueAt
  rw [List.getD_eq_getElem?_getD, List.getElem?_eq_getElem hi]
  rfl

theorem getD_mem (rs : List Nat) (t : Nat) (ht : t < rs.length) : rs.getD t 0 ∈ rs := by
  rw [List.getD_eq_getElem?_getD, List.getElem?_eq_getElem ht]
  exact List.getElem_mem ht

theorem toJS_length (rs : List Nat) : (toJS rs).length = rs.length := by
  unfold toJS
  rw [List.length_map]

theorem valAt_toJS (rs : List Nat) (t : Nat) (ht : t < rs.length) :
    valAt (toJS rs) (some (t : Int)) = some ((rs.getD t 0 : Nat) : Int) := by
  unfold valAt toJS
  dsimp only
  rw [idx_natCast, List.getElem?_map, List.getD_eq_getElem?_getD,
    List.getElem?_eq_getElem ht]
  rfl

theorem numAt_natCast (arr : List Int) (r : Nat) (hr : r < arr.length) :
    numAt arr (some (r : Int)) = some (valueAt arr r) := by
  unfold numAt
  dsimp only
  rw [idx_natCast, valueAt_eq arr r hr]

theorem numAt_valAt_toJS (arr : List Int) (rs : List Nat) (hb : ∀ r ∈ rs, r < arr.length)
    (t : Nat) (ht : t < rs.length) :
    numAt arr (valAt (toJS rs) (some (t : Int))) = some (tailAt arr rs t) := by
  rw [valAt_toJS rs t ht, numAt_natCast arr _ (hb _ (getD_mem rs t ht))]
  rfl

theorem jsLt_some (a b : Int) : jsLt (some a) (some b) = decide (a < b) := rfl

theorem tailAt_mono_le (arr : List Int) (rs : List Nat)
    (hmono : ∀ s t, s < t → t < rs.length → tailAt arr rs s < tailAt arr rs t)
    (s t : Nat) (hst : s ≤ t) (ht : t < rs.length) : tailAt arr rs s ≤ tailAt arr rs t := by
  rcases Nat.lt_or_eq_of_le hst with h | h
  · exact le_of_lt (hmono s t h ht)
  · rw [h]

/-- The binary search of `getSequence` returns the first position whose value
is not below `x`. -/
theorem search_spec (arr : List Int) (rs : List Nat) (x : Int)
    (hb : ∀ r ∈ rs, r < arr.length)
    (hmono : ∀ s t, s < t → t < rs.length → tailAt arr rs s < tailAt arr rs t) :
    ∀ (fuel u v : Nat), v - u ≤ fuel → u ≤ v → v < rs.length →
      (∀ t, t < u → tailAt arr rs t < x) → x ≤ tailAt arr rs v →
      getSequence.search arr (toJS rs) x fuel u v ≤ v ∧
      (∀ t, t < getSequence.search arr (toJS rs) x fuel u v → tailAt arr rs t < x) ∧
      x ≤ tailAt arr rs (getSequence.search arr (toJS rs) x fuel u v)
  | 0, u, v, hf, huv, _, hlo, hhi => by
    have : u = v := by omega
    subst this
    unfold getSequence.search
    exact ⟨le_refl _, hlo, hhi⟩
  | fuel + 1, u, v, hf, huv, hv, hlo, hhi => by
    unfold getSequence.search
    by_cases h : u < v
    · rw [if_pos h]
      dsimp only
      have hc1 : u ≤ (u + v) / 2 := by omega
      have hc2 : (u + v) / 2 < v := by omega
      rw [numAt_valAt_toJS arr rs hb _ (by omega), jsLt_some]
      by_cases hlt : tailAt arr rs ((u + v) / 2) < x
      · rw [decide_eq_true hlt, if_pos rfl]
        have ih := search_spec arr rs x hb hmono fuel ((u + v) / 2 + 1) v (by omega) (by omega)
          hv (fun t ht => lt_of_le_of_lt
            (tailAt_mono_le arr rs hmono t ((u + v) / 2) (by omega) (by omega)) hlt) hhi
        exact ih
      · rw [decide_eq_false hlt, if_neg (by simp)]
        have ih := search_spec arr rs x hb hmono fuel u ((u + v) / 2) (by omega) hc1
          (by omega) hlo (not_lt.mp hlt)
        exact ⟨by omega, ih.2⟩
    · rw [if_neg h]
      have : u = v := by omega
      subst this
      exact ⟨le_refl _, hlo, hhi⟩

/-- The bound on the iterations of the binary search is never reached: with
`v - u` iterations allowed, more make no difference. -/
theorem search_fuel (arr : List Int) (result : List JSNum) (x : Int) :
    ∀ (fuel k u v : Nat), v - u ≤ fuel →
      getSequence.search arr result x (fuel + k) u v =
        getSequence.search arr result x fuel u v
  | 0, 0, u, v, _ => rfl
  | 0, k + 1, u, v, hf => by
    rw [Nat.zero_add]
    unfold getSequence.search
    rw [if_neg (by omega)]
  | fuel + 1, k, u, v, hf => by
    rw [Nat.add_right_comm]
    unfold getSequence.search
    by_cases h : u < v
    · rw [if_pos h, if_pos h]
      dsimp only
      rw [search_fuel arr result x fuel k ((u + v) / 2 + 1) v (by omega),
        search_fuel arr result x fuel k u ((u + v) / 2) (by omega)]
    · rw [if_neg h, if_neg h]

theorem getD_append_lt (rs : List Nat) (i t : Nat) (ht : t < rs.length) :
    (rs ++ [i]).getD t 0 = rs.getD t 0 := by
  rw [List.getD_eq_getElem?_getD, List.getD_eq_getElem?_getD, List.getElem?_append_left ht]

theorem getD_append_self (rs : List Nat) (i : Nat) : (rs ++ [i]).getD rs.length 0 = i := by
  rw [List.getD_eq_getElem?_getD, List.getElem?_append_right (le_refl _), Nat.sub_self]
  rfl

theorem getD_set_self (rs : List Nat) (u i : Nat) (hu : u < rs.length) :
    (rs.set u i).getD u 0 = i := by
  rw [List.getD_eq_getElem?_getD, List.getElem?_set_self hu]
  rfl

theorem getD_set_ne (rs : List Nat) (u i t : Nat) (hne : u ≠ t) :
    (rs.set u i).getD t 0 = rs.getD t 0 := by
  rw [List.getD_eq_getElem?_getD, List.getD_eq_getElem?_getD, List.getElem?_set_ne hne]

theorem toJS_append (rs : List Nat) (i : Nat) : toJS rs ++ [some (i : Int)] = toJS (rs ++ [i]) := by
  unfold toJS
  rw [List.map_append]
  rfl

theorem toJS_set (rs : List Nat) (u i : Nat) :
    (toJS rs).set u (some (i : Int)) = toJS (rs.set u i) := by
  unfold toJS
  rw [List.map_set]

theorem valAt_set_ne (p : List JSNum) (i b : Nat) (j : JSNum) (hne : i ≠ b) :
    valAt (p.set i j) (some (b : Int)) = valAt p (some (b : Int)) := by
  unfold valAt
  dsimp only
  rw [idx_natCast, idx_natCast, List.getElem?_set_ne hne]

theorem valAt_set_self (p : List JSNum) (i : Nat) (j : JSNum) (hi : i < p.length) :
    valAt (p.set i j) (some (i : Int)) = j := by
  unfold valAt
  dsimp only
  rw [idx_natCast, List.getElem?_set_self hi]
  rfl

/-- Every index of a chain is at most the index the chain ends with. -/
theorem chain_le_head (ch : List Nat) (r : Nat) (hh : ch.head? = some r)
    (hp : ch.Pairwise (· > ·)) : ∀ x ∈ ch, x ≤ r := by
  cases ch with
  | nil => cases hh
  | cons a rest =>
    rw [List.head?_cons] at hh
    cases hh
    intro x hx
    rcases List.mem_cons.mp hx with h | h
    · exact le_of_eq h
    · exact le_of_lt ((List.pairwise_cons.mp hp).1 x h)

/-- The values along a chain are at most the value it ends with. -/
theorem chain_value_le_head (arr : List Int) (ch : List Nat) (r : Nat)
    (hh : ch.head? = some r) (hp : (ch.map (valueAt arr)).Pairwise (· > ·)) :
    ∀ x ∈ ch, valueAt arr x ≤ valueAt arr r := by
  cases ch with
  | nil => cases hh
  | cons a rest =>
    rw [List.head?_cons] at hh
    cases hh
    intro x hx
    rcases List.mem_cons.mp hx with h | h
    · exact le_of_eq (by rw [h])
    · rw [List.map_cons] at hp
      exact le_of_lt ((List.pairwise_cons.mp hp).1 _ (List.mem_map_of_mem _ h))

/-- A write to `p[i]` keeps the links of a chain that ends below `i`. -/
theorem linked_set (p : List JSNum) (ch : List Nat) (i : Nat) (j : JSNum)
    (hlt : ∀ x ∈ ch, x < i) (hl : Linked p ch) : Linked (p.set i j) ch := by
  unfold Linked at hl ⊢
  rw [List.Chain'.iff_mem] at hl
  refine hl.imp ?_
  intro b a hba
  rw [valAt_set_ne p i b j (by have := hlt b hba.1; omega)]
  exact hba.2.2

/-- A chain that ends at `r` is extended by `i` once `p[i] = r`. -/
theorem chain_extend (arr : List Int) (p : List JSNum) (ch : List Nat) (r i : Nat)
    (hh : ch.head? = some r) (hp : ch.Pairwise (· > ·))
    (hv : (ch.map (valueAt arr)).Pairwise (· > ·)) (hl : Linked p ch)
    (hri : r < i) (hval : valueAt arr r < valueAt arr i) (hi : i < p.length) :
    (i :: ch).length = ch.length + 1 ∧ (i :: ch).head? = some i ∧
      (i :: ch).Pairwise (· > ·) ∧ ((i :: ch).map (valueAt arr)).Pairwise (· > ·) ∧
      Linked (p.set i (some (r : Int))) (i :: ch) := by
  have hle := chain_le_head ch r hh hp
  have hvle := chain_value_le_head arr ch r hh hv
  refine ⟨rfl, rfl, List.pairwise_cons.mpr ⟨fun x hx => ?_, hp⟩, ?_, ?_⟩
  · have := hle x hx
    show i > x
    omega
  · rw [List.map_cons]
    refine List.pairwise_cons.mpr ⟨fun y hy => ?_, hv⟩
    obtain ⟨x, hx, rfl⟩ := List.mem_map.mp hy
    exact lt_of_le_of_lt (hvle x hx) hval
  · unfold Linked
    rw [List.chain'_cons']
    refine ⟨fun y hy => ?_, linked_set p ch i _ (fun x hx => lt_of_le_of_lt (hle x hx) hri) hl⟩
    rw [hh] at hy
    cases hy
    exact valAt_set_self p i _ hi

/-- The final loop of `getSequence` writes a chain, first index first, into
the last places below `u`. -/
theorem backtrack_chain (p : List JSNum) :
    ∀ (ch : List Nat) (v : JSNum) (result : List JSNum),
      ch.length ≤ result.length → Linked p ch →
      (∀ r, ch.head? = some r → v = some (r : Int)) →
      getSequence.backtrack p ch.length v result =
        toJS ch.reverse ++ result.drop ch.length
  | [], v, result, _, _, _ => by
    unfold getSequence.backtrack
    rfl
  | r :: rest, v, result, hlen, hl, hv => by
    rw [hv r rfl]
    rw [List.length_cons] at hlen ⊢
    unfold getSequence.backtrack
    unfold Linked at hl
    rw [List.chain'_cons'] at hl
    rw [backtrack_chain p rest _ _ (by rw [List.length_set]; omega) hl.2
      (fun r1 hr1 => hl.1 r1 hr1)]
    rw [List.set_eq_take_append_cons_drop, if_pos (by omega : rest.length < result.length)]
    rw [List.drop_append_of_le_length (by rw [List.length_take]; omega)]
    rw [List.drop_eq_nil_of_le (by rw [List.length_take]; omega), List.nil_append,
      List.reverse_cons]
    unfold toJS
    rw [List.map_append, List.append_assoc]
    rfl

/-- The four ways one iteration of `getSequence` can go: the entry is `0` and
is skipped; its value is above every value of `result` and its index is
pushed; it replaces the first index whose value is above it; or its value is
already in `result` and nothing changes. -/
theorem step_cases (arr : List Int) (i : Nat) (p : List JSNum) (rs : List Nat)
    (hin : i < arr.length) (inv : GsInv arr i p rs) :
    (valueAt arr i = 0 ∧ getSequence.step arr (p, toJS rs) i = (p, toJS rs)) ∨
    (valueAt arr i ≠ 0 ∧ tailAt arr rs (rs.length - 1) < valueAt arr i ∧
      getSequence.step arr (p, toJS rs) i =
        (p.set i (some ((rs.getD (rs.length - 1) 0 : Nat) : Int)), toJS (rs ++ [i]))) ∨
    (valueAt arr i ≠ 0 ∧ ∃ u, u < rs.length ∧
      (∀ t, t < u → tailAt arr rs t < valueAt arr i) ∧ valueAt arr i < tailAt arr rs u ∧
      getSequence.step arr (p, toJS rs) i =
        (if u > 0 then p.set i (some ((rs.getD (u - 1) 0 : Nat) : Int)) else p,
          toJS (rs.set u i))) ∨
    (valueAt arr i ≠ 0 ∧ ∃ u, u < rs.length ∧
      (∀ t, t < u → tailAt arr rs t < valueAt arr i) ∧ valueAt arr i = tailAt arr rs u ∧
      getSequence.step arr (p, toJS rs) i = (p, toJS rs)) := by
  have hb : ∀ r ∈ rs, r < arr.length := fun r hr => lt_trans (inv.bound r hr) hin
  have hL := inv.pos
  unfold getSequence.step
  dsimp only
  rw [valueAt_eq arr i hin]
  dsimp only
  by_cases h0 : valueAt arr i = 0
  · left
    exact ⟨h0, by rw [if_neg (not_not.mpr h0)]⟩
  · right
    rw [if_pos h0]
    have hlast : ((toJS rs).length : Int) - 1 = ((rs.length - 1 : Nat) : Int) := by
      rw [toJS_length]
      omega
    rw [hlast, numAt_valAt_toJS arr rs hb _ (by omega), valAt_toJS rs _ (by omega), jsLt_some]
    by_cases hpush : tailAt arr rs (rs.length - 1) < valueAt arr i
    · left
      rw [decide_eq_true hpush, if_pos rfl, toJS_append]
      exact ⟨h0, hpush, rfl⟩
    · right
      rw [decide_eq_false hpush, if_neg (by simp)]
      have hs := search_spec arr rs (valueAt arr i) hb inv.mono rs.length 0 (rs.length - 1)
        (by omega) (Nat.zero_le _) (by omega) (fun t ht => absurd ht (Nat.not_lt_zero t))
        (not_lt.mp hpush)
      rw [toJS_length]
      generalize getSequence.search arr (toJS rs) (valueAt arr i) rs.length 0
        (rs.length - 1) = u at hs ⊢
      obtain ⟨hu, hlo, hhi⟩ := hs
      rw [numAt_valAt_toJS arr rs hb u (by omega), jsLt_some]
      by_cases hrep : valueAt arr i < tailAt arr rs u
      · left
        rw [decide_eq_true hrep, if_pos rfl]
        refine ⟨h0, u, by omega, hlo, hrep, ?_⟩
        by_cases hu0 : u > 0
        · have hcast : (u : Int) - 1 = ((u - 1 : Nat) : Int) := by omega
          rw [if_pos hu0, if_pos hu0, toJS_set, hcast, valAt_toJS rs (u - 1) (by omega)]
        · rw [if_neg hu0, if_neg hu0, toJS_set]
      · right
        rw [decide_eq_false hrep, if_neg (by simp)]
        exact ⟨h0, u, by omega, hlo, le_antisymm hhi (not_lt.mp hrep), rfl⟩

theorem tailAt_append_lt (arr : List Int) (rs : List Nat) (i t : Nat) (ht : t < rs.length) :
    tailAt arr (rs ++ [i]) t = tailAt arr rs t := by
  unfold tailAt
  rw [getD_append_lt rs i t ht]

theorem tailAt_append_self (arr : List Int) (rs : List Nat) (i : Nat) :
    tailAt arr (rs ++ [i]) rs.length = valueAt arr i := by
  unfold tailAt
  rw [getD_append_self]

theorem tailAt_set_self (arr : List Int) (rs : List Nat) (u i : Nat) (hu : u < rs.length) :
    tailAt arr (rs.set u i) u = valueAt arr i := by
  unfold tailAt
  rw [getD_set_self rs u i hu]

theorem tailAt_set_ne (arr : List Int) (rs : List Nat) (u i t : Nat) (hne : u ≠ t) :
    tailAt arr (rs.set u i) t = tailAt arr rs t := by
  unfold tailAt
  rw [getD_set_ne rs u i t hne]

/-- An old chain is still a chain after a write to `p[i]`. -/
theorem chain_keep (arr : List Int) (i : Nat) (p : List JSNum) (rs : List Nat)
    (inv : GsInv arr i p rs) (j : JSNum) (t : Nat) (ht : t < rs.length) :
    ∃ ch : List Nat, ch.length = t + 1 ∧ ch.head? = some (rs.getD t 0) ∧
      ch.Pairwise (· > ·) ∧ (ch.map (valueAt arr)).Pairwise (· > ·) ∧
      Linked (p.set i j) ch := by
  obtain ⟨ch, h1, h2, h3, h4, h5⟩ := inv.chain t ht
  refine ⟨ch, h1, h2, h3, h4, linked_set p ch i j (fun x hx => ?_) h5⟩
  exact lt_of_le_of_lt (chain_le_head ch _ h2 h3 x hx) (inv.bound _ (getD_mem rs t ht))

theorem gsInv_keep (arr : List Int) (i : Nat) (p : List JSNum) (rs : List Nat)
    (inv : GsInv arr i p rs) : GsInv arr (i + 1) p rs :=
  ⟨inv.plen, inv.pos, fun r hr => Nat.lt_succ_of_lt (inv.bound r hr), inv.mono, inv.chain⟩

theorem gsInv_push (arr : List Int) (i : Nat) (p : List JSNum) (rs : List Nat)
    (hin : i < arr.length) (inv : GsInv arr i p rs)
    (hpush : tailAt arr rs (rs.length - 1) < valueAt arr i) :
    GsInv arr (i + 1) (p.set i (some ((rs.getD (rs.length - 1) 0 : Nat) : Int)))
      (rs ++ [i]) := by
  have hL := inv.pos
  refine ⟨by rw [List.length_set]; exact inv.plen, by rw [List.length_append]; omega, ?_, ?_, ?_⟩
  · intro r hr
    rcases List.mem_append.mp hr with h | h
    · exact Nat.lt_succ_of_lt (inv.bound r h)
    · rw [List.mem_singleton.mp h]
      exact Nat.lt_succ_self i
  · intro s t hst ht
    rw [List.length_append, List.length_singleton] at ht
    rw [tailAt_append_lt arr rs i s (by omega)]
    rcases Nat.lt_or_ge t rs.length with h | h
    · rw [tailAt_append_lt arr rs i t h]
      exact inv.mono s t hst h
    · have : t = rs.length := by omega
      subst this
      rw [tailAt_append_self]
      exact lt_of_le_of_lt (tailAt_mono_le arr rs inv.mono s (rs.length - 1) (by omega)
        (by omega)) hpush
  · intro t ht
    rw [List.length_append, List.length_singleton] at ht
    rcases Nat.lt_or_ge t rs.length with h | h
    · rw [getD_append_lt rs i t h]
      exact chain_keep arr i p rs inv _ t h
    · have : t = rs.length := by omega
      subst this
      rw [getD_append_self]
      obtain ⟨ch, h1, h2, h3, h4, h5⟩ := inv.chain (rs.length - 1) (by omega)
      have he := chain_extend arr p ch _ i h2 h3 h4 h5
        (inv.bound _ (getD_mem rs _ (by omega))) hpush (by rw [inv.plen]; exact hin)
      exact ⟨i :: ch, by rw [he.1, h1]; omega, he.2.1, he.2.2.1, he.2.2.2.1, he.2.2.2.2⟩

theorem gsInv_replace (arr : List Int) (i : Nat) (p : List JSNum) (rs : List Nat)
    (hin : i < arr.length) (inv : GsInv arr i p rs) (u : Nat) (hu : u < rs.length)
    (hlo : ∀ t, t < u → tailAt arr rs t < valueAt arr i)
    (hrep : valueAt arr i < tailAt arr rs u) :
    GsInv arr (i + 1)
      (if u > 0 then p.set i (some ((rs.getD (u - 1) 0 : Nat) : Int)) else p)
      (rs.set u i) := by
  refine ⟨?_, by rw [List.length_set]; exact inv.pos, ?_, ?_, ?_⟩
  · split
    · rw [List.length_set]
      exact inv.plen
    · exact inv.plen
  · intro r hr
    rcases List.mem_or_eq_of_mem_set hr with h | h
    · exact Nat.lt_succ_of_lt (inv.bound r h)
    · rw [h]
      exact Nat.lt_succ_self i
  · intro s t hst ht
    rw [List.length_set] at ht
    by_cases htu : u = t
    · subst htu
      rw [tailAt_set_self arr rs u i hu, tailAt_set_ne arr rs u i s (by omega)]
      exact hlo s hst
    · rw [tailAt_set_ne arr rs u i t htu]
      by_cases hsu : u = s
      · subst hsu
        rw [tailAt_set_self arr rs u i hu]
        exact lt_trans hrep (inv.mono u t hst ht)
      · rw [tailAt_set_ne arr rs u i s hsu]
        exact inv.mono s t hst ht
  · intro t ht
    rw [List.length_set] at ht
    by_cases htu : u = t
    · subst htu
      rw [getD_set_self rs u i hu]
      by_cases hu0 : u > 0
      · rw [if_pos hu0]
        obtain ⟨ch, h1, h2, h3, h4, h5⟩ := inv.chain (u - 1) (by omega)
        have he := chain_extend arr p ch _ i h2 h3 h4 h5
          (inv.bound _ (getD_mem rs _ (by omega))) (hlo (u - 1) (by omega))
          (by rw [inv.plen]; exact hin)
        exact ⟨i :: ch, by rw [he.1, h1]; omega, he.2.1, he.2.2.1, he.2.2.2.1, he.2.2.2.2⟩
      · rw [if_neg hu0]
        have h0 : u = 0 := by omega
        subst h0
        exact ⟨[i], rfl, rfl, List.pairwise_singleton _ _, List.pairwise_singleton _ _,
          List.chain'_singleton _⟩
    · rw [getD_set_ne rs u i t htu]
      split
      · exact chain_keep arr i p rs inv _ t ht
      · exact inv.chain t ht

/-- Optimality is kept by an iteration on the index `i` as soon as `result`
does not shrink, no value of `result` grows, and every subsequence that ends
with `i` is accounted for. -/
theorem gsOpt_step (arr : List Int) (i : Nat) (rs rs1 : List Nat) (opt : GsOpt arr i rs)
    (hlen : rs.length ≤ rs1.length)
    (hle : ∀ t, t < rs.length → tailAt arr rs1 t ≤ tailAt arr rs t)
    (hnew : ∀ k, (k = 0 ∨ (k - 1 < rs.length ∧ tailAt arr rs (k - 1) < valueAt arr i)) →
      k < rs1.length ∧ tailAt arr rs1 k ≤ valueAt arr i) :
    GsOpt arr (i + 1) rs1 := by
  intro is0 l hpw hl hval
  rcases Nat.lt_or_ge l i with hli | hli
  · obtain ⟨h1, h2⟩ := opt is0 l hpw hli hval
    exact ⟨lt_of_lt_of_le h1 hlen, le_trans (hle _ h1) h2⟩
  · have : l = i := by omega
    subst this
    rcases List.eq_nil_or_concat is0 with h | ⟨is1, l1, h⟩
    · subst h
      exact hnew 0 (Or.inl rfl)
    · rw [List.concat_eq_append] at h
      subst h
      rw [List.pairwise_append] at hpw
      rw [List.map_append, List.pairwise_append] at hval
      have hl1 : l1 < l := hpw.2.2 l1 (by simp) l (by simp)
      have hv1 : valueAt arr l1 < valueAt arr l :=
        hval.2.2 (valueAt arr l1) (by simp) (valueAt arr l) (by simp)
      obtain ⟨h1, h2⟩ := opt is1 l1 hpw.1 hl1 hval.1
      have := hnew (is1.length + 1) (Or.inr ⟨by simpa using h1, by
        simpa using lt_of_le_of_lt h2 hv1⟩)
      simpa using this

theorem gsOpt_push (arr : List Int) (i : Nat) (p : List JSNum) (rs : List Nat)
    (inv : GsInv arr i p rs) (opt : GsOpt arr i rs)
    (hpush : tailAt arr rs (rs.length - 1) < valueAt arr i) :
    GsOpt arr (i + 1) (rs ++ [i]) := by
  have hL := inv.pos
  refine gsOpt_step arr i rs _ opt (by rw [List.length_append]; omega)
    (fun t ht => le_of_eq (tailAt_append_lt arr rs i t ht)) ?_
  intro k hk
  rw [List.length_append, List.length_singleton]
  have hkL : k ≤ rs.length := by omega
  refine ⟨by omega, ?_⟩
  rcases Nat.lt_or_eq_of_le hkL with h | h
  · rw [tailAt_append_lt arr rs i k h]
    exact le_of_lt (lt_of_le_of_lt (tailAt_mono_le arr rs inv.mono k (rs.length - 1)
      (by omega) (by omega)) hpush)
  · rw [h, tailAt_append_self]

theorem gsOpt_replace (arr : List Int) (i : Nat) (p : List JSNum) (rs : List Nat)
    (inv : GsInv arr i p rs) (opt : GsOpt arr i rs) (u : Nat) (hu : u < rs.length)
    (hlo : ∀ t, t < u → tailAt arr rs t < valueAt arr i)
    (hrep : valueAt arr i < tailAt arr rs u) :
    GsOpt arr (i + 1) (rs.set u i) := by
  refine gsOpt_step arr i rs _ opt (by rw [List.length_set]) (fun t ht => ?_) ?_
  · by_cases htu : u = t
    · subst htu
      rw [tailAt_set_self arr rs u i hu]
      exact le_of_lt hrep
    · rw [tailAt_set_ne arr rs u i t htu]
  · intro k hk
    rw [List.length_set]
    have hku : k ≤ u := by
      rcases hk with h | ⟨h1, h2⟩
      · omega
      · by_contra hc
        have := tailAt_mono_le arr rs inv.mono u (k - 1) (by omega) h1
        omega
    refine ⟨by omega, ?_⟩
    rcases Nat.lt_or_eq_of_le hku with h | h
    · rw [tailAt_set_ne arr rs u i k (by omega)]
      exact le_of_lt (hlo k h)
    · rw [h, tailAt_set_self arr rs u i hu]

theorem gsOpt_same (arr : List Int) (i : Nat) (p : List JSNum) (rs : List Nat)
    (inv : GsInv arr i p rs) (opt : GsOpt arr i rs) (u : Nat) (hu : u < rs.length)
    (hrep : valueAt arr i = tailAt arr rs u) :
    GsOpt arr (i + 1) rs := by
  refine gsOpt_step arr i rs _ opt (le_refl _) (fun t _ => le_refl _) ?_
  intro k hk
  have hku : k ≤ u := by
    rcases hk with h | ⟨h1, h2⟩
    · omega
    · by_contra hc
      have := tailAt_mono_le arr rs inv.mono u (k - 1) (by omega) h1
      omega
  refine ⟨by omega, ?_⟩
  rw [hrep]
  exact tailAt_mono_le arr rs inv.mono k u hku hu

/-- One iteration of `getSequence` keeps the invariant, and keeps optimality
when the entry is not `0`. -/
theorem step_inv (arr : List Int) (i : Nat) (p : List JSNum) (rs : List Nat)
    (hin : i < arr.length) (inv : GsInv arr i p rs) :
    ∃ p1 rs1, getSequence.step arr (p, toJS rs) i = (p1, toJS rs1) ∧
      GsInv arr (i + 1) p1 rs1 ∧
      (valueAt arr i ≠ 0 → GsOpt arr i rs → GsOpt arr (i + 1) rs1) := by
  rcases step_cases arr i p rs hin inv with ⟨h0, h⟩ | ⟨_, hpush, h⟩ | ⟨_, u, hu, hlo, hrep, h⟩ |
    ⟨_, u, hu, hlo, hrep, h⟩
  · exact ⟨p, rs, h, gsInv_keep arr i p rs inv, fun hnz => absurd h0 hnz⟩
  · exact ⟨_, _, h, gsInv_push arr i p rs hin inv hpush,
      fun _ opt => gsOpt_push arr i p rs inv opt hpush⟩
  · exact ⟨_, _, h, gsInv_replace arr i p rs hin inv u hu hlo hrep,
      fun _ opt => gsOpt_replace arr i p rs inv opt u hu hlo hrep⟩
  · exact ⟨p, rs, h, gsInv_keep arr i p rs inv,
      fun _ opt => gsOpt_same arr i p rs inv opt u hu hrep⟩

/-- The first iteration of `getSequence` changes nothing: `result` starts as
`[0]`. -/
theorem step_zero (a : Int) (arr : List Int) :
    getSequence.step (a :: arr) ((a :: arr).map some, [some 0]) 0 =
      ((a :: arr).map some, [some 0]) := by
  unfold getSequence.step
  simp [valAt, numAt, idx, jsLt, getSequence.search]

theorem gsInv_one (a : Int) (arr : List Int) :
    GsInv (a :: arr) 1 ((a :: arr).map some) [0] := by
  refine ⟨by rw [List.length_map], by simp, ?_, ?_, ?_⟩
  · intro r hr
    rw [List.mem_singleton.mp hr]
    exact Nat.one_pos
  · intro s t hst ht
    rw [List.length_singleton] at ht
    omega
  · intro t ht
    rw [List.length_singleton] at ht
    have : t = 0 := by omega
    subst this
    exact ⟨[0], rfl, rfl, List.pairwise_singleton _ _, List.pairwise_singleton _ _,
      List.chain'_singleton _⟩

theorem gsOpt_one (arr : List Int) : GsOpt arr 1 [0] := by
  intro is0 l hpw hl _
  have hl0 : l = 0 := by omega
  subst hl0
  cases is0 with
  | nil => exact ⟨by simp, le_refl _⟩
  | cons b rest =>
    rw [List.pairwise_append] at hpw
    have := hpw.2.2 b (by simp) 0 (by simp)
    omega

/-- The state of `getSequence` after the indices below `m`. -/
theorem gs_fold (a : Int) (arr : List Int) :
    ∀ m, 1 ≤ m → m ≤ (a :: arr).length →
      ∃ p rs, (List.range m).foldl (getSequence.step (a :: arr))
          ((a :: arr).map some, [some 0]) = (p, toJS rs) ∧
        GsInv (a :: arr) m p rs ∧
        ((∀ x ∈ a :: arr, x ≠ 0) → GsOpt (a :: arr) m rs) := by
  intro m hm
  induction m, hm using Nat.le_induction with
  | base =>
    intro _
    refine ⟨_, [0], ?_, gsInv_one a arr, fun _ => gsOpt_one _⟩
    show getSequence.step (a :: arr) ((a :: arr).map some, [some 0]) 0 = _
    rw [step_zero]
    rfl
  | succ m hm ih =>
    intro hlen
    obtain ⟨p, rs, hf, inv, opt⟩ := ih (by omega)
    obtain ⟨p1, rs1, hs, inv1, opt1⟩ := step_inv (a :: arr) m p rs (by omega) inv
    refine ⟨p1, rs1, ?_, inv1, fun hnz => opt1 ?_ (opt hnz)⟩
    · rw [List.range_succ, List.foldl_append, hf]
      exact hs
    · have hmem : valueAt (a :: arr) m ∈ a :: arr := by
        have h1 := valueAt_eq (a :: arr) m (by omega)
        exact List.getElem?_mem h1
      exact hnz _ hmem

/-- On a non-empty array, `getSequence` returns indices of the array in
strictly increasing order whose values increase strictly; when no entry is
`0`, no strictly increasing subsequence of the array is longer. -/
theorem getSequence_spec (arr : List Int) (hne : arr ≠ []) :
    ∃ is : List Nat, getSequence arr = toJS is ∧ is.Pairwise (· < ·) ∧
      (∀ i ∈ is, i < arr.length) ∧ (is.map (valueAt arr)).Pairwise (· < ·) ∧
      ((∀ x ∈ arr, x ≠ 0) → ∀ js : List Nat, js.Pairwise (· < ·) →
        (∀ j ∈ js, j < arr.length) → (js.map (valueAt arr)).Pairwise (· < ·) →
        js.length ≤ is.length) := by
  cases arr with
  | nil => exact absurd rfl hne
  | cons a arr =>
    obtain ⟨p, rs, hf, inv, opt⟩ := gs_fold a arr (a :: arr).length (by simp) (le_refl _)
    have hL := inv.pos
    obtain ⟨ch, h1, h2, h3, h4, h5⟩ := inv.chain (rs.length - 1) (by omega)
    have hlen : ch.length = rs.length := by omega
    refine ⟨ch.reverse, ?_, ?_, ?_, ?_, ?_⟩
    · unfold getSequence
      dsimp only
      rw [hf]
      dsimp only
      have hlast : ((toJS rs).length : Int) - 1 = ((rs.length - 1 : Nat) : Int) := by
        rw [toJS_length]
        omega
      rw [hlast, valAt_toJS rs _ (by omega), toJS_length, ← hlen]
      rw [backtrack_chain p ch _ _ (by rw [toJS_length, hlen]) h5 (fun r hr => by
        rw [h2] at hr
        cases hr
        rw [hlen])]
      rw [List.drop_eq_nil_of_le (by rw [toJS_length, hlen]), List.append_nil]
    · rw [List.pairwise_reverse]
      exact h3
    · intro i hi
      rw [List.mem_reverse] at hi
      exact lt_of_le_of_lt (chain_le_head ch _ h2 h3 i hi) (inv.bound _ (getD_mem rs _ (by omega)))
    · rw [List.map_reverse, List.pairwise_reverse]
      exact h4
    · intro hnz js hj1 hj2 hj3
      rw [List.length_reverse, hlen]
      rcases List.eq_nil_or_concat js with h | ⟨is0, l, h⟩
      · subst h
        exact Nat.zero_le _
      · rw [List.concat_eq_append] at h
        subst h
        have := (opt hnz is0 l hj1 (hj2 l (by simp)) hj3).1
        rw [List.length_append, List.length_singleton]
        omega

theorem strictlyIncreasing_iff : ∀ (xs : List Int),
    strictlyIncreasing xs = true ↔ xs.Pairwise (· < ·)
  | [] => by simp [strictlyIncreasing]
  | [a] => by simp [strictlyIncreasing]
  | a :: b :: rest => by
    unfold strictlyIncreasing
    rw [Bool.and_eq_true, decide_eq_true_iff, strictlyIncreasing_iff (b :: rest),
      ← List.chain'_iff_pairwise, ← List.chain'_iff_pairwise, List.chain'_cons]

theorem foldl_max_ge (l : List Nat) : ∀ (a : Nat), a ≤ l.foldl max a := by
  induction l with
  | nil => exact fun a => le_refl a
  | cons b rest ih => exact fun a => le_trans (le_max_left a b) (ih (max a b))

theorem foldl_max_mem (l : List Nat) : ∀ (a x : Nat), x ∈ l → x ≤ l.foldl max a := by
  induction l with
  | nil => exact fun a x hx => absurd hx (List.not_mem_nil x)
  | cons b rest ih =>
    intro a x hx
    rcases List.mem_cons.mp hx with h | h
    · rw [h]
      exact le_trans (le_max_right a b) (foldl_max_ge rest (max a b))
    · exact ih (max a b) x h

theorem foldl_max_le (l : List Nat) (m : Nat) : ∀ (a : Nat), a ≤ m → (∀ x ∈ l, x ≤ m) →
    l.foldl max a ≤ m := by
  induction l with
  | nil => exact fun a ha _ => ha
  | cons b rest ih =>
    intro a ha hl
    exact ih (max a b) (max_le ha (hl b (List.mem_cons_self b rest)))
      (fun x hx => hl x (List.mem_cons_of_mem b hx))

/-- The length `lisLength` computes is the length of a strictly increasing
subsequence that no strictly increasing subsequence exceeds. -/
theorem lisLength_eq (arr : List Int) (n : Nat)
    (hex : ∃ s, List.Sublist s arr ∧ s.Pairwise (· < ·) ∧ s.length = n)
    (hmax : ∀ s, List.Sublist s arr → s.Pairwise (· < ·) → s.length ≤ n) : lisLength arr = n := by
  unfold lisLength
  apply le_antisymm
  · refine foldl_max_le _ n 0 (Nat.zero_le n) (fun x hx => ?_)
    obtain ⟨s, hs, rfl⟩ := List.mem_map.mp hx
    rw [List.mem_filter, List.mem_sublists, strictlyIncreasing_iff] at hs
    exact hmax s hs.1 hs.2
  · obtain ⟨s, h1, h2, h3⟩ := hex
    refine foldl_max_mem _ 0 n (List.mem_map.mpr ⟨s, ?_, h3⟩)
    rw [List.mem_filter, List.mem_sublists, strictlyIncreasing_iff]
    exact ⟨h1, h2⟩

/-- The values at strictly increasing in-range indices form a subsequence. -/
theorem map_valueAt_sublist (arr : List Int) (is : List Nat) (hp : is.Pairwise (· < ·))
    (hb : ∀ i ∈ is, i < arr.length) : List.Sublist (is.map (valueAt arr)) arr := by
  have h := @List.map_getElem_sublist Int arr
    (is.pmap (fun i (h : i < arr.length) => (⟨i, h⟩ : Fin arr.length)) hb)
    (by
      rw [List.pairwise_pmap]
      exact hp.imp fun hab _ _ => hab)
  rw [List.map_pmap] at h
  have he : List.pmap (fun i (h : i < arr.length) => arr[(⟨i, h⟩ : Fin arr.length)]) is hb =
      is.map (valueAt arr) := by
    rw [← List.pmap_eq_map (fun _ => True) (valueAt arr) is (fun _ _ => trivial)]
    apply List.pmap_congr_left
    intro i hi h1 _
    have := valueAt_eq arr i h1
    rw [List.getElem?_eq_getElem h1] at this
    exact Option.some.inj this
  rw [he] at h
  exact h

/-- Every subsequence is the values at strictly increasing in-range indices. -/
theorem sublist_eq_map_valueAt (arr s : List Int) (hs : List.Sublist s arr) :
    ∃ js : List Nat, js.Pairwise (· < ·) ∧ (∀ j ∈ js, j < arr.length) ∧
      s = js.map (valueAt arr) := by
  obtain ⟨is, h1, h2⟩ := List.sublist_eq_map_getElem hs
  refine ⟨is.map Fin.val, ?_, ?_, ?_⟩
  · rw [List.pairwise_map]
    exact h2.imp fun hab => hab
  · intro j hj
    obtain ⟨x, _, rfl⟩ := List.mem_map.mp hj
    exact x.isLt
  · rw [h1, List.map_map]
    apply List.map_congr_left
    intro x _
    have := valueAt_eq arr x.val x.isLt
    rw [List.getElem?_eq_getElem x.isLt] at this
    exact Option.some.inj this

/-! ## Lemmas: reconciling a permutation of leaves -/

theorem tab_length {α : Type} (f : Nat → α) (n : Nat) : (tab f n).length = n := by
  unfold tab
  rw [List.length_map, List.length_range]

theorem tab_getElem? {α : Type} (f : Nat → α) (n i : Nat) (hi : i < n) :
    (tab f n)[i]? = some (f i) := by
  unfold tab
  rw [List.getElem?_map, List.getElem?_range hi]
  rfl

theorem idx_tab {α : Type} (f : Nat → α) (n i : Nat) (hi : i < n) :
    idx (tab f n) (i : Int) = some (f i) := by
  rw [idx_natCast, tab_getElem? f n i hi]

theorem tab_congr {α : Type} (f g : Nat → α) (n : Nat) (hfg : ∀ i, i < n → f i = g i) :
    tab f n = tab g n := by
  unfold tab
  apply List.map_congr_left
  intro i hi
  exact hfg i (List.mem_range.mp hi)

theorem setIdx_tab {α : Type} (f g : Nat → α) (n k : Nat) (v : α) (hk : k < n) (hv : g k = v)
    (hne : ∀ i, i < n → i ≠ k → g i = f i) : setIdx (tab f n) (k : Int) v = tab g n := by
  unfold setIdx
  have h2 : ¬ ((k : Int) < 0) := by omega
  rw [if_neg h2, Int.toNat_ofNat]
  apply List.ext_getElem?
  intro i
  rw [List.getElem?_set]
  by_cases hik : k = i
  · subst hik
    rw [if_pos rfl, tab_length, if_pos hk, tab_getElem? g n k hk, hv]
  · rw [if_neg hik]
    by_cases hi : i < n
    · rw [tab_getElem? f n i hi, tab_getElem? g n i hi, hne i hi (fun h => hik h.symm)]
    · rw [List.getElem?_eq_none (by rw [tab_length]; omega),
        List.getElem?_eq_none (by rw [tab_length]; omega)]

theorem setIdx_tab_if {α : Type} (A B : Nat → α) (D D1 : Nat → Prop) [DecidablePred D]
    [DecidablePred D1] (n k : Nat) (hk : k < n) (hD1 : D1 k)
    (hne : ∀ i, i < n → i ≠ k → (D1 i ↔ D i)) :
    setIdx (tab (fun x => if D x then A x else B x) n) (k : Int) (A k) =
      tab (fun x => if D1 x then A x else B x) n := by
  refine setIdx_tab _ _ n k _ hk ?_ ?_
  · dsimp only
    rw [if_pos hD1]
  · intro i hi hik
    dsimp only
    by_cases h3 : D i
    · rw [if_pos h3, if_pos ((hne i hi hik).mpr h3)]
    · rw [if_neg h3, if_neg (fun h4 => h3 ((hne i hi hik).mp h4))]

theorem tab_map {α β : Type} (f : Nat → α) (g : α → β) (n : Nat) :
    (tab f n).map g = tab (fun i => g (f i)) n := by
  unfold tab
  rw [List.map_map]
  rfl

theorem mem_tab {α : Type} (f : Nat → α) (n : Nat) (x : α) :
    x ∈ tab f n ↔ ∃ i, i < n ∧ f i = x := by
  unfold tab
  rw [List.mem_map]
  constructor
  · rintro ⟨i, hi, h⟩
    exact ⟨i, List.mem_range.mp hi, h⟩
  · rintro ⟨i, hi, h⟩
    exact ⟨i, List.mem_range.mpr hi, h⟩

theorem qflat_logged {h : Host} {c : Handle} {L : List Handle} (hq : QFlat h c L)
    (ops : List HostOp) (hc : created ops = []) (hr : removed ops = []) :
    QFlat (h.logged ops) c L := by
  obtain ⟨lg, hf, h1, h2⟩ := hq
  refine ⟨lg ++ ops, ⟨hf.kids, hf.leaf, hf.par, ?_⟩, ?_, ?_⟩
  · show h.log ++ ops = lg ++ ops
    rw [hf.log]
  · rw [created_append, h1, hc]
    rfl
  · rw [removed_append, h2, hr]
    rfl

theorem qflat_cleared {h : Host} {c : Handle} {L : List Handle} (hq : QFlat h c L)
    (e : Handle) (text : String) (hne : e ≠ c) : QFlat (h.clear e text) c L := by
  obtain ⟨lg, hf, h1, h2⟩ := hq
  refine ⟨_, hf.clear e text hne, ?_, ?_⟩
  · rw [created_append, h1]
    rfl
  · rw [removed_append, h2]
    rfl

theorem exec_logOp (op : HostOp) (h : Host) : exec (logOp op) h = (.ok (), h.logged [op]) := rfl

/-- The first loop of `patchElement` returns when both props exist, and logs
`patchProps` calls only. -/
theorem quiet_patchNewProps (e c : Handle) (oldProps newProps : Props) :
    ∀ (rest : Props) (h : Host) (L : List Handle), QFlat h c L →
      ∃ h1, exec (patchNewProps (some e) (some oldProps) newProps rest) h = (.ok (), h1) ∧
        QFlat h1 c L
  | [], h, _, hq => ⟨h, rfl, hq⟩
  | (key, v) :: rest, h, L, hq => by
    unfold patchNewProps
    rw [exec_bind, exec_deref_some]
    dsimp only
    by_cases hd : propAt newProps key ≠ propAt oldProps key
    · rw [if_pos hd, exec_bind, exec_patchProps]
      dsimp only
      exact quiet_patchNewProps e c oldProps newProps rest _ L (qflat_logged hq _ rfl rfl)
    · rw [if_neg hd, exec_bind, exec_pure]
      dsimp only
      exact quiet_patchNewProps e c oldProps newProps rest h L hq

/-- The second loop of `patchElement` returns when both props exist, and logs
`patchProps` calls only. -/
theorem quiet_patchOldProps (e c : Handle) (oldProps newProps : Props) :
    ∀ (rest : Props) (h : Host) (L : List Handle), QFlat h c L →
      ∃ h1, exec (patchOldProps (some e) oldProps (some newProps) rest) h = (.ok (), h1) ∧
        QFlat h1 c L
  | [], h, _, hq => ⟨h, rfl, hq⟩
  | (key, v) :: rest, h, L, hq => by
    unfold patchOldProps
    rw [exec_bind, exec_deref_some]
    dsimp only
    by_cases hd : ¬ hasKey newProps key = true
    · rw [if_pos hd, exec_bind, exec_patchProps]
      dsimp only
      exact quiet_patchOldProps e c oldProps newProps rest _ L (qflat_logged hq _ rfl rfl)
    · rw [if_neg hd, exec_bind, exec_pure]
      dsimp only
      exact quiet_patchOldProps e c oldProps newProps rest h L hq

/-- Patching a leaf into a leaf of the same kind is quiet, provided that an
element has props on both sides or on neither. -/
theorem quietPatch_leaf (fuel : Nat) (c e : Handle) (o n : VNode) (ho : isLeaf o = true)
    (hn : isLeaf n = true) (ht : o.type = n.type) (hp : o.props.isSome = n.props.isSome)
    (hel : o.el = some e) (hne : e ≠ c) :
    QuietPatch (patch (fuel + 1)) c o n := by
  intro h L hq
  obtain ⟨t1, k1, p1, c1, e1⟩ := o
  obtain ⟨t2, k2, p2, c2, e2⟩ := n
  change t1 = t2 at ht
  change e1 = some e at hel
  change p1.isSome = p2.isSome at hp
  subst ht hel
  cases t1 with
  | tag name =>
    show ∃ h1, exec (patchStep (patch fuel) _ _ _ _) h = _ ∧ _
    unfold patchStep
    simp only [VNode.type, ne_eq, not_true_eq_false, if_false, pure_bind]
    cases p1 with
    | some ps1 =>
      cases p2 with
      | none => cases hp
      | some ps2 =>
        obtain ⟨h1, hx1, hq1⟩ := quiet_patchNewProps e c ps1 ps2 ps2 h L hq
        obtain ⟨h2, hx2, hq2⟩ := quiet_patchOldProps e c ps1 ps2 ps1 h1 L hq1
        unfold patchElement
        simp only [VNode.el, VNode.setEl, VNode.props]
        rw [exec_bind, hx1]
        dsimp only
        rw [exec_bind, hx2]
        dsimp only
        cases c2 with
        | arr cs => cases hn
        | absent =>
          cases c1 with
          | arr cs => cases ho
          | absent => exact ⟨h2.clear e "", rfl, qflat_cleared hq2 e "" hne⟩
          | str s => exact ⟨h2.clear e "", rfl, qflat_cleared hq2 e "" hne⟩
        | str s2 =>
          cases c1 with
          | arr cs => cases ho
          | absent => exact ⟨h2.clear e s2, rfl, qflat_cleared hq2 e s2 hne⟩
          | str s => exact ⟨h2.clear e s2, rfl, qflat_cleared hq2 e s2 hne⟩
    | none =>
      cases p2 with
      | some ps => cases hp
      | none =>
        cases c2 with
        | arr cs => cases hn
        | absent =>
          cases c1 with
          | arr cs => cases ho
          | absent => exact ⟨h.clear e "", rfl, qflat_cleared hq e "" hne⟩
          | str s => exact ⟨h.clear e "", rfl, qflat_cleared hq e "" hne⟩
        | str s2 =>
          cases c1 with
          | arr cs => cases ho
          | absent => exact ⟨h.clear e s2, rfl, qflat_cleared hq e s2 hne⟩
          | str s => exact ⟨h.clear e s2, rfl, qflat_cleared hq e s2 hne⟩
  | component id => cases c1 <;> cases ho
  | Fragment => cases c1 <;> cases ho
  | undef => cases c1 <;> cases ho
  | Text =>
    show ∃ h1, exec (patchStep (patch fuel) _ _ _ _) h = _ ∧ _
    unfold patchStep
    simp only [VNode.type, ne_eq, not_true_eq_false, if_false, pure_bind, VNode.children,
      VNode.el]
    by_cases hce : childrenStrictEq c2 c1 = true
    · refine ⟨h, ?_, hq⟩
      simp [hce, exec_pure, VNode.setEl]
    · refine ⟨h.logged [HostOp.setText e (textOf c2)], ?_, qflat_logged hq _ rfl rfl⟩
      simp [hce, VNode.setEl]
      rfl
  | Comment =>
    show ∃ h1, exec (patchStep (patch fuel) _ _ _ _) h = _ ∧ _
    unfold patchStep
    simp only [VNode.type, ne_eq, not_true_eq_false, if_false, pure_bind, VNode.children,
      VNode.el]
    by_cases hce : childrenStrictEq c2 c1 = true
    · refine ⟨h, ?_, hq⟩
      simp [hce, exec_pure, VNode.setEl]
    · refine ⟨h.logged [HostOp.setComment e (textOf c2)], ?_, qflat_logged hq _ rfl rfl⟩
      simp [hce, VNode.setEl]
      rfl

theorem PermRun.lo_le_hi {p : PatchFn} {c : Handle} {n : Nat} {O N : Nat → VNode}
    {e σ τ : Nat → Nat} {j0 E0 : Nat} (R : PermRun p c n O N e σ τ j0 E0) : j0 ≤ E0 := by
  by_contra hlt
  exact R.moveHi (R.fixLo E0 (by omega))

theorem PermRun.sInj {p : PatchFn} {c : Handle} {n : Nat} {O N : Nat → VNode}
    {e σ τ : Nat → Nat} {j0 E0 : Nat} (R : PermRun p c n O N e σ τ j0 E0)
    (a b : Nat) (ha : a < n) (hb : b < n) (hab : σ a = σ b) : a = b := by
  rw [← R.ts a ha, ← R.ts b hb, hab]

theorem PermRun.tInj {p : PatchFn} {c : Handle} {n : Nat} {O N : Nat → VNode}
    {e σ τ : Nat → Nat} {j0 E0 : Nat} (R : PermRun p c n O N e σ τ j0 E0)
    (a b : Nat) (ha : a < n) (hb : b < n) (hab : τ a = τ b) : a = b := by
  rw [← R.st a ha, ← R.st b hb, hab]

/-- The permutation maps the indices between `j0` and `E0` to indices between
`j0` and `E0`. -/
theorem PermRun.sMid {p : PatchFn} {c : Handle} {n : Nat} {O N : Nat → VNode}
    {e σ τ : Nat → Nat} {j0 E0 : Nat} (R : PermRun p c n O N e σ τ j0 E0)
    (x : Nat) (h1 : j0 ≤ x) (h2 : x ≤ E0) : j0 ≤ σ x ∧ σ x ≤ E0 := by
  have hx : x < n := lt_of_le_of_lt h2 R.hiLt
  have hsx := R.slt x hx
  constructor
  · by_contra hlt
    have := R.sInj (σ x) x hsx hx (R.fixLo (σ x) (by omega))
    omega
  · by_contra hlt
    have := R.sInj (σ x) x hsx hx (R.fixHi (σ x) (by omega) hsx)
    omega

theorem PermRun.tMid {p : PatchFn} {c : Handle} {n : Nat} {O N : Nat → VNode}
    {e σ τ : Nat → Nat} {j0 E0 : Nat} (R : PermRun p c n O N e σ τ j0 E0)
    (x : Nat) (h1 : j0 ≤ x) (h2 : x ≤ E0) : j0 ≤ τ x ∧ τ x ≤ E0 := by
  have hx : x < n := lt_of_le_of_lt h2 R.hiLt
  have htx := R.tlt x hx
  have hst := R.st x hx
  constructor
  · by_contra hlt
    have := R.fixLo (τ x) (by omega)
    omega
  · by_contra hlt
    have := R.fixHi (τ x) (by omega) htx
    omega

theorem key_patchedNode (N : Nat → VNode) (e σ : Nat → Nat) (i : Nat) :
    (patchedNode N e σ i).key = (N i).key := VNode.key_setEl _ _

theorem el_patchedNode (N : Nat → VNode) (e σ : Nat → Nat) (i : Nat) :
    (patchedNode N e σ i).el = some (e (σ i)) := by
  unfold patchedNode
  cases N i
  rfl

/-- The patch of the pair with the key of `N i`. -/
theorem PermRun.exec_patch {p : PatchFn} {c : Handle} {n : Nat} {O N : Nat → VNode}
    {e σ τ : Nat → Nat} {j0 E0 : Nat} (R : PermRun p c n O N e σ τ j0 E0)
    (i : Nat) (hi : i < n) (h : Host) (L : List Handle) (hq : QFlat h c L) :
    ∃ h1, exec (p (some (O (σ i))) (N i) (some c) none) h =
      (.ok (patchedNode N e σ i), h1) ∧ QFlat h1 c L := by
  obtain ⟨h1, hx, hq1⟩ := R.quiet i hi h L hq
  refine ⟨h1, ?_, hq1⟩
  rw [hx, R.el (σ i) (R.slt i hi)]
  rfl

/-- The prefix loop patches the pairs below `j0` and stops at `j0`. -/
theorem exec_prefixLoop_perm {p : PatchFn} {c : Handle} {n : Nat} {O N : Nat → VNode}
    {e σ τ : Nat → Nat} {j0 E0 : Nat} (R : PermRun p c n O N e σ τ j0 E0) (L : List Handle) :
    ∀ (m j fuel : Nat) (h : Host), j + m = j0 → m < fuel → QFlat h c L →
      ∃ h1, exec (prefixLoop p (tab O n) (some c) fuel j
          (tab (fun x => if x < j then patchedNode N e σ x else N x) n)) h =
        (.ok (j0, tab (fun x => if x < j0 then patchedNode N e σ x else N x) n), h1) ∧
        QFlat h1 c L
  | 0, j, fuel, h, hj, hfuel, hq => by
    have hjj : j = j0 := by omega
    subst hjj
    obtain ⟨f, rfl⟩ : ∃ f, fuel = f + 1 := ⟨fuel - 1, by omega⟩
    refine ⟨h, ?_, hq⟩
    refine exec_prefixLoop_stop p _ _ _ f j h (O j) (N j) (idx_tab O n j R.loLt) ?_ ?_
    · rw [idx_tab _ n j R.loLt, if_neg (lt_irrefl j)]
    · rw [R.key j R.loLt]
      exact fun hk => R.moveLo (R.keyInj _ _ (R.slt j R.loLt) R.loLt hk.symm)
  | m + 1, j, fuel, h, hj, hfuel, hq => by
    have hjlt : j < j0 := by omega
    have hjn : j < n := lt_trans hjlt R.loLt
    obtain ⟨f, rfl⟩ : ∃ f, fuel = f + 1 := ⟨fuel - 1, by omega⟩
    have hfix := R.fixLo j hjlt
    obtain ⟨h1, hx, hq1⟩ := R.exec_patch j hjn h L hq
    rw [hfix] at hx
    obtain ⟨h2, hx2, hq2⟩ := exec_prefixLoop_perm R L m (j + 1) f h1 (by omega) (by omega) hq1
    refine ⟨h2, ?_, hq2⟩
    unfold prefixLoop
    rw [exec_bind, idx_tab O n j hjn, exec_deref_some]
    dsimp only
    rw [exec_bind, idx_tab _ n j hjn, exec_deref_some]
    dsimp only
    rw [if_neg (lt_irrefl j), if_pos (by rw [R.key j hjn, hfix]), exec_bind, hx]
    dsimp only
    rw [setIdx_tab_if (patchedNode N e σ) N (fun x => x < j) (fun x => x < j + 1) n j hjn
      (Nat.lt_succ_self j) (fun i _ hij => by omega)]
    exact hx2

/-- The suffix loop patches the pairs above `E0` and stops at `E0`. -/
theorem exec_suffixLoop_perm {p : PatchFn} {c : Handle} {n : Nat} {O N : Nat → VNode}
    {e σ τ : Nat → Nat} {j0 E0 : Nat} (R : PermRun p c n O N e σ τ j0 E0) (L : List Handle) :
    ∀ (m E fuel : Nat) (h : Host), E = E0 + m → E < n → m < fuel → QFlat h c L →
      ∃ h1, exec (suffixLoop p (tab O n) (some c) fuel (E : Int) (E : Int)
          (idx (tab O n) (E : Int)) (E : Int)
          (tab (fun x => if x < j0 ∨ E < x then patchedNode N e σ x else N x) n)) h =
        (.ok ((E0 : Int), (E0 : Int),
          tab (fun x => if x < j0 ∨ E0 < x then patchedNode N e σ x else N x) n), h1) ∧
        QFlat h1 c L
  | 0, E, fuel, h, hE, hEn, hfuel, hq => by
    have hjj : E = E0 := by omega
    subst hjj
    obtain ⟨f, rfl⟩ : ∃ f, fuel = f + 1 := ⟨fuel - 1, by omega⟩
    have hle := R.lo_le_hi
    refine ⟨h, ?_, hq⟩
    rw [idx_tab O n E hEn]
    refine exec_suffixLoop_stop p _ _ _ f _ _ _ h (O E) (N E) ?_ ?_
    · rw [idx_tab _ n E hEn, if_neg (show ¬ (E < j0 ∨ E < E) by omega)]
    · rw [R.key E hEn]
      exact fun hk => R.moveHi (R.keyInj _ _ (R.slt E hEn) hEn hk.symm)
  | m + 1, E, fuel, h, hE, hEn, hfuel, hq => by
    obtain ⟨f, rfl⟩ : ∃ f, fuel = f + 1 := ⟨fuel - 1, by omega⟩
    have hle := R.lo_le_hi
    have hfix := R.fixHi E (by omega) hEn
    obtain ⟨h1, hx, hq1⟩ := R.exec_patch E hEn h L hq
    rw [hfix] at hx
    obtain ⟨h2, hx2, hq2⟩ := exec_suffixLoop_perm R L m (E - 1) f h1 (by omega) (by omega)
      (by omega) hq1
    refine ⟨h2, ?_, hq2⟩
    have hcast : (E : Int) - 1 = ((E - 1 : Nat) : Int) := by omega
    unfold suffixLoop
    rw [idx_tab O n E hEn, exec_bind, exec_deref_some]
    dsimp only
    rw [exec_bind, idx_tab _ n E hEn, exec_deref_some]
    dsimp only
    rw [if_neg (show ¬ (E < j0 ∨ E < E) by omega), if_pos (by rw [R.key E hEn, hfix]),
      exec_bind, hx]
    dsimp only
    rw [hcast, setIdx_tab_if (patchedNode N e σ) N (fun x => x < j0 ∨ E < x)
      (fun x => x < j0 ∨ E - 1 < x) n E hEn (by omega) (fun i _ hij => by omega)]
    exact hx2

/-- The two trims stop at the first and at the last index that the
permutation moves. -/
theorem exec_trims_perm {p : PatchFn} {c : Handle} {n : Nat} {O N : Nat → VNode}
    {e σ τ : Nat → Nat} {j0 E0 : Nat} (R : PermRun p c n O N e σ τ j0 E0) (L : List Handle)
    (h : Host) (hq : QFlat h c L) :
    ∃ h1, exec (trims p (tab O n) (tab N n) (some c)) h =
        (.ok (j0, (E0 : Int), (E0 : Int),
          tab (fun x => if x < j0 ∨ E0 < x then patchedNode N e σ x else N x) n), h1) ∧
      QFlat h1 c L := by
  have hn := R.hiLt
  obtain ⟨h1, hx1, hq1⟩ := exec_prefixLoop_perm R L j0 0 (n + 1) h (by omega)
    (by have := R.loLt; omega) hq
  obtain ⟨h2, hx2, hq2⟩ := exec_suffixLoop_perm R L (n - 1 - E0) (n - 1) (n + 1) h1 (by omega)
    (by omega) (by omega) hq1
  refine ⟨h2, ?_, hq2⟩
  unfold trims
  rw [tab_length, exec_bind]
  have h0 : tab N n = tab (fun x => if x < 0 then patchedNode N e σ x else N x) n :=
    tab_congr _ _ n (fun i _ => by rw [if_neg (Nat.not_lt_zero i)])
  rw [h0, hx1]
  dsimp only
  rw [tab_length, exec_bind]
  have hcast : (n : Int) - 1 = ((n - 1 : Nat) : Int) := by omega
  have h3 : tab (fun x => if x < j0 then patchedNode N e σ x else N x) n =
      tab (fun x => if x < j0 ∨ n - 1 < x then patchedNode N e σ x else N x) n :=
    tab_congr _ _ n (fun i hi => by
      by_cases h4 : i < j0
      · rw [if_pos h4, if_pos (Or.inl h4)]
      · rw [if_neg h4, if_neg (by omega)])
  rw [hcast, h3, hx2]
  rfl

theorem walkNew_getElem? (N : Nat → VNode) (e σ : Nat → Nat) (j0 E0 n i x : Nat) (hx : x < n) :
    ∃ v, (walkNew N e σ j0 E0 n i)[x]? = some v ∧ v.key = (N x).key := by
  unfold walkNew
  rw [tab_getElem? _ n x hx]
  refine ⟨_, rfl, ?_⟩
  dsimp only
  split
  · exact key_patchedNode N e σ x
  · rfl

/-- The index table of a permutation run sends the key of the old node `i` to
`τ i`. -/
theorem exec_buildKeyIndex_perm {p : PatchFn} {c : Handle} {n : Nat} {O N : Nat → VNode}
    {e σ τ : Nat → Nat} {j0 E0 : Nat} (R : PermRun p c n O N e σ τ j0 E0) (i : Nat)
    (h : Host) :
    ∃ ki, exec (buildKeyIndex (walkNew N e σ j0 E0 n i) (E0 - j0 + 1) j0 []) h = (.ok ki, h) ∧
      ∀ x, j0 ≤ x → x ≤ E0 → ki.lookup (O x).key = some (τ x) := by
  have hle := R.lo_le_hi
  have hn := R.hiLt
  have hlen : (walkNew N e σ j0 E0 n i).length = n := tab_length _ n
  obtain ⟨ki, hx, hlk, _⟩ := exec_buildKeyIndex (walkNew N e σ j0 E0 n i) (by
    intro a b va vb ha hb hk
    have han : a < n := by
      rcases Nat.lt_or_ge a n with h3 | h3
      · exact h3
      · rw [List.getElem?_eq_none (by rw [hlen]; exact h3)] at ha
        cases ha
    have hbn : b < n := by
      rcases Nat.lt_or_ge b n with h3 | h3
      · exact h3
      · rw [List.getElem?_eq_none (by rw [hlen]; exact h3)] at hb
        cases hb
    obtain ⟨v1, h1, hk1⟩ := walkNew_getElem? N e σ j0 E0 n i a han
    obtain ⟨v2, h2, hk2⟩ := walkNew_getElem? N e σ j0 E0 n i b hbn
    rw [ha] at h1
    rw [hb] at h2
    cases h1
    cases h2
    rw [hk1, hk2, R.key a han, R.key b hbn] at hk
    exact R.sInj a b han hbn (R.keyInj _ _ (R.slt a han) (R.slt b hbn) hk))
    (E0 - j0 + 1) j0 [] h (by rw [hlen]; omega)
  refine ⟨ki, hx, ?_⟩
  intro x h1 h2
  have hxn : x < n := by omega
  obtain ⟨ht1, ht2⟩ := R.tMid x h1 h2
  obtain ⟨v, hv, hk⟩ := walkNew_getElem? N e σ j0 E0 n i (τ x) (R.tlt x hxn)
  have := hlk (τ x) v ht1 (by omega) hv
  rw [hk, R.key (τ x) (R.tlt x hxn), R.st x hxn] at this
  exact this

theorem walkNew_succ {p : PatchFn} {c : Handle} {n : Nat} {O N : Nat → VNode}
    {e σ τ : Nat → Nat} {j0 E0 : Nat} (R : PermRun p c n O N e σ τ j0 E0) (i : Nat)
    (h2 : i ≤ E0) :
    setIdx (walkNew N e σ j0 E0 n i) ((τ i : Nat) : Int) (patchedNode N e σ (τ i)) =
      walkNew N e σ j0 E0 n (i + 1) := by
  have hin : i < n := lt_of_le_of_lt h2 R.hiLt
  unfold walkNew
  refine setIdx_tab_if (patchedNode N e σ) N _ _ n (τ i) (R.tlt i hin) ?_ ?_
  · right
    right
    rw [R.st i hin]
    exact Nat.lt_succ_self i
  · intro x hx hne
    have : σ x ≠ i := fun h3 => hne (by rw [← h3, R.ts x hx])
    constructor
    · rintro (h3 | h3 | h3)
      · exact Or.inl h3
      · exact Or.inr (Or.inl h3)
      · exact Or.inr (Or.inr (by omega))
    · rintro (h3 | h3 | h3)
      · exact Or.inl h3
      · exact Or.inr (Or.inl h3)
      · exact Or.inr (Or.inr (by omega))

theorem walkSource_succ {p : PatchFn} {c : Handle} {n : Nat} {O N : Nat → VNode}
    {e σ τ : Nat → Nat} {j0 E0 : Nat} (R : PermRun p c n O N e σ τ j0 E0) (i : Nat)
    (h1 : j0 ≤ i) (h2 : i ≤ E0) :
    setIdx (walkSource σ j0 E0 i) (((τ i : Nat) : Int) - ((j0 : Nat) : Int)) (i : Int) =
      walkSource σ j0 E0 (i + 1) := by
  have hin : i < n := lt_of_le_of_lt h2 R.hiLt
  obtain ⟨ht1, ht2⟩ := R.tMid i h1 h2
  have hcast : ((τ i : Nat) : Int) - ((j0 : Nat) : Int) = ((τ i - j0 : Nat) : Int) := by omega
  have hadd : j0 + (τ i - j0) = τ i := by omega
  have hval : (i : Int) = ((σ (j0 + (τ i - j0)) : Nat) : Int) := by
    rw [hadd, R.st i hin]
  rw [hcast, hval]
  unfold walkSource
  refine setIdx_tab_if (fun t => ((σ (j0 + t) : Nat) : Int)) (fun _ => -1) _ _ (E0 - j0 + 1)
    (τ i - j0) (by omega) ?_ ?_
  · show σ (j0 + (τ i - j0)) < i + 1
    rw [hadd, R.st i hin]
    exact Nat.lt_succ_self i
  · intro x hx hne
    have hxn : j0 + x < n := by have := R.hiLt; omega
    have : σ (j0 + x) ≠ i := fun h3 => hne (by
      have := R.ts (j0 + x) hxn
      rw [h3] at this
      omega)
    constructor
    · intro h3
      show σ (j0 + x) < i
      have : σ (j0 + x) < i + 1 := h3
      omega
    · intro h3
      show σ (j0 + x) < i + 1
      have : σ (j0 + x) < i := h3
      omega

/-- The walk over the old remainder of a permutation run patches every pair,
fills `source`, and leaves `moved` false only if `τ` is increasing on the old
remainder. -/
theorem exec_walkOld_perm {p : PatchFn} {c : Handle} {n : Nat} {O N : Nat → VNode}
    {e σ τ : Nat → Nat} {j0 E0 : Nat} (R : PermRun p c n O N e σ τ j0 E0) (L : List Handle)
    (ki : List (Option Nat × Nat))
    (hki : ∀ x, j0 ≤ x → x ≤ E0 → ki.lookup (O x).key = some (τ x)) :
    ∀ (m i : Nat) (mv : Bool) (ps : Nat) (h : Host), i + m = E0 + 1 → j0 ≤ i →
      (mv = false → (∀ a b, j0 ≤ a → a < b → b < i → τ a < τ b) ∧
        (j0 < i → ps = τ (i - 1)) ∧ (i = j0 → ps = 0)) →
      QFlat h c L →
      ∃ mv1 ps1 h1, exec (walkOld p (tab O n) (some c) ki (E0 - j0 + 1) j0 m i
          { newChildren := walkNew N e σ j0 E0 n i, source := walkSource σ j0 E0 i,
            patched := i - j0, moved := mv, pos := ps }) h =
        (.ok { newChildren := walkNew N e σ j0 E0 n (E0 + 1),
               source := walkSource σ j0 E0 (E0 + 1),
               patched := E0 + 1 - j0, moved := mv1, pos := ps1 }, h1) ∧
        QFlat h1 c L ∧
        (mv1 = false → ∀ a b, j0 ≤ a → a < b → b < E0 + 1 → τ a < τ b)
  | 0, i, mv, ps, h, him, _, hinv, hq => by
    have : i = E0 + 1 := by omega
    subst this
    exact ⟨mv, ps, h, rfl, hq, fun hmv => (hinv hmv).1⟩
  | m + 1, i, mv, ps, h, him, hji, hinv, hq => by
    have hiE : i ≤ E0 := by omega
    have hin : i < n := lt_of_le_of_lt hiE R.hiLt
    obtain ⟨ht1, ht2⟩ := R.tMid i hji hiE
    have htn := R.tlt i hin
    obtain ⟨h1, hx, hq1⟩ := R.exec_patch (τ i) htn h L hq
    rw [R.st i hin] at hx
    obtain ⟨mv1, ps1, h2, hx2, hq2, hmono⟩ := exec_walkOld_perm R L ki hki m (i + 1)
      (if τ i < ps then true else mv) (if τ i < ps then ps else τ i) h1 (by omega) (by omega)
      (by
        intro hmv
        by_cases hlt : τ i < ps
        · rw [if_pos hlt] at hmv
          cases hmv
        · rw [if_neg hlt] at hmv ⊢
          obtain ⟨hm1, hm2, hm3⟩ := hinv hmv
          refine ⟨?_, fun _ => by rw [Nat.add_sub_cancel], fun h3 => by omega⟩
          intro a b ha hab hb
          rcases Nat.lt_or_ge b i with h3 | h3
          · exact hm1 a b ha hab h3
          · have hbi : b = i := by omega
            subst hbi
            have hps := hm2 (by omega)
            have hle : τ a ≤ τ (b - 1) := by
              rcases Nat.lt_or_ge a (b - 1) with h4 | h4
              · exact le_of_lt (hm1 a (b - 1) ha h4 (by omega))
              · have : a = b - 1 := by omega
                rw [this]
            have hne : τ a ≠ τ b := fun h5 => by
              have := R.tInj a b (by omega) hin h5
              omega
            omega)
      hq1
    refine ⟨mv1, ps1, h2, ?_, hq2, hmono⟩
    unfold walkOld
    dsimp only
    rw [if_pos (by omega), exec_bind, idx_tab O n i hin, exec_deref_some]
    dsimp only
    rw [hki i hji hiE]
    have hnew : idx (walkNew N e σ j0 E0 n i) ((τ i : Nat) : Int) = some (N (τ i)) := by
      unfold walkNew
      rw [idx_tab _ n (τ i) htn, if_neg (by rw [R.st i hin]; omega)]
    rw [exec_bind, hnew, exec_deref_some]
    dsimp only
    rw [exec_bind, hx]
    dsimp only
    rw [walkNew_succ R i hiE, walkSource_succ R i hji hiE]
    have hp : i - j0 + 1 = i + 1 - j0 := by omega
    rw [hp]
    exact hx2

theorem PermRun.not_mono {p : PatchFn} {c : Handle} {n : Nat} {O N : Nat → VNode}
    {e σ τ : Nat → Nat} {j0 E0 : Nat} (R : PermRun p c n O N e σ τ j0 E0) :
    ¬ ∀ a b, j0 ≤ a → a < b → b < E0 + 1 → τ a < τ b := by
  intro hmono
  have hle := R.lo_le_hi
  have hgrow : ∀ t, j0 + t ≤ E0 → τ j0 + t ≤ τ (j0 + t) := by
    intro t
    induction t with
    | zero => exact fun _ => le_refl _
    | succ t ih =>
      intro ht
      have h1 := ih (by omega)
      have h2 := hmono (j0 + t) (j0 + (t + 1)) (by omega) (by omega) (by omega)
      omega
  have h1 := hgrow (E0 - j0) (by omega)
  have h2 : j0 + (E0 - j0) = E0 := by omega
  rw [h2] at h1
  have h3 := (R.tMid E0 hle (le_refl _)).2
  have h4 := (R.tMid j0 (le_refl _) hle).1
  have h5 : τ j0 = j0 := by omega
  have h6 := R.st j0 R.loLt
  rw [h5] at h6
  exact R.moveLo h6

theorem insertBefore_append (m1 m2 : List Handle) (x a : Handle) (ha : a ∉ m1) :
    insertBefore (m1 ++ a :: m2) x a = m1 ++ x :: a :: m2 := by
  induction m1 with
  | nil =>
    show insertBefore (a :: m2) x a = _
    unfold insertBefore
    rw [if_pos rfl]
    rfl
  | cons b rest ih =>
    show insertBefore (b :: (rest ++ a :: m2)) x a = _
    unfold insertBefore
    rw [if_neg (fun hba => ha (by rw [hba]; exact List.mem_cons_self _ _)),
      ih (fun hm => ha (List.mem_cons_of_mem _ hm))]
    rfl

theorem map_erase_on (H : Nat → Handle) (qs : List Nat) (k : Nat)
    (hinj : ∀ q ∈ qs, H q = H k → q = k) : (qs.map H).erase (H k) = (qs.erase k).map H := by
  induction qs with
  | nil => rfl
  | cons q rest ih =>
    by_cases hq : q = k
    · subst hq
      rw [List.map_cons, List.erase_cons_head, List.erase_cons_head]
    · have hne : H q ≠ H k := fun h => hq (hinj q (List.mem_cons_self _ _) h)
      rw [List.map_cons, List.erase_cons_tail (by simpa using hne),
        List.erase_cons_tail (by simpa using hq), List.map_cons,
        ih (fun x hx => hinj x (List.mem_cons_of_mem _ hx))]

theorem sortedOn_move (S : Nat → Prop) (k : Nat) (m1 m2 : List Nat)
    (hpw : SortedOn S (m1 ++ (k + 1) :: m2)) (hS : S (k + 1)) (h1 : k ∉ m1) (h2 : k ∉ m2) :
    SortedOn (fun x => S x ∨ x = k) (m1 ++ k :: (k + 1) :: m2) := by
  unfold SortedOn at hpw ⊢
  rw [List.pairwise_append] at hpw ⊢
  obtain ⟨hp1, hp2, hp3⟩ := hpw
  rw [List.pairwise_cons] at hp2
  have hS1 : ∀ x, x ∈ m1 → (S x ∨ x = k) → S x := fun x hx hs => by
    rcases hs with h | h
    · exact h
    · exact absurd (h ▸ hx) h1
  have hS2 : ∀ x, x ∈ m2 → (S x ∨ x = k) → S x := fun x hx hs => by
    rcases hs with h | h
    · exact h
    · exact absurd (h ▸ hx) h2
  refine ⟨hp1.imp_of_mem fun ha hb hab sa sb => hab (hS1 _ ha sa) (hS1 _ hb sb), ?_, ?_⟩
  · rw [List.pairwise_cons, List.pairwise_cons]
    refine ⟨?_, ?_, hp2.2.imp_of_mem fun ha hb hab sa sb => hab (hS2 _ ha sa) (hS2 _ hb sb)⟩
    · intro y hy _ sy
      rcases List.mem_cons.mp hy with h | h
      · omega
      · have := hp2.1 y h hS (hS2 y h sy)
        omega
    · intro y hy _ sy
      exact hp2.1 y hy hS (hS2 y hy sy)
  · intro x hx y hy sx sy
    have hxk : x ≠ k := fun h => h1 (h ▸ hx)
    rcases List.mem_cons.mp hy with h | h
    · have := hp3 x hx (k + 1) (List.mem_cons_self _ _) (hS1 x hx sx) hS
      omega
    · rcases List.mem_cons.mp h with h3 | h3
      · rw [h3]
        exact hp3 x hx (k + 1) (List.mem_cons_self _ _) (hS1 x hx sx) hS
      · exact hp3 x hx y (List.mem_cons_of_mem _ h3) (hS1 x hx sx) (hS2 y h3 sy)

theorem sortedOn_move_last (S : Nat → Prop) (k : Nat) (qs : List Nat) (hpw : SortedOn S qs)
    (hk : k ∉ qs) (hle : ∀ x ∈ qs, x ≤ k) :
    SortedOn (fun x => S x ∨ x = k) (qs ++ [k]) := by
  unfold SortedOn at hpw ⊢
  rw [List.pairwise_append]
  have hS1 : ∀ x, x ∈ qs → (S x ∨ x = k) → S x := fun x hx hs => by
    rcases hs with h | h
    · exact h
    · exact absurd (h ▸ hx) hk
  refine ⟨hpw.imp_of_mem fun ha hb hab sa sb => hab (hS1 _ ha sa) (hS1 _ hb sb),
    List.pairwise_singleton _ _, ?_⟩
  intro x hx y hy _ _
  rw [List.mem_singleton.mp hy]
  have := hle x hx
  have hxk : x ≠ k := fun h => hk (h ▸ hx)
  omega

theorem qflat_place_some {h : Host} {c : Handle} {L : List Handle} (hq : QFlat h c L)
    (e a : Handle) (he : e ∈ L) (ha : a ∈ L) (hae : a ≠ e) :
    ∃ h1, exec (insert (some e) (some c) (some a)) h = (.ok (), h1) ∧
      QFlat h1 c (insertBefore (L.erase e) e a) := by
  obtain ⟨lg, hf, h1, h2⟩ := hq
  refine ⟨h.place e c (some a), exec_insert_some e c a h (by rw [hf.kids]; exact ha),
    _, hf.place_some e a he hae, ?_, ?_⟩
  · rw [created_append, h1]
    rfl
  · rw [removed_append, h2]
    rfl

theorem qflat_place_none {h : Host} {c : Handle} {L : List Handle} (hq : QFlat h c L)
    (e : Handle) (he : e ∈ L) :
    ∃ h1, exec (insert (some e) (some c) none) h = (.ok (), h1) ∧
      QFlat h1 c (L.erase e ++ [e]) := by
  obtain ⟨lg, hf, h1, h2⟩ := hq
  refine ⟨h.place e c none, exec_insert_none e c h, _, hf.place_none e he, ?_, ?_⟩
  · rw [created_append, h1]
    rfl
  · rw [removed_append, h2]
    rfl

/-- Moving the node of index `k` before the node of index `k + 1`. -/
theorem move_before (H : Nat → Handle) (c : Handle) (qs : List Nat) (k : Nat) (h : Host)
    (hnd : qs.Nodup) (hinj : ∀ a ∈ qs, ∀ b ∈ qs, H a = H b → a = b)
    (hk : k ∈ qs) (ha : k + 1 ∈ qs) (hq : QFlat h c (qs.map H)) :
    ∃ qs1 h1, exec (insert (some (H k)) (some c) (some (H (k + 1)))) h = (.ok (), h1) ∧
      QFlat h1 c (qs1.map H) ∧ qs1.Perm qs ∧
      ∀ S : Nat → Prop, SortedOn S qs → S (k + 1) → SortedOn (fun x => S x ∨ x = k) qs1 := by
  obtain ⟨h1, hx, hq1⟩ := qflat_place_some hq (H k) (H (k + 1)) (List.mem_map_of_mem H hk)
    (List.mem_map_of_mem H ha) (fun heq => by
      have := hinj _ ha _ hk heq
      omega)
  rw [map_erase_on H qs k (fun q hq2 heq => hinj q hq2 k hk heq)] at hq1
  have hnd1 : (qs.erase k).Nodup := hnd.erase k
  have ha1 : k + 1 ∈ qs.erase k := (hnd.mem_erase_iff).mpr ⟨by omega, ha⟩
  obtain ⟨m1, m2, hdec⟩ := List.append_of_mem ha1
  rw [hdec] at hnd1
  have hnm1 : k + 1 ∉ m1 := fun hm => by
    rw [List.nodup_append] at hnd1
    exact hnd1.2.2 hm (List.mem_cons_self _ _)
  have hk1 : k ∉ m1 := fun hm => by
    have : k ∈ qs.erase k := by
      rw [hdec]
      exact List.mem_append_left _ hm
    exact ((hnd.mem_erase_iff).mp this).1 rfl
  have hk2 : k ∉ m2 := fun hm => by
    have : k ∈ qs.erase k := by
      rw [hdec]
      exact List.mem_append_right _ (List.mem_cons_of_mem _ hm)
    exact ((hnd.mem_erase_iff).mp this).1 rfl
  have hsub : ∀ x, x ∈ m1 → x ∈ qs := fun x hx => List.mem_of_mem_erase (by
    rw [hdec]
    exact List.mem_append_left _ hx)
  refine ⟨m1 ++ k :: (k + 1) :: m2, h1, hx, ?_, ?_, ?_⟩
  · rw [hdec, List.map_append, List.map_cons, insertBefore_append _ _ _ _ (fun hm => by
      obtain ⟨x, hx1, hx2⟩ := List.mem_map.mp hm
      have := hinj x (hsub x hx1) (k + 1) ha hx2
      exact hnm1 (this ▸ hx1))] at hq1
    rw [List.map_append, List.map_cons, List.map_cons]
    exact hq1
  · refine List.Perm.trans List.perm_middle ?_
    refine List.Perm.trans ?_ (List.perm_cons_erase hk).symm
    rw [hdec]
  · intro S hs hS
    refine sortedOn_move S k m1 m2 ?_ hS hk1 hk2
    rw [← hdec]
    exact List.Pairwise.sublist (List.erase_sublist k qs) hs

/-- Moving the node of the last index `k` to the end. -/
theorem move_last (H : Nat → Handle) (c : Handle) (qs : List Nat) (k : Nat) (h : Host)
    (hnd : qs.Nodup) (hinj : ∀ a ∈ qs, ∀ b ∈ qs, H a = H b → a = b)
    (hk : k ∈ qs) (hle : ∀ x ∈ qs, x ≤ k) (hq : QFlat h c (qs.map H)) :
    ∃ qs1 h1, exec (insert (some (H k)) (some c) none) h = (.ok (), h1) ∧
      QFlat h1 c (qs1.map H) ∧ qs1.Perm qs ∧
      ∀ S : Nat → Prop, SortedOn S qs → SortedOn (fun x => S x ∨ x = k) qs1 := by
  obtain ⟨h1, hx, hq1⟩ := qflat_place_none hq (H k) (List.mem_map_of_mem H hk)
  rw [map_erase_on H qs k (fun q hq2 heq => hinj q hq2 k hk heq)] at hq1
  refine ⟨qs.erase k ++ [k], h1, hx, ?_, ?_, ?_⟩
  · rw [List.map_append]
    exact hq1
  · exact List.Perm.trans (List.perm_append_singleton _ _) (List.perm_cons_erase hk).symm
  · intro S hs
    refine sortedOn_move_last S k _ (List.Pairwise.sublist (List.erase_sublist k qs) hs)
      (fun hm => ((hnd.mem_erase_iff).mp hm).1 rfl)
      (fun x hx2 => hle x (List.mem_of_mem_erase hx2))

theorem pairwise_getD (is : List Nat) (hp : is.Pairwise (· < ·)) (a b : Nat) (hab : a < b)
    (hb : b < is.length) : is.getD a 0 < is.getD b 0 := by
  rw [List.getD_eq_getElem?_getD, List.getD_eq_getElem?_getD,
    List.getElem?_eq_getElem (lt_trans hab hb), List.getElem?_eq_getElem hb]
  exact List.pairwise_iff_getElem.mp hp a b (lt_trans hab hb) hb hab

theorem mem_getD (is : List Nat) (x : Nat) (hx : x ∈ is) :
    ∃ t, t < is.length ∧ is.getD t 0 = x := by
  obtain ⟨t, ht, h⟩ := List.mem_iff_getElem.mp hx
  refine ⟨t, ht, ?_⟩
  rw [List.getD_eq_getElem?_getD, List.getElem?_eq_getElem ht]
  exact h

theorem seq_at (is : List Nat) (cur : Nat) (hc : cur ≤ is.length) :
    (idx (toJS is) ((cur : Int) - 1)).join =
      if cur = 0 then none else some ((is.getD (cur - 1) 0 : Nat) : Int) := by
  by_cases h0 : cur = 0
  · subst h0
    rw [if_pos rfl]
    rfl
  · rw [if_neg h0]
    have hcast : (cur : Int) - 1 = ((cur - 1 : Nat) : Int) := by omega
    rw [hcast]
    exact valAt_toJS is (cur - 1) (by omega)

/-- The move loop of a permutation run: every index of the new remainder that
`getSequence` did not return is moved before its successor, and the children
of the container end in increasing order of their new indices. -/
theorem exec_moveLoop_perm {p : PatchFn} {c : Handle} {n : Nat} {O N : Nat → VNode}
    {e σ τ : Nat → Nat} {j0 E0 : Nat} (R : PermRun p c n O N e σ τ j0 E0) (is : List Nat)
    (hinc : is.Pairwise (· < ·)) :
    ∀ (m cur : Nat) (qs : List Nat) (h : Host), m ≤ E0 - j0 + 1 → cur ≤ is.length →
      (∀ t, t < cur → is.getD t 0 < m) → (∀ t, cur ≤ t → t < is.length → m ≤ is.getD t 0) →
      qs.Perm (List.range n) → SortedOn (settled is j0 m) qs →
      QFlat h c (qs.map fun k => e (σ k)) →
      ∃ qs1 h1, exec (moveLoop p (some c) (tab (fun t => ((σ (j0 + t) : Nat) : Int))
          (E0 - j0 + 1)) (toJS is) j0 m ((cur : Int) - 1) (tab (patchedNode N e σ) n)) h =
          (.ok (tab (patchedNode N e σ) n), h1) ∧
        QFlat h1 c (qs1.map fun k => e (σ k)) ∧ qs1.Perm (List.range n) ∧
        SortedOn (settled is j0 0) qs1
  | 0, cur, qs, h, _, _, _, _, hperm, hs, hq => ⟨qs, h, rfl, hq, hperm, hs⟩
  | m + 1, cur, qs, h, hm, hcur, hlo, hhi, hperm, hs, hq => by
    have hle := R.lo_le_hi
    have hE := R.hiLt
    have hkn : m + j0 < n := by omega
    have hmem : ∀ x, x ∈ qs ↔ x < n := fun x => by
      rw [hperm.mem_iff, List.mem_range]
    have hnd : qs.Nodup := (hperm.nodup_iff).mpr (List.nodup_range n)
    have hinj : ∀ a ∈ qs, ∀ b ∈ qs, (fun k => e (σ k)) a = (fun k => e (σ k)) b → a = b := by
      intro a ha b hb hab
      have han := (hmem a).mp ha
      have hbn := (hmem b).mp hb
      exact R.sInj a b han hbn (R.eInj _ _ (R.slt a han) (R.slt b hbn) hab)
    have hsrc : idx (tab (fun t => ((σ (j0 + t) : Nat) : Int)) (E0 - j0 + 1)) (m : Int) ≠
        some (-1) := by
      rw [idx_tab _ _ m (by omega)]
      intro h3
      have := Option.some.inj h3
      omega
    have hcast : (m : Int) + ((j0 : Nat) : Int) = ((m + j0 : Nat) : Int) := by omega
    have hcast1 : ((m + j0 : Nat) : Int) + 1 = ((m + j0 + 1 : Nat) : Int) := by omega
    unfold moveLoop
    rw [if_neg hsrc, seq_at is cur hcur]
    by_cases hmis : m ∈ is
    · -- the index is in `seq`: nothing moves
      obtain ⟨t, ht, htm⟩ := mem_getD is m hmis
      have htc : t < cur := by
        by_contra h3
        have := hhi t (by omega) ht
        omega
      have hlast : is.getD (cur - 1) 0 = m := by
        have h1 := hlo (cur - 1) (by omega)
        rcases Nat.lt_or_ge t (cur - 1) with h3 | h3
        · have := pairwise_getD is hinc t (cur - 1) h3 (by omega)
          omega
        · have : t = cur - 1 := by omega
          rw [← this, htm]
      rw [if_neg (by omega : ¬ cur = 0), hlast, if_neg (by simp)]
      have hc2 : (cur : Int) - 1 - 1 = ((cur - 1 : Nat) : Int) - 1 := by omega
      rw [hc2]
      refine exec_moveLoop_perm R is hinc m (cur - 1) qs h (by omega) (by omega) ?_ ?_ hperm
        ?_ hq
      · intro t1 ht1
        have := pairwise_getD is hinc t1 (cur - 1) ht1 (by omega)
        omega
      · intro t1 ht1 ht2
        rcases Nat.lt_or_ge t1 cur with h3 | h3
        · have : t1 = cur - 1 := by omega
          rw [this, hlast]
        · have := hhi t1 h3 ht2
          omega
      · refine hs.imp ?_
        intro a b hab sa sb
        have hup : ∀ x, settled is j0 m x → settled is j0 (m + 1) x := by
          intro x hx
          rcases hx with h3 | h3 | h3
          · exact Or.inl h3
          · by_cases h4 : x = j0 + m
            · refine Or.inr (Or.inr ⟨by omega, ?_⟩)
              have : x - j0 = m := by omega
              rw [this]
              exact hmis
            · exact Or.inr (Or.inl (by omega))
          · exact Or.inr (Or.inr h3)
        exact hab (hup a sa) (hup b sb)
    · -- the index is not in `seq`: the node moves
      have hcond : some (m : Int) ≠
          (if cur = 0 then none else some ((is.getD (cur - 1) 0 : Nat) : Int)) := by
        by_cases h0 : cur = 0
        · rw [if_pos h0]
          exact fun h3 => Option.noConfusion h3
        · rw [if_neg h0]
          intro h3
          have h4 := Option.some.inj h3
          have h5 : is.getD (cur - 1) 0 = m := by omega
          exact hmis (h5 ▸ getD_mem is (cur - 1) (by omega))
      have hlo1 : ∀ t, t < cur → is.getD t 0 < m := by
        intro t1 ht1
        have h1 := hlo t1 ht1
        have h2 : is.getD t1 0 ≠ m := fun h3 => hmis (h3 ▸ getD_mem is t1 (by omega))
        omega
      have hhi1 : ∀ t, cur ≤ t → t < is.length → m ≤ is.getD t 0 := by
        intro t1 ht1 ht2
        have := hhi t1 ht1 ht2
        omega
      have hdown : ∀ x, settled is j0 m x → settled is j0 (m + 1) x ∨ x = m + j0 := by
        intro x hx
        rcases hx with h3 | h3 | h3
        · exact Or.inl (Or.inl h3)
        · by_cases h4 : x = m + j0
          · exact Or.inr h4
          · exact Or.inl (Or.inr (Or.inl (by omega)))
        · exact Or.inl (Or.inr (Or.inr h3))
      rw [if_pos hcond]
      dsimp only
      rw [hcast, hcast1, exec_bind]
      have hv : idx (tab (patchedNode N e σ) n) ((m + j0 : Nat) : Int) =
          some (patchedNode N e σ (m + j0)) := idx_tab _ n _ hkn
      have hk : m + j0 ∈ qs := (hmem _).mpr hkn
      by_cases hnext : m + j0 + 1 < n
      · rw [exec_anchorAt_some _ _ h (patchedNode N e σ (m + j0 + 1))
          (by rw [tab_length]; omega) (idx_tab _ n _ hnext)]
        dsimp only
        rw [hv, exec_bind, exec_deref_some]
        dsimp only
        rw [exec_bind, el_patchedNode, el_patchedNode]
        obtain ⟨qs1, h1, hx, hq1, hp1, hs1⟩ := move_before (fun k => e (σ k)) c qs (m + j0) h
          hnd hinj hk ((hmem _).mpr hnext) hq
        rw [hx]
        dsimp only
        refine exec_moveLoop_perm R is hinc m cur qs1 h1 (by omega) hcur hlo1 hhi1
          (hp1.trans hperm) ?_ hq1
        have h7 := hs1 (settled is j0 (m + 1)) hs (Or.inr (Or.inl (by omega)))
        exact h7.imp fun hab sa sb => hab (hdown _ sa) (hdown _ sb)
      · rw [exec_anchorAt_none _ _ h (by rw [tab_length]; omega)]
        dsimp only
        rw [hv, exec_bind, exec_deref_some]
        dsimp only
        rw [exec_bind, el_patchedNode]
        obtain ⟨qs1, h1, hx, hq1, hp1, hs1⟩ := move_last (fun k => e (σ k)) c qs (m + j0) h
          hnd hinj hk (fun x hx => by have := (hmem x).mp hx; omega) hq
        rw [hx]
        dsimp only
        refine exec_moveLoop_perm R is hinc m cur qs1 h1 (by omega) hcur hlo1 hhi1
          (hp1.trans hperm) ?_ hq1
        have h7 := hs1 (settled is j0 (m + 1)) hs
        exact h7.imp fun hab sa sb => hab (hdown _ sa) (hdown _ sb)

theorem PermRun.tFix {p : PatchFn} {c : Handle} {n : Nat} {O N : Nat → VNode}
    {e σ τ : Nat → Nat} {j0 E0 : Nat} (R : PermRun p c n O N e σ τ j0 E0)
    (x : Nat) (hx : x < n) (hout : x < j0 ∨ E0 < x) : τ x = x := by
  have hs : σ x = x := by
    rcases hout with h | h
    · exact R.fixLo x h
    · exact R.fixHi x h hx
  have := R.ts x hx
  rw [hs] at this
  exact this

theorem valueAt_tab (f : Nat → Int) (n i : Nat) (hi : i < n) : valueAt (tab f n) i = f i := by
  have h1 := valueAt_eq (tab f n) i (by rw [tab_length]; exact hi)
  rw [tab_getElem? f n i hi] at h1
  exact (Option.some.inj h1).symm

theorem pairwise_values (is : List Nat) (v : Nat → Int) (hp : is.Pairwise (· < ·))
    (hv : (is.map v).Pairwise (· < ·)) (x y : Nat) (hx : x ∈ is) (hy : y ∈ is)
    (hxy : x < y) : v x < v y := by
  obtain ⟨t1, ht1, rfl⟩ := List.mem_iff_getElem.mp hx
  obtain ⟨t2, ht2, rfl⟩ := List.mem_iff_getElem.mp hy
  have ht : t1 < t2 := by
    by_contra hge
    rcases Nat.lt_or_ge t2 t1 with h | h
    · have := List.pairwise_iff_getElem.mp hp t2 t1 ht2 ht1 h
      omega
    · have : t1 = t2 := by omega
      subst this
      omega
  have := List.pairwise_iff_getElem.mp hv t1 t2 (by rw [List.length_map]; exact ht1)
    (by rw [List.length_map]; exact ht2) ht
  simpa using this

theorem perm_tab_inverse {p : PatchFn} {c : Handle} {n : Nat} {O N : Nat → VNode}
    {e σ τ : Nat → Nat} {j0 E0 : Nat} (R : PermRun p c n O N e σ τ j0 E0) :
    (tab τ n).Perm (List.range n) := by
  apply List.Subperm.perm_of_length_le
  · apply List.subperm_of_subset
    · unfold tab
      exact List.Nodup.map_on (fun x hx y hy hxy =>
        R.tInj x y (List.mem_range.mp hx) (List.mem_range.mp hy) hxy) (List.nodup_range n)
    · intro x hx
      obtain ⟨i, hi, rfl⟩ := (mem_tab τ n x).mp hx
      exact List.mem_range.mpr (R.tlt i hi)
  · rw [tab_length, List.length_range]

/-- Before the move loop the children of the container are in the old order:
the trimmed nodes and the nodes `getSequence` returned are in increasing order
of their new indices. -/
theorem sortedOn_init {p : PatchFn} {c : Handle} {n : Nat} {O N : Nat → VNode}
    {e σ τ : Nat → Nat} {j0 E0 : Nat} (R : PermRun p c n O N e σ τ j0 E0) (is : List Nat)
    (hinc : is.Pairwise (· < ·)) (hb : ∀ i ∈ is, i < E0 - j0 + 1)
    (hval : (is.map (valueAt (tab (fun t => ((σ (j0 + t) : Nat) : Int))
      (E0 - j0 + 1)))).Pairwise (· < ·)) :
    SortedOn (settled is j0 (E0 - j0 + 1)) (tab τ n) := by
  have hle := R.lo_le_hi
  have hE := R.hiLt
  unfold SortedOn tab
  rw [List.pairwise_map]
  refine (List.pairwise_lt_range n).imp_of_mem ?_
  intro a b ha hb2 hab sa sb
  have han := List.mem_range.mp ha
  have hbn := List.mem_range.mp hb2
  by_cases ha1 : a < j0
  · rw [R.tFix a han (Or.inl ha1)]
    by_cases hb1 : b ≤ E0
    · by_cases hb3 : b < j0
      · rw [R.tFix b hbn (Or.inl hb3)]
        exact hab
      · have := (R.tMid b (by omega) hb1).1
        omega
    · rw [R.tFix b hbn (Or.inr (by omega))]
      exact hab
  · by_cases ha2 : E0 < a
    · rw [R.tFix a han (Or.inr ha2), R.tFix b hbn (Or.inr (by omega))]
      exact hab
    · obtain ⟨ha3, ha4⟩ := R.tMid a (by omega) (by omega)
      by_cases hb1 : E0 < b
      · rw [R.tFix b hbn (Or.inr hb1)]
        omega
      · obtain ⟨hb3, hb4⟩ := R.tMid b (by omega) (by omega)
        have hxa : τ a - j0 ∈ is := by
          rcases sa with h | h | h
          · omega
          · omega
          · exact h.2
        have hxb : τ b - j0 ∈ is := by
          rcases sb with h | h | h
          · omega
          · omega
          · exact h.2
        by_contra hge
        have hne : τ a ≠ τ b := fun h => by
          have := R.tInj a b han hbn h
          omega
        have hlt : τ b - j0 < τ a - j0 := by omega
        have := pairwise_values is _ hinc hval (τ b - j0) (τ a - j0) hxb hxa hlt
        rw [valueAt_tab _ _ _ (hb _ hxb), valueAt_tab _ _ _ (hb _ hxa)] at this
        have e1 : j0 + (τ b - j0) = τ b := by omega
        have e2 : j0 + (τ a - j0) = τ a := by omega
        rw [e1, e2, R.st a han, R.st b hbn] at this
        omega

theorem exec_indexAndWalk_perm {p : PatchFn} {c : Handle} {n : Nat} {O N : Nat → VNode}
    {e σ τ : Nat → Nat} {j0 E0 : Nat} (R : PermRun p c n O N e σ τ j0 E0) (L : List Handle)
    (h : Host) (hq : QFlat h c L) :
    ∃ ps1 h1, exec (indexAndWalk p (tab O n) (some c) j0 (E0 : Int) (E0 : Int)
        (tab (fun x => if x < j0 ∨ E0 < x then patchedNode N e σ x else N x) n)) h =
        (.ok { newChildren := tab (patchedNode N e σ) n,
               source := tab (fun t => ((σ (j0 + t) : Nat) : Int)) (E0 - j0 + 1),
               patched := E0 + 1 - j0, moved := true, pos := ps1 }, h1) ∧
      QFlat h1 c L := by
  have hle := R.lo_le_hi
  have hE := R.hiLt
  have hnew0 : tab (fun x => if x < j0 ∨ E0 < x then patchedNode N e σ x else N x) n =
      walkNew N e σ j0 E0 n j0 := by
    unfold walkNew
    refine tab_congr _ _ n (fun x hx => ?_)
    by_cases h3 : x < j0 ∨ E0 < x
    · rw [if_pos h3, if_pos (by omega)]
    · have := (R.sMid x (by omega) (by omega)).1
      rw [if_neg h3, if_neg (by omega)]
  have hsrc0 : List.replicate (E0 - j0 + 1) (-1 : Int) = walkSource σ j0 E0 j0 := by
    unfold walkSource tab
    apply List.ext_getElem?
    intro t
    rw [List.getElem?_replicate, List.getElem?_map]
    by_cases ht : t < E0 - j0 + 1
    · have := (R.sMid (j0 + t) (by omega) (by omega)).1
      rw [if_pos ht, List.getElem?_range ht, Option.map_some', if_neg (by omega)]
    · rw [if_neg ht, List.getElem?_eq_none (by rw [List.length_range]; omega)]
      rfl
  have hnew1 : walkNew N e σ j0 E0 n (E0 + 1) = tab (patchedNode N e σ) n := by
    unfold walkNew
    refine tab_congr _ _ n (fun x hx => ?_)
    by_cases h3 : x < j0 ∨ E0 < x
    · rw [if_pos (by omega)]
    · have := (R.sMid x (by omega) (by omega)).2
      rw [if_pos (by omega)]
  have hsrc1 : walkSource σ j0 E0 (E0 + 1) =
      tab (fun t => ((σ (j0 + t) : Nat) : Int)) (E0 - j0 + 1) := by
    unfold walkSource
    refine tab_congr _ _ _ (fun t ht => ?_)
    have := (R.sMid (j0 + t) (by omega) (by omega)).2
    rw [if_pos (by omega)]
  obtain ⟨ki, hki, hlook⟩ := exec_buildKeyIndex_perm R j0 h
  obtain ⟨mv1, ps1, h1, hx, hq1, hmono⟩ := exec_walkOld_perm R L ki hlook (E0 + 1 - j0) j0 false
    0 h (by omega) (le_refl _)
    (fun _ => ⟨fun a b h3 h4 h5 => by omega, fun h3 => by omega, fun _ => rfl⟩) hq
  have hmv : mv1 = true := by
    cases mv1 with
    | true => rfl
    | false => exact absurd (hmono rfl) R.not_mono
  subst hmv
  refine ⟨ps1, h1, ?_, hq1⟩
  have hc1 : ((E0 : Int) - (j0 : Int) + 1).toNat = E0 - j0 + 1 := by omega
  have hc2 : ¬ ((E0 : Int) - (j0 : Int) + 1 < 0) := by omega
  unfold indexAndWalk
  dsimp only
  rw [if_neg hc2, pure_bind, hc1, exec_bind, hnew0, hki]
  dsimp only
  rw [hsrc0]
  have hc3 : E0 - j0 + 1 = E0 + 1 - j0 := by omega
  rw [Nat.sub_self, hnew1, hsrc1] at hx
  rw [hc3] at hx ⊢
  exact hx

/-- Reconciling a permutation that is not the identity: the call returns,
every new node is on the handle of the old node with its key, the children of
the container are in the new order, and nothing is mounted or unmounted. -/
theorem exec_patchKeyeChildren_perm {p : PatchFn} {c : Handle} {n : Nat} {O N : Nat → VNode}
    {e σ τ : Nat → Nat} {j0 E0 : Nat} (R : PermRun p c n O N e σ τ j0 E0) (x y : Ref)
    (h : Host) (hq : QFlat h c (tab e n)) :
    ∃ h1, exec (patchKeyeChildren p (ul (tab O n) x) (ul (tab N n) y) (some c)) h =
        (.ok ((ul (tab N n) y).setChildren (tab (patchedNode N e σ) n)), h1) ∧
      QFlat h1 c (tab (fun k => e (σ k)) n) := by
  have hle := R.lo_le_hi
  have hE := R.hiLt
  obtain ⟨h1, hx1, hq1⟩ := exec_trims_perm R (tab e n) h hq
  obtain ⟨ps1, h2, hx2, hq2⟩ := exec_indexAndWalk_perm R (tab e n) h1 hq1
  obtain ⟨is, hseq, hinc, hb, hval, _⟩ := getSequence_spec
    (tab (fun t => ((σ (j0 + t) : Nat) : Int)) (E0 - j0 + 1)) (fun hnil => by
      have := congrArg List.length hnil
      rw [tab_length] at this
      exact Nat.succ_ne_zero _ this)
  rw [tab_length] at hb
  have hq3 : QFlat h2 c ((tab τ n).map fun k => e (σ k)) := by
    rw [tab_map]
    have : tab (fun i => e (σ (τ i))) n = tab e n :=
      tab_congr _ _ n (fun i hi => by rw [R.st i hi])
    rw [this]
    exact hq2
  obtain ⟨qs1, h3, hx3, hq4, hp4, hs4⟩ := exec_moveLoop_perm R is hinc (E0 - j0 + 1) is.length
    (tab τ n) h2 (le_refl _) (le_refl _) (fun t ht => hb _ (getD_mem is t ht))
    (fun t h5 h6 => by omega) (perm_tab_inverse R) (sortedOn_init R is hinc hb hval) hq3
  have hqs : qs1 = List.range n := by
    refine List.eq_of_perm_of_sorted hp4 ?_ (List.sorted_lt_range n)
    refine hs4.imp ?_
    intro a b hab
    refine hab ?_ ?_
    · by_cases h5 : a < j0
      · exact Or.inl h5
      · exact Or.inr (Or.inl (by omega))
    · by_cases h5 : b < j0
      · exact Or.inl h5
      · exact Or.inr (Or.inl (by omega))
  rw [hqs] at hq4
  refine ⟨h3, ?_, hq4⟩
  have ha1 : arrayLike (ul (tab O n) x).children = some (tab O n) := rfl
  have ha2 : arrayLike (ul (tab N n) y).children = some (tab N n) := rfl
  have hc1 : ((E0 : Int) - (j0 : Int) + 1).toNat = E0 - j0 + 1 := by omega
  rw [patchKeyeChildren_phases, ha1, ha2, exec_bind, exec_deref_some]
  dsimp only
  rw [exec_bind, exec_deref_some]
  dsimp only
  rw [exec_bind, hx1]
  dsimp only
  unfold afterTrims
  rw [if_neg (by omega), if_neg (by omega), exec_bind, hx2]
  dsimp only
  rw [if_pos rfl, hseq, toJS_length, hc1, exec_bind, hx3]
  rfl

theorem tab_getD {α : Type} (l : List α) (d : α) : tab (fun i => l.getD i d) l.length = l := by
  apply List.ext_getElem?
  intro i
  by_cases hi : i < l.length
  · rw [tab_getElem? _ _ i hi, List.getElem?_eq_getElem hi, List.getD_eq_getElem l d hi]
  · rw [List.getElem?_eq_none (by rw [tab_length]; omega), List.getElem?_eq_none (by omega)]

theorem keyIdx_lt (ks : List (Option Nat)) (k : Option Nat) (h : k ∈ ks) :
    keyIdx ks k < ks.length :=
  List.findIdx_lt_length_of_exists ⟨k, h, by simp⟩

theorem getElem?_keyIdx (ks : List (Option Nat)) (k : Option Nat) (h : k ∈ ks) :
    ks[keyIdx ks k]? = some k := by
  have hlt := keyIdx_lt ks k h
  rw [List.getElem?_eq_getElem hlt]
  have := List.findIdx_getElem (w := hlt)
  simpa using this

theorem keyIdx_of_getElem? (ks : List (Option Nat)) (hnd : ks.Nodup) (i : Nat)
    (k : Option Nat) (hi : ks[i]? = some k) : keyIdx ks k = i := by
  obtain ⟨hlt, hk⟩ := List.getElem?_eq_some.mp hi
  have hmem : k ∈ ks := hk ▸ List.getElem_mem _
  have h1 := getElem?_keyIdx ks k hmem
  obtain ⟨hlt1, hk1⟩ := List.getElem?_eq_some.mp h1
  exact (hnd.getElem_inj_iff).mp (hk1.trans hk.symm)

theorem getElem?_getD {α : Type} (l : List α) (d : α) (i : Nat) (hi : i < l.length) :
    l[i]? = some (l.getD i d) := by
  rw [List.getElem?_eq_getElem hi, List.getD_eq_getElem l d hi]

theorem getD_mem_of_lt {α : Type} (l : List α) (d : α) (i : Nat) (hi : i < l.length) :
    l.getD i d ∈ l := by
  rw [List.getD_eq_getElem l d hi]
  exact List.getElem_mem _


/-- Two sibling sequences of leaves, the second a permutation of the first
other than the identity, are a permutation run. -/
theorem permRun_of_lists (fuel : Nat) (old new : List VNode) (c : Handle) (els : List Handle)
    (hmount : old.map VNode.el = els.map some) (hnd : els.Nodup) (hc : c ∉ els)
    (hkeys : (old.map VNode.key).Nodup)
    (hperm : (new.map VNode.key).Perm (old.map VNode.key))
    (hne : new.map VNode.key ≠ old.map VNode.key)
    (hleafO : ∀ v ∈ old, isLeaf v = true) (hleafN : ∀ v ∈ new, isLeaf v = true)
    (hkind : ∀ o ∈ old, ∀ v ∈ new, o.key = v.key → o.type = v.type)
    (hprops : ∀ o ∈ old, ∀ v ∈ new, o.key = v.key → o.props.isSome = v.props.isSome) :
    new.length = old.length ∧ els.length = old.length ∧
    ∃ σ τ j0 E0, PermRun (patch (fuel + 1)) c old.length (fun i => old.getD i charNode)
      (fun i => new.getD i charNode) (fun i => els.getD i 0) σ τ j0 E0 := by
  have hlenN : new.length = old.length := by
    have := hperm.length_eq
    rw [List.length_map, List.length_map] at this
    exact this
  have hlenE : els.length = old.length := by
    have := congrArg List.length hmount
    rw [List.length_map, List.length_map] at this
    exact this.symm
  have hkeysN : (new.map VNode.key).Nodup := (hperm.nodup_iff).mpr hkeys
  have hkO : ∀ i, i < old.length →
      (old.map VNode.key)[i]? = some (old.getD i charNode).key := fun i hi => by
    rw [List.getElem?_map, getElem?_getD old charNode i hi]
    rfl
  have hkN : ∀ i, i < old.length →
      (new.map VNode.key)[i]? = some (new.getD i charNode).key := fun i hi => by
    rw [List.getElem?_map, getElem?_getD new charNode i (by omega)]
    rfl
  have hmemN : ∀ i, i < old.length → (new.getD i charNode).key ∈ old.map VNode.key :=
    fun i hi => (hperm.mem_iff).mp (List.getElem?_mem (hkN i hi))
  have hmemO : ∀ i, i < old.length → (old.getD i charNode).key ∈ new.map VNode.key :=
    fun i hi => (hperm.mem_iff).mpr (List.getElem?_mem (hkO i hi))
  have hslt : ∀ i, i < old.length →
      keyIdx (old.map VNode.key) (new.getD i charNode).key < old.length := fun i hi => by
    have := keyIdx_lt _ _ (hmemN i hi)
    rw [List.length_map] at this
    exact this
  have htlt : ∀ i, i < old.length →
      keyIdx (new.map VNode.key) (old.getD i charNode).key < old.length := fun i hi => by
    have := keyIdx_lt _ _ (hmemO i hi)
    rw [List.length_map] at this
    omega
  have hkey : ∀ i, i < old.length → (new.getD i charNode).key =
      (old.getD (keyIdx (old.map VNode.key) (new.getD i charNode).key) charNode).key :=
    fun i hi => by
      have h1 := getElem?_keyIdx _ _ (hmemN i hi)
      rw [hkO _ (hslt i hi)] at h1
      exact (Option.some.inj h1).symm
  have hkeyT : ∀ i, i < old.length → (old.getD i charNode).key =
      (new.getD (keyIdx (new.map VNode.key) (old.getD i charNode).key) charNode).key :=
    fun i hi => by
      have h1 := getElem?_keyIdx _ _ (hmemO i hi)
      rw [hkN _ (htlt i hi)] at h1
      exact (Option.some.inj h1).symm
  have hst : ∀ i, i < old.length → keyIdx (old.map VNode.key)
      (new.getD (keyIdx (new.map VNode.key) (old.getD i charNode).key) charNode).key = i :=
    fun i hi => by
      rw [← hkeyT i hi]
      exact keyIdx_of_getElem? _ hkeys i _ (hkO i hi)
  have hts : ∀ i, i < old.length → keyIdx (new.map VNode.key)
      (old.getD (keyIdx (old.map VNode.key) (new.getD i charNode).key) charNode).key = i :=
    fun i hi => by
      rw [← hkey i hi]
      exact keyIdx_of_getElem? _ hkeysN i _ (hkN i hi)
  have hkeyInj : ∀ a b, a < old.length → b < old.length →
      (old.getD a charNode).key = (old.getD b charNode).key → a = b := fun a b ha hb hab => by
    have h1 := keyIdx_of_getElem? _ hkeys a _ (hkO a ha)
    have h2 := keyIdx_of_getElem? _ hkeys b _ (hkO b hb)
    rw [← h1, ← h2, hab]
  have hel : ∀ i, i < old.length → (old.getD i charNode).el = some (els.getD i 0) :=
    fun i hi => by
      have h1 : (old.map VNode.el)[i]? = some (old.getD i charNode).el := by
        rw [List.getElem?_map, getElem?_getD old charNode i hi]
        rfl
      have h2 : (els.map some)[i]? = some (some (els.getD i 0)) := by
        rw [List.getElem?_map, getElem?_getD els 0 i (by omega)]
        rfl
      rw [hmount, h2] at h1
      exact (Option.some.inj h1).symm
  have heInj : ∀ a b, a < old.length → b < old.length → els.getD a 0 = els.getD b 0 → a = b :=
    fun a b ha hb hab => by
      have ha1 : a < els.length := by omega
      have hb1 : b < els.length := by omega
      rw [List.getD_eq_getElem els 0 ha1, List.getD_eq_getElem els 0 hb1] at hab
      exact (hnd.getElem_inj_iff).mp hab
  have heNe : ∀ i, i < old.length → els.getD i 0 ≠ c := fun i hi heq =>
    hc (heq ▸ getD_mem_of_lt els 0 i (by omega))
  have hmoved : ∃ i, i < old.length ∧
      keyIdx (old.map VNode.key) (new.getD i charNode).key ≠ i := by
    by_contra hall
    apply hne
    apply List.ext_getElem?
    intro i
    by_cases hi : i < old.length
    · have hfix : keyIdx (old.map VNode.key) (new.getD i charNode).key = i := by
        by_contra h3
        exact hall ⟨i, hi, h3⟩
      have := hkey i hi
      rw [hfix] at this
      rw [hkN i hi, hkO i hi, this]
    · rw [List.getElem?_eq_none (by rw [List.length_map]; omega),
        List.getElem?_eq_none (by rw [List.length_map]; omega)]
  obtain ⟨i0, hi0, hmove0⟩ := hmoved
  let P : Nat → Prop := fun i =>
    i < old.length ∧ keyIdx (old.map VNode.key) (new.getD i charNode).key ≠ i
  have hP : ∃ i, P i := ⟨i0, hi0, hmove0⟩
  have hj0 : P (Nat.find hP) := Nat.find_spec hP
  have hE0 : P (Nat.findGreatest P (old.length - 1)) :=
    Nat.findGreatest_spec (P := P) (by omega : i0 ≤ old.length - 1) ⟨hi0, hmove0⟩
  refine ⟨hlenN, hlenE, fun i => keyIdx (old.map VNode.key) (new.getD i charNode).key,
    fun i => keyIdx (new.map VNode.key) (old.getD i charNode).key, Nat.find hP,
    Nat.findGreatest P (old.length - 1), ?_⟩
  refine
    { el := hel
      key := hkey
      keyInj := hkeyInj
      slt := hslt
      tlt := htlt
      st := hst
      ts := hts
      eInj := heInj
      eNe := heNe
      quiet := ?_
      fixLo := ?_
      fixHi := ?_
      moveLo := hj0.2
      moveHi := hE0.2
      loLt := hj0.1
      hiLt := hE0.1 }
  · intro i hi
    have hs := hslt i hi
    exact quietPatch_leaf fuel c _ _ _ (hleafO _ (getD_mem_of_lt old charNode _ hs))
      (hleafN _ (getD_mem_of_lt new charNode i (by omega)))
      (hkind _ (getD_mem_of_lt old charNode _ hs) _ (getD_mem_of_lt new charNode i (by omega))
        (hkey i hi).symm)
      (hprops _ (getD_mem_of_lt old charNode _ hs) _
        (getD_mem_of_lt new charNode i (by omega)) (hkey i hi).symm) (hel _ hs) (heNe _ hs)
  · intro i hi
    by_contra h3
    exact Nat.find_min hP hi ⟨lt_trans hi hj0.1, h3⟩
  · intro i hi hin
    by_contra h3
    exact Nat.findGreatest_is_greatest hi (by omega) ⟨hin, h3⟩

/-- The outcome of a permutation run on a freshly mounted container. -/
theorem reconcile_perm {fuel : Nat} {c : Handle} {n : Nat} {O N : Nat → VNode}
    {e σ τ : Nat → Nat} {j0 E0 : Nat} (R : PermRun (patch (fuel + 1)) c n O N e σ τ j0 E0) :
    ∃ lg, created lg = [] ∧ removed lg = [] ∧
      reconcile (fuel + 1) (tab O n) (tab N n) (Host.mounted c (tab e n)) c =
        { error := none, els := tab (fun i => ((N i).key, some (e (σ i)))) n,
          childNodes := tab (fun i => e (σ i)) n, log := lg } := by
  obtain ⟨h1, hx, lg, hf, hcr, hrm⟩ := exec_patchKeyeChildren_perm R (some c) (some c)
    (Host.mounted c (tab e n)) ⟨[], flat_mounted c (tab e n), rfl, rfl⟩
  refine ⟨lg, hcr, hrm, ?_⟩
  unfold reconcile observe
  rw [hx]
  dsimp only
  rw [hf.kids, hf.log]
  have hk : keyEls ((ul (tab N n) (some c)).setChildren (tab (patchedNode N e σ) n)) =
      tab (fun i => ((N i).key, some (e (σ i)))) n := by
    show (tab (patchedNode N e σ) n).map (fun v => (v.key, v.el)) = _
    rw [tab_map]
    exact tab_congr _ _ n (fun i _ => by rw [key_patchedNode, el_patchedNode])
  rw [hk]

/-- Reconciling a permutation of leaves: let `old` be a sibling sequence with
unique keys, mounted on the distinct handles `els` under the container `c`,
and let `new` be a sequence whose keys are a permutation of the keys of `old`
other than the identity, all nodes being leaves (`isLeaf`: text nodes, comment
nodes, elements without child nodes), nodes with the same key having the same
kind, and props on both sides or on neither. Then at every recursion depth
`patchKeyeChildren` returns without error, creates no host object and removes
none, every new node ends on the handle of the old node with its key, and the
children of the container are these handles in the order of `new`. -/
theorem permutation_of_leaves (fuel : Nat) (old new : List VNode)
    (c : Handle) (els : List Handle)
    (hmount : old.map VNode.el = els.map some) (hnd : els.Nodup) (hc : c ∉ els)
    (hkeys : (old.map VNode.key).Nodup)
    (hperm : (new.map VNode.key).Perm (old.map VNode.key))
    (hne : new.map VNode.key ≠ old.map VNode.key)
    (hleafO : ∀ v ∈ old, isLeaf v = true) (hleafN : ∀ v ∈ new, isLeaf v = true)
    (hkind : ∀ o ∈ old, ∀ v ∈ new, o.key = v.key → o.type = v.type)
    (hprops : ∀ o ∈ old, ∀ v ∈ new, o.key = v.key → o.props.isSome = v.props.isSome) :
    (reconcile (fuel + 1) old new (Host.mounted c els) c).error = none ∧
    created (reconcile (fuel + 1) old new (Host.mounted c els) c).log = [] ∧
    removed (reconcile (fuel + 1) old new (Host.mounted c els) c).log = [] ∧
    (reconcile (fuel + 1) old new (Host.mounted c els) c).els.map Prod.fst =
      new.map VNode.key ∧
    (∀ ke ∈ (reconcile (fuel + 1) old new (Host.mounted c els) c).els,
      ∃ o ∈ old, o.key = ke.1 ∧ o.el = ke.2) ∧
    (reconcile (fuel + 1) old new (Host.mounted c els) c).childNodes.map some =
      (reconcile (fuel + 1) old new (Host.mounted c els) c).els.map Prod.snd := by
  obtain ⟨hlenN, hlenE, σ, τ, j0, E0, R⟩ := permRun_of_lists fuel old new c els hmount hnd hc
    hkeys hperm hne hleafO hleafN hkind hprops
  obtain ⟨lg, hcr, hrm, hout⟩ := reconcile_perm R
  have hnewtab : tab (fun i => new.getD i charNode) old.length = new := by
    rw [← hlenN]
    exact tab_getD new charNode
  have helstab : tab (fun i => els.getD i 0) old.length = els := by
    rw [← hlenE]
    exact tab_getD els 0
  rw [tab_getD old charNode, hnewtab, helstab] at hout
  rw [hout]
  refine ⟨rfl, hcr, hrm, ?_, ?_, ?_⟩
  · show (tab _ old.length).map Prod.fst = _
    rw [tab_map]
    show tab (fun i => (new.getD i charNode).key) old.length = _
    rw [← tab_map (fun i => new.getD i charNode) VNode.key, hnewtab]
  · intro ke hke
    obtain ⟨i, hi, rfl⟩ := (mem_tab _ _ ke).mp hke
    have hs := R.slt i hi
    refine ⟨old.getD (σ i) charNode, ?_, (R.key i hi).symm, R.el (σ i) hs⟩
    exact getD_mem_of_lt old charNode _ hs
  · show (tab _ old.length).map some = (tab _ old.length).map Prod.snd
    rw [tab_map, tab_map]

theorem permutation_of_leaves_witness :
    reconcile 1 [li 1 (some 1), textNode 2 "b" (some 2), liProps 3 [("id", .val 1)] (some 3)]
        [liProps 3 [("id", .val 2)] none, li 1 none, textNode 2 "x" none]
        (Host.mounted 0 [1, 2, 3]) 0 =
      { error := none, els := [(some 3, some 3), (some 1, some 1), (some 2, some 2)],
        childNodes := [3, 1, 2],
        log := [HostOp.setElementText 1 "", HostOp.setText 2 (some "x"),
          HostOp.patchProps 3 "id" (.val 1) (.val 2), HostOp.setElementText 3 "",
          HostOp.insert 1 0 (some 2), HostOp.insert 3 0 (some 1)] } ∧
    created (reconcile 1
      [li 1 (some 1), textNode 2 "b" (some 2), liProps 3 [("id", .val 1)] (some 3)]
      [liProps 3 [("id", .val 2)] none, li 1 none, textNode 2 "x" none]
      (Host.mounted 0 [1, 2, 3]) 0).log = [] ∧
    removed (reconcile 1
      [li 1 (some 1), textNode 2 "b" (some 2), liProps 3 [("id", .val 1)] (some 3)]
      [liProps 3 [("id", .val 2)] none, li 1 none, textNode 2 "x" none]
      (Host.mounted 0 [1, 2, 3]) 0).log = [] :=
  have h := permutation_of_leaves 0
    [li 1 (some 1), textNode 2 "b" (some 2), liProps 3 [("id", .val 1)] (some 3)]
    [liProps 3 [("id", .val 2)] none, li 1 none, textNode 2 "x" none] 0 [1, 2, 3]
    (by decide) (by decide) (by decide) (by decide) (by decide) (by decide) (by decide)
    (by decide) (by decide) (by decide)
  ⟨by decide!, h.2.1, h.2.2.1⟩

/-! ## Lemmas: the guard of the walk -/

theorem ensures_pure {α : Type} {P : α → Prop} (a : α) (ha : P a) :
    Ensures (pure a : M α) P := by
  intro h b h1 hx
  rw [exec_pure] at hx
  cases hx
  exact ha

theorem ensures_throw {α : Type} {P : α → Prop} (e : Err) : Ensures (throw e : M α) P := by
  intro h b h1 hx
  rw [exec_throw] at hx
  cases hx

theorem ensures_bind {α β : Type} {m : M α} {f : α → M β} {Q : α → Prop} {P : β → Prop}
    (hm : Ensures m Q) (hf : ∀ a, Q a → Ensures (f a) P) : Ensures (m >>= f) P := by
  intro h b h1 hx
  rw [exec_bind] at hx
  rcases hm1 : exec m h with ⟨r, h2⟩
  rw [hm1] at hx
  cases r with
  | error e => cases hx
  | ok a => exact hf a (hm h a h2 hm1) h2 b h1 hx

theorem ensures_true {α : Type} (m : M α) : Ensures m fun _ => True :=
  fun _ _ _ _ => trivial

/-- The walk over the old remainder never patches more than `count + 1`
nodes. -/
theorem walkOld_patched_le (p : PatchFn) (old : List VNode) (c : Ref)
    (keyIndex : List (Option Nat × Nat)) (count newStart : Nat) :
    ∀ (n i : Nat) (st : WalkState), st.patched ≤ count + 1 →
      Ensures (walkOld p old c keyIndex count newStart n i st)
        fun st1 => st1.patched ≤ count + 1
  | 0, _, st, hst => ensures_pure st hst
  | n + 1, i, st, hst => by
    unfold walkOld
    dsimp only
    split
    · rename_i hle
      refine ensures_bind (ensures_true _) fun o _ => ?_
      split
      · refine ensures_bind (ensures_true _) fun v _ => ?_
        refine ensures_bind (ensures_true _) fun n1 _ => ?_
        exact walkOld_patched_le p old c keyIndex count newStart n _ _ (Nat.succ_le_succ hle)
      · exact ensures_bind (ensures_true _) fun _ _ =>
          walkOld_patched_le p old c keyIndex count newStart n _ _ hst
    · refine ensures_bind (ensures_true _) fun o _ => ?_
      exact ensures_bind (ensures_true _) fun _ _ =>
        walkOld_patched_le p old c keyIndex count newStart n _ _ hst

/-- The walk of the general case never patches more than `count + 1` nodes,
`count = newEnd - j + 1` being the size of the new remainder. -/
theorem indexAndWalk_patched_le (p : PatchFn) (old : List VNode) (c : Ref) (j : Nat)
    (oldEnd newEnd : Int) (new : List VNode) :
    Ensures (indexAndWalk p old c j oldEnd newEnd new)
      fun st => (st.patched : Int) ≤ newEnd - j + 1 + 1 := by
  unfold indexAndWalk
  dsimp only
  split
  · exact ensures_bind (Q := fun _ => False) (ensures_throw _) fun _ hF => hF.elim
  · rename_i hcount
    refine ensures_bind (ensures_true _) fun _ _ => ?_
    refine ensures_bind (ensures_true _) fun ki _ => ?_
    intro h st h1 hx
    have := walkOld_patched_le p old c ki _ j _ _ _ (Nat.zero_le _) h st h1 hx
    omega

/-- Once `patched` exceeds `count`, the walk does what the loop
`unmount(oldChildren[i++])` does on the rest of the old remainder: no node is
looked up in the index table, none is patched, and the variables of the walk
stay as they are. -/
theorem exec_walkOld_exhausted (p : PatchFn) (old : List VNode) (c : Ref)
    (keyIndex : List (Option Nat × Nat)) (count newStart : Nat) :
    ∀ (n i : Nat) (st : WalkState) (h : Host), count < st.patched →
      exec (walkOld p old c keyIndex count newStart n i st) h =
        exec (removeLoop old n i >>= fun _ => pure st) h
  | 0, _, _, _, _ => rfl
  | n + 1, i, st, h, hst => by
    unfold walkOld removeLoop
    dsimp only
    rw [if_neg (by omega), exec_bind, exec_bind, exec_bind]
    cases idx old (i : Int) with
    | none => rfl
    | some o =>
      rw [exec_deref_some]
      dsimp only
      rw [exec_bind, exec_bind]
      rcases hu : exec (unmount o) h with ⟨r, h1⟩
      cases r with
      | error e => rfl
      | ok u =>
        dsimp only
        rw [exec_walkOld_exhausted p old c keyIndex count newStart n (i + 1) st h1 hst,
          exec_bind]

/-! ## The claims

In the examples the container is handle `0`, and the old node with key `k` is
the `k`-th child of the container. The letters of the spec are the keys
`A = 1`, `B = 2`, `C = 3`, `D = 4`, `E = 5`. -/

/-- C1 (final host order matches `new`): fails for old `[A, B]`, new `[C, A]`.
At every recursion depth the call returns, `B` is removed, and `C` is never
mounted (its `el` stays `undefined`): the container holds `[1]` where the claim
requires the handles of `C` and `A`. The walk sets `moved` only on a regression,
and new-only nodes are mounted only inside `if (moved)`. -/
theorem C1_unmoved_new_node_is_not_mounted (fuel : Nat) :
    reconcile (fuel + 1) [li 1 (some 1), li 2 (some 2)] [li 3 none, li 1 none]
        (Host.mounted 0 [1, 2]) 0 =
      { error := none
        els := [(some 3, none), (some 1, some 1)]
        childNodes := [1]
        log := [HostOp.setElementText 1 "", HostOp.removeChild 0 2] } := by
  have h1 : reconcile 1 [li 1 (some 1), li 2 (some 2)] [li 3 none, li 1 none]
        (Host.mounted 0 [1, 2]) 0 =
      { error := none
        els := [(some 3, none), (some 1, some 1)]
        childNodes := [1]
        log := [HostOp.setElementText 1 "", HostOp.removeChild 0 2] } := by decide!
  rw [reconcile_fuel 1 fuel _ _ _ _ (by rw [h1]; decide), h1]

/-- C2 (identity preservation): fails for old `[1, 2, 3, 9]`, new
`[2, 1, 3, 7, 9]`. The call returns, but the new node with key `3` ends on the
freshly created handle `5`, not on handle `3` of the old node with key `3`: the
suffix loop reads `newChildren[oldEnd]`, patches the pair of key `3` without
moving `newEnd` past it, and the move phase then mounts that node again. The
old handle `3` stays in the container. -/
theorem C2_matched_node_gets_new_handle (fuel : Nat) :
    reconcile (fuel + 1)
        [li 1 (some 1), li 2 (some 2), li 3 (some 3), li 9 (some 4)]
        [li 2 none, li 1 none, li 3 none, li 7 none, li 9 none]
        (Host.mounted 0 [1, 2, 3, 4]) 0 =
      { error := none
        els := [(some 2, some 2), (some 1, some 1), (some 3, some 5), (some 7, none),
          (some 9, some 4)]
        childNodes := [3, 4, 2, 1, 5]
        log := [HostOp.setElementText 4 "", HostOp.setElementText 3 "",
          HostOp.setElementText 1 "", HostOp.setElementText 2 "",
          HostOp.createElement (VType.tag "li") 5, HostOp.insert 5 0 none,
          HostOp.insert 1 0 (some 5), HostOp.insert 2 0 (some 1)] } := by
  have h1 : reconcile 1
        [li 1 (some 1), li 2 (some 2), li 3 (some 3), li 9 (some 4)]
        [li 2 none, li 1 none, li 3 none, li 7 none, li 9 none]
        (Host.mounted 0 [1, 2, 3, 4]) 0 =
      { error := none
        els := [(some 2, some 2), (some 1, some 1), (some 3, some 5), (some 7, none),
          (some 9, some 4)]
        childNodes := [3, 4, 2, 1, 5]
        log := [HostOp.setElementText 4 "", HostOp.setElementText 3 "",
          HostOp.setElementText 1 "", HostOp.setElementText 2 "",
          HostOp.createElement (VType.tag "li") 5, HostOp.insert 5 0 none,
          HostOp.insert 1 0 (some 5), HostOp.insert 2 0 (some 1)] } := by decide!
  rw [reconcile_fuel 1 fuel _ _ _ _ (by rw [h1]; decide), h1]

/-- C3 (no-op stability): fails on every input. Whenever `old` and `new`
carry the same keys in the same order, `patchKeyeChildren` does not return, at
any recursion depth, on any host tree and whatever the nodes are: the prefix
loop `while (oldVNode.key === newVNode.key)` has no bound check, so it runs
until it reads `.key` of `undefined`, unless a nested call fails before. -/
theorem C3_same_keys_never_complete (fuel : Nat) (old new : List VNode) (h : Host)
    (c : Handle) (hk : old.map VNode.key = new.map VNode.key) :
    (reconcile fuel old new h c).error ≠ none := by
  obtain ⟨e, h1, he⟩ :=
    patchKeyeChildren_same_keys (patch fuel) old new (some c) (some c) (some c) h hk
  unfold reconcile observe
  rw [he]
  simp

/-- C3 at old `[A]`, new `[A]`: the keys agree, the call does not return, and
the error it ends with is a `TypeError`, raised after the pair was patched. -/
theorem C3_same_keys_never_complete_witness :
    [li 1 (some 1)].map VNode.key = [li 1 none].map VNode.key ∧
    (reconcile 1 [li 1 (some 1)] [li 1 none] (Host.mounted 0 [1]) 0).error ≠ none ∧
    reconcile 1 [li 1 (some 1)] [li 1 none] (Host.mounted 0 [1]) 0 =
      { error := some Err.typeError
        els := []
        childNodes := [1]
        log := [HostOp.setElementText 1 ""] } :=
  ⟨rfl, C3_same_keys_never_complete 1 _ _ _ _ rfl, by decide!⟩

/-- C4 (pure insertion): fails on the spec's own pure append, old `[A, B]`, new
`[A, B, C]`: the call ends with a `TypeError` (the prefix loop reads
`oldChildren[2].key`) and `C` is not mounted. It also fails for old `[A, 7, 8]`,
new `[A, C, 7, 8]`: the call returns without creating any host object, since
the general branch is taken and no regression sets `moved`. -/
theorem C4_pure_insertion_mounts_nothing (fuel : Nat) :
    reconcile (fuel + 1) [li 1 (some 1), li 2 (some 2)] [li 1 none, li 2 none, li 3 none]
        (Host.mounted 0 [1, 2]) 0 =
      { error := some Err.typeError
        els := []
        childNodes := [1, 2]
        log := [HostOp.setElementText 1 "", HostOp.setElementText 2 ""] } ∧
    reconcile (fuel + 1) [li 1 (some 1), li 7 (some 2), li 8 (some 3)]
        [li 1 none, li 3 none, li 7 none, li 8 none] (Host.mounted 0 [1, 2, 3]) 0 =
      { error := none
        els := [(some 1, some 1), (some 3, none), (some 7, some 2), (some 8, some 3)]
        childNodes := [1, 2, 3]
        log := [HostOp.setElementText 1 "", HostOp.setElementText 3 "",
          HostOp.setElementText 2 ""] } := by
  have h1 : reconcile 1 [li 1 (some 1), li 2 (some 2)] [li 1 none, li 2 none, li 3 none]
        (Host.mounted 0 [1, 2]) 0 =
      { error := some Err.typeError
        els := []
        childNodes := [1, 2]
        log := [HostOp.setElementText 1 "", HostOp.setElementText 2 ""] } := by decide!
  have h2 : reconcile 1 [li 1 (some 1), li 7 (some 2), li 8 (some 3)]
        [li 1 none, li 3 none, li 7 none, li 8 none] (Host.mounted 0 [1, 2, 3]) 0 =
      { error := none
        els := [(some 1, some 1), (some 3, none), (some 7, some 2), (some 8, some 3)]
        childNodes := [1, 2, 3]
        log := [HostOp.setElementText 1 "", HostOp.setElementText 3 "",
          HostOp.setElementText 2 ""] } := by decide!
  constructor
  · rw [reconcile_fuel 1 fuel _ _ _ _ (by rw [h1]; decide), h1]
  · rw [reconcile_fuel 1 fuel _ _ _ _ (by rw [h2]; decide), h2]

/-- C5 (pure removal): fails for old `[A, B]`, new `[A]` (the prefix loop reads
`newChildren[1].key` of `undefined`) and for old `[7, 8, 9]`, new `[9]` (the
suffix loop reads `newChildren[oldEnd]`, here `newChildren[1]`): both calls end
with a `TypeError` and no `removeChild` has been made. The spec's own example,
old `[A, B, C]`, new `[A, C]`, does remove exactly `B`. -/
theorem C5_pure_removal_throws (fuel : Nat) :
    reconcile (fuel + 1) [li 1 (some 1), li 2 (some 2)] [li 1 none]
        (Host.mounted 0 [1, 2]) 0 =
      { error := some Err.typeError
        els := []
        childNodes := [1, 2]
        log := [HostOp.setElementText 1 ""] } ∧
    reconcile (fuel + 1) [li 7 (some 1), li 8 (some 2), li 9 (some 3)] [li 9 none]
        (Host.mounted 0 [1, 2, 3]) 0 =
      { error := some Err.typeError
        els := []
        childNodes := [1, 2, 3]
        log := [HostOp.setElementText 3 ""] } ∧
    reconcile (fuel + 1) [li 1 (some 1), li 2 (some 2), li 3 (some 3)] [li 1 none, li 3 none]
        (Host.mounted 0 [1, 2, 3]) 0 =
      { error := none
        els := [(some 1, some 1), (some 3, some 3)]
        childNodes := [1, 3]
        log := [HostOp.setElementText 1 "", HostOp.setElementText 3 "",
          HostOp.removeChild 0 2] } := by
  have h1 : reconcile 1 [li 1 (some 1), li 2 (some 2)] [li 1 none]
        (Host.mounted 0 [1, 2]) 0 =
      { error := some Err.typeError
        els := []
        childNodes := [1, 2]
        log := [HostOp.setElementText 1 ""] } := by decide!
  have h2 : reconcile 1 [li 7 (some 1), li 8 (some 2), li 9 (some 3)] [li 9 none]
        (Host.mounted 0 [1, 2, 3]) 0 =
      { error := some Err.typeError
        els := []
        childNodes := [1, 2, 3]
        log := [HostOp.setElementText 3 ""] } := by decide!
  have h3 : reconcile 1 [li 1 (some 1), li 2 (some 2), li 3 (some 3)] [li 1 none, li 3 none]
        (Host.mounted 0 [1, 2, 3]) 0 =
      { error := none
        els := [(some 1, some 1), (some 3, some 3)]
        childNodes := [1, 3]
        log := [HostOp.setElementText 1 "", HostOp.setElementText 3 "",
          HostOp.removeChild 0 2] } := by decide!
  refine ⟨?_, ?_, ?_⟩
  · rw [reconcile_fuel 1 fuel _ _ _ _ (by rw [h1]; decide), h1]
  · rw [reconcile_fuel 1 fuel _ _ _ _ (by rw [h2]; decide), h2]
  · rw [reconcile_fuel 1 fuel _ _ _ _ (by rw [h3]; decide), h3]

/-- C6 (reversal): fails for old `[A, B]`, new the same nodes as `[B, A]`, when
`A` has an array of children, here the single child with key `9` on handle
`3`. The top-level trims stop at once, the walk patches the pair of `A`, and
the nested
`patchKeyeChildren` on the identical child sequences `[9]`, `[9]` ends with a
`TypeError` in its prefix loop: nothing is moved and the container keeps the
old order `[1, 2]`. On the spec's own example of nodes without children, old
`[A, B, C]`, new `[C, B, A]`, the call does leave `[3, 2, 1]` after two moves,
`B` staying in place. -/
theorem C6_reversal_with_children_throws (fuel : Nat) :
    reconcile (fuel + 2)
        [liWith 1 [li 9 (some 3)] (some 1), li 2 (some 2)]
        [li 2 (some 2), liWith 1 [li 9 (some 3)] (some 1)]
        (Host.tree [(0, [1, 2]), (1, [3])]) 0 =
      { error := some Err.typeError
        els := []
        childNodes := [1, 2]
        log := [HostOp.setElementText 3 ""] } ∧
    reconcile (fuel + 1) [li 1 (some 1), li 2 (some 2), li 3 (some 3)]
        [li 3 (some 3), li 2 (some 2), li 1 (some 1)] (Host.mounted 0 [1, 2, 3]) 0 =
      { error := none
        els := [(some 3, some 3), (some 2, some 2), (some 1, some 1)]
        childNodes := [3, 2, 1]
        log := [HostOp.setElementText 1 "", HostOp.setElementText 2 "",
          HostOp.setElementText 3 "", HostOp.insert 1 0 none,
          HostOp.insert 3 0 (some 2)] } := by
  have h1 : reconcile 2
        [liWith 1 [li 9 (some 3)] (some 1), li 2 (some 2)]
        [li 2 (some 2), liWith 1 [li 9 (some 3)] (some 1)]
        (Host.tree [(0, [1, 2]), (1, [3])]) 0 =
      { error := some Err.typeError
        els := []
        childNodes := [1, 2]
        log := [HostOp.setElementText 3 ""] } := by decide!
  have h2 : reconcile 1 [li 1 (some 1), li 2 (some 2), li 3 (some 3)]
        [li 3 (some 3), li 2 (some 2), li 1 (some 1)] (Host.mounted 0 [1, 2, 3]) 0 =
      { error := none
        els := [(some 3, some 3), (some 2, some 2), (some 1, some 1)]
        childNodes := [3, 2, 1]
        log := [HostOp.setElementText 1 "", HostOp.setElementText 2 "",
          HostOp.setElementText 3 "", HostOp.insert 1 0 none,
          HostOp.insert 3 0 (some 2)] } := by decide!
  constructor
  · rw [reconcile_fuel 2 fuel _ _ _ _ (by rw [h1]; decide), h1]
  · rw [reconcile_fuel 1 fuel _ _ _ _ (by rw [h2]; decide), h2]

/-- C7 (minimal moves): fails for old `[A, B, C]`, new `[C, A, B]`. The induced
position mapping is `[2, 0, 1]`, whose longest strictly increasing subsequence
has length `2`, so the claim allows `3 - 2 = 1` move; the call issues `2`
moves, because `getSequence` skips the entry `0` (old index `0`) and returns a
sequence of length `1`. -/
theorem C7_rotation_issues_two_moves (fuel : Nat) :
    reconcile (fuel + 1) [li 1 (some 1), li 2 (some 2), li 3 (some 3)]
        [li 3 none, li 1 none, li 2 none] (Host.mounted 0 [1, 2, 3]) 0 =
      { error := none
        els := [(some 3, some 3), (some 1, some 1), (some 2, some 2)]
        childNodes := [3, 1, 2]
        log := [HostOp.setElementText 1 "", HostOp.setElementText 2 "",
          HostOp.setElementText 3 "", HostOp.insert 1 0 (some 2),
          HostOp.insert 3 0 (some 1)] } ∧
    moves (reconcile (fuel + 1) [li 1 (some 1), li 2 (some 2), li 3 (some 3)]
        [li 3 none, li 1 none, li 2 none] (Host.mounted 0 [1, 2, 3]) 0).log =
      [(1, some 2), (3, some 1)] ∧
    getSequence [2, 0, 1] = [some 2] ∧
    lisLength [2, 0, 1] = 2 := by
  have h1 : reconcile 1 [li 1 (some 1), li 2 (some 2), li 3 (some 3)]
        [li 3 none, li 1 none, li 2 none] (Host.mounted 0 [1, 2, 3]) 0 =
      { error := none
        els := [(some 3, some 3), (some 1, some 1), (some 2, some 2)]
        childNodes := [3, 1, 2]
        log := [HostOp.setElementText 1 "", HostOp.setElementText 2 "",
          HostOp.setElementText 3 "", HostOp.insert 1 0 (some 2),
          HostOp.insert 3 0 (some 1)] } := by decide!
  rw [reconcile_fuel 1 fuel _ _ _ _ (by rw [h1]; decide), h1]
  refine ⟨rfl, by decide!, by decide!, by decide!⟩

/-- C8 (mixed scenario): fails on the spec's own example, old `[A, B, C, D]`,
new `[D, A, C, B, E]`. The induced mapping is `[3, 0, 2, 1]` with a longest
increasing subsequence of length `2`, so the claim has two matched nodes stay;
the call moves all four, because `getSequence` returns `[4]`, the slot of the
unmatched `E`. It also fails for old `[A, B]`, new `[C, B]`, where no matched
node needs to move: `C` is never mounted. -/
theorem C8_mixed_scenario_moves_every_matched_node (fuel : Nat) :
    reconcile (fuel + 1)
        [li 1 (some 1), li 2 (some 2), li 3 (some 3), li 4 (some 4)]
        [li 4 none, li 1 none, li 3 none, li 2 none, li 5 none]
        (Host.mounted 0 [1, 2, 3, 4]) 0 =
      { error := none
        els := [(some 4, some 4), (some 1, some 1), (some 3, some 3), (some 2, some 2),
          (some 5, some 5)]
        childNodes := [4, 1, 3, 2, 5]
        log := [HostOp.setElementText 1 "", HostOp.setElementText 2 "",
          HostOp.setElementText 3 "", HostOp.setElementText 4 "",
          HostOp.createElement (VType.tag "li") 5, HostOp.insert 5 0 none,
          HostOp.insert 2 0 (some 5), HostOp.insert 3 0 (some 2),
          HostOp.insert 1 0 (some 3), HostOp.insert 4 0 (some 1)] } ∧
    moves (reconcile (fuel + 1)
        [li 1 (some 1), li 2 (some 2), li 3 (some 3), li 4 (some 4)]
        [li 4 none, li 1 none, li 3 none, li 2 none, li 5 none]
        (Host.mounted 0 [1, 2, 3, 4]) 0).log =
      [(2, some 5), (3, some 2), (1, some 3), (4, some 1)] ∧
    getSequence [3, 0, 2, 1, -1] = [some 4] ∧
    lisLength [3, 0, 2, 1] = 2 ∧
    reconcile (fuel + 1) [li 1 (some 1), li 2 (some 2)] [li 3 none, li 2 none]
        (Host.mounted 0 [1, 2]) 0 =
      { error := none
        els := [(some 3, none), (some 2, some 2)]
        childNodes := [2]
        log := [HostOp.setElementText 2 "", HostOp.removeChild 0 1] } := by
  have h1 : reconcile 1
        [li 1 (some 1), li 2 (some 2), li 3 (some 3), li 4 (some 4)]
        [li 4 none, li 1 none, li 3 none, li 2 none, li 5 none]
        (Host.mounted 0 [1, 2, 3, 4]) 0 =
      { error := none
        els := [(some 4, some 4), (some 1, some 1), (some 3, some 3), (some 2, some 2),
          (some 5, some 5)]
        childNodes := [4, 1, 3, 2, 5]
        log := [HostOp.setElementText 1 "", HostOp.setElementText 2 "",
          HostOp.setElementText 3 "", HostOp.setElementText 4 "",
          HostOp.createElement (VType.tag "li") 5, HostOp.insert 5 0 none,
          HostOp.insert 2 0 (some 5), HostOp.insert 3 0 (some 2),
          HostOp.insert 1 0 (some 3), HostOp.insert 4 0 (some 1)] } := by decide!
  have h2 : reconcile 1 [li 1 (some 1), li 2 (some 2)] [li 3 none, li 2 none]
        (Host.mounted 0 [1, 2]) 0 =
      { error := none
        els := [(some 3, none), (some 2, some 2)]
        childNodes := [2]
        log := [HostOp.setElementText 2 "", HostOp.removeChild 0 1] } := by decide!
  rw [reconcile_fuel 1 fuel _ _ _ _ (by rw [h1]; decide), h1,
    reconcile_fuel 1 fuel _ _ _ _ (by rw [h2]; decide), h2]
  refine ⟨rfl, by decide!, by decide!, by decide!, rfl⟩

/-- C9 (round trip): fails for old `[A, B]`, new `[A, C]`. The first call
returns with `B` removed and `C` never mounted; the call back to the old nodes
`[A, B]` then ends with a `TypeError` in `unmount`, which reads `el.parentNode`
of the `undefined` `el` of `C`. The container is left as `[1]`, not `[1, 2]`. -/
theorem C9_round_trip_throws (fuel : Nat) :
    roundTrip (fuel + 1) [li 1 (some 1), li 2 (some 2)] [li 1 none, li 3 none]
        [li 1 (some 1), li 2 (some 2)] (Host.mounted 0 [1, 2]) 0 =
      { error := some Err.typeError
        els := []
        childNodes := [1]
        log := [HostOp.setElementText 1 "", HostOp.removeChild 0 2,
          HostOp.setElementText 1 ""] } := by
  have h1 : roundTrip 1 [li 1 (some 1), li 2 (some 2)] [li 1 none, li 3 none]
        [li 1 (some 1), li 2 (some 2)] (Host.mounted 0 [1, 2]) 0 =
      { error := some Err.typeError
        els := []
        childNodes := [1]
        log := [HostOp.setElementText 1 "", HostOp.removeChild 0 2,
          HostOp.setElementText 1 ""] } := by decide!
  rw [roundTrip_fuel 1 fuel _ _ _ _ _ (by rw [h1]; decide), h1]

/-- C10 (contract of `getSequence` with the sentinel `-1`): fails for
`[3, 0, 2, 1, -1]`, the position mapping of the spec's mixed scenario. The
result is `[4]`: its only index points at the `-1` entry, and its length `1` is
below the length `2` of the longest strictly increasing subsequence of the
non-sentinel values `[3, 0, 2, 1]`. The function tests `arrI !== 0`, so `0` is
its sentinel and `-1` an ordinary value. -/
theorem C10_getSequence_takes_minus_one_as_value :
    getSequence [3, 0, 2, 1, -1] = [some 4] ∧
    idx [3, 0, 2, 1, -1] 4 = some (-1) ∧
    lisLength [3, 0, 2, 1] = 2 := by
  decide!

/-- C11 (no read past the bounds): fails. For old `[]`, new `[]` the first read
`oldChildren[0]` is already out of range and its `.key` raises a `TypeError`;
for old `[A]`, new `[A, B]` (old a prefix of new) the prefix loop reads
`oldChildren[1]`; for old `[B]`, new `[A, B]` (old a suffix of new) the suffix
loop reads `oldChildren[-1]`. Neither loop tests its cursor against the
lengths, so each call ends with a `TypeError`. -/
theorem C11_trims_read_past_the_bounds (fuel : Nat) :
    reconcile (fuel + 1) [] [] (Host.mounted 0 []) 0 =
      { error := some Err.typeError, els := [], childNodes := [], log := [] } ∧
    idx ([] : List VNode) 0 = none ∧
    reconcile (fuel + 1) [li 1 (some 1)] [li 1 none, li 2 none] (Host.mounted 0 [1]) 0 =
      { error := some Err.typeError
        els := []
        childNodes := [1]
        log := [HostOp.setElementText 1 ""] } ∧
    idx [li 1 (some 1)] 1 = none ∧
    reconcile (fuel + 1) [li 2 (some 1)] [li 1 none, li 2 none] (Host.mounted 0 [1]) 0 =
      { error := some Err.typeError
        els := []
        childNodes := [1]
        log := [HostOp.setElementText 1 ""] } ∧
    idx [li 2 (some 1)] (-1) = none := by
  have h1 : reconcile 1 [] [] (Host.mounted 0 []) 0 =
      { error := some Err.typeError, els := [], childNodes := [], log := [] } := by decide!
  have h2 : reconcile 1 [li 1 (some 1)] [li 1 none, li 2 none] (Host.mounted 0 [1]) 0 =
      { error := some Err.typeError
        els := []
        childNodes := [1]
        log := [HostOp.setElementText 1 ""] } := by decide!
  have h3 : reconcile 1 [li 2 (some 1)] [li 1 none, li 2 none] (Host.mounted 0 [1]) 0 =
      { error := some Err.typeError
        els := []
        childNodes := [1]
        log := [HostOp.setElementText 1 ""] } := by decide!
  rw [reconcile_fuel 1 fuel _ _ _ _ (by rw [h1]; decide), h1,
    reconcile_fuel 1 fuel _ _ _ _ (by rw [h2]; decide), h2,
    reconcile_fuel 1 fuel _ _ _ _ (by rw [h3]; decide), h3]
  exact ⟨rfl, rfl, rfl, rfl, rfl, rfl⟩

/-- C12 (fresh mount before the anchor): fails for text and comment nodes.
With the container holding `[1]` and anchor `1`, `patch(null, n, container,
anchor)` creates handle `2` and, for an element, inserts it before the anchor
(`[2, 1]`); for a text or a comment node it calls `insert(el, container)`
without the anchor, so the new handle ends after it (`[1, 2]`). -/
theorem C12_text_and_comment_ignore_the_anchor (fuel : Nat) :
    observe (patch (fuel + 1) none (textNode 5 "t" none) (some 0) (some 1))
        (Host.mounted 0 [1]) 0 =
      { error := none
        els := []
        childNodes := [1, 2]
        log := [HostOp.createText (some "t") 2, HostOp.insert 2 0 none] } ∧
    observe (patch (fuel + 1) none (commentNode 5 "t" none) (some 0) (some 1))
        (Host.mounted 0 [1]) 0 =
      { error := none
        els := []
        childNodes := [1, 2]
        log := [HostOp.createComment (some "t") 2, HostOp.insert 2 0 none] } ∧
    observe (patch (fuel + 1) none (li 5 none) (some 0) (some 1)) (Host.mounted 0 [1]) 0 =
      { error := none
        els := []
        childNodes := [2, 1]
        log := [HostOp.createElement (VType.tag "li") 2, HostOp.insert 2 0 (some 1)] } := by
  have h1 : observe (patch 1 none (textNode 5 "t" none) (some 0) (some 1))
        (Host.mounted 0 [1]) 0 =
      { error := none
        els := []
        childNodes := [1, 2]
        log := [HostOp.createText (some "t") 2, HostOp.insert 2 0 none] } := by decide!
  have h2 : observe (patch 1 none (commentNode 5 "t" none) (some 0) (some 1))
        (Host.mounted 0 [1]) 0 =
      { error := none
        els := []
        childNodes := [1, 2]
        log := [HostOp.createComment (some "t") 2, HostOp.insert 2 0 none] } := by decide!
  have h3 : observe (patch 1 none (li 5 none) (some 0) (some 1)) (Host.mounted 0 [1]) 0 =
      { error := none
        els := []
        childNodes := [2, 1]
        log := [HostOp.createElement (VType.tag "li") 2, HostOp.insert 2 0 (some 1)] } := by
    decide!
  rw [observe_patch_fuel 1 fuel _ _ _ _ _ _ (by rw [h1]; decide), h1,
    observe_patch_fuel 1 fuel _ _ _ _ _ _ (by rw [h2]; decide), h2,
    observe_patch_fuel 1 fuel _ _ _ _ _ _ (by rw [h3]; decide), h3]
  exact ⟨rfl, rfl, rfl⟩

/-- C13 (props diff of `patchElement`), as stated: fails for
`oldProps = { toString: 1 }`, `newProps = {}`. The key `toString` of `oldProps`
is absent from `newProps`, so the claim requires the one call
`patchProps(el, "toString", 1, null)` (`specPropCalls`). The code tests
`key in newProps` (line 118), which is true for every name an object inherits
from `Object.prototype`, and makes no `patchProps` call: whatever `patch` is,
the log holds only the `setElementText` of `patchChildren`. -/
theorem C13_inherited_key_is_not_removed :
    specPropCalls 1 [("toString", .val 1)] [] =
      [HostOp.patchProps 1 "toString" (.val 1) .null] ∧
    hasKey [] "toString" = true ∧
    ∀ p : PatchFn,
      observe (patchElement p (liProps 1 [("toString", .val 1)] (some 1)) (liProps 1 [] none))
        (Host.mounted 0 [1]) 0 =
      { error := none, els := [], childNodes := [1],
        log := [HostOp.setElementText 1 ""] } :=
  ⟨by decide, by decide, fun _ => rfl⟩

/-- C13 (props diff of `patchElement`), amended: for every pair of element
nodes whose old node is mounted on `e` and whose props are the maps
`oldProps` and `newProps` (no key listed twice), `patchElement(n1, n2)` makes
exactly the calls `inPropCalls e oldProps newProps`, in this order, and then
continues as `patchChildren(n1, n2, el)`: one `patchProps(el, key,
oldProps[key], newProps[key])` for each key of `newProps` whose value differs
from the read `oldProps[key]`, one `patchProps(el, key, oldProps[key], null)`
for each key of `oldProps` for which `key in newProps` is false (a key that is
neither a key of `newProps` nor a name inherited from `Object.prototype`), and
no call for an unchanged key. Each key is listed once, so each call is made
once. -/
theorem C13_patchElement_props (patch : PatchFn) (n1 n2 : VNode) (e : Handle)
    (oldProps newProps : Props) (h : Host)
    (hel : n1.el = some e) (hold : n1.props = some oldProps) (hnew : n2.props = some newProps)
    (hdo : (oldProps.map Prod.fst).Nodup) (hdn : (newProps.map Prod.fst).Nodup) :
    exec (patchElement patch n1 n2) h =
      exec (patchChildren patch n1 (n2.setEl (some e)) (some e))
        (h.logged (inPropCalls e oldProps newProps)) := by
  have hnew2 : (n2.setEl (some e)).props = some newProps := by
    cases n2
    exact hnew
  unfold patchElement
  dsimp only
  rw [hel, hold, hnew2]
  dsimp only
  rw [exec_bind, exec_patchNewProps e oldProps newProps newProps h
    (fun kv hm => propAt_of_mem newProps hdn kv hm)]
  dsimp only
  rw [exec_bind, exec_patchOldProps e oldProps newProps oldProps _
    (fun kv hm => propAt_of_mem oldProps hdo kv hm)]
  dsimp only
  rw [Host.logged_logged]
  rfl

/-- C13 at `oldProps = { id: 1, class: 2, title: 3, toString: 9 }` and
`newProps = { id: 1, class: 5, href: 7, valueOf: 4 }`: `class` is updated,
`href` is added, `valueOf` replaces the inherited member, `title` is removed,
`id` is left alone, and `toString` is not removed. -/
theorem C13_patchElement_props_witness :
    (li 1 (some 4)).el = some 4 ∧
    inPropCalls 4 [("id", .val 1), ("class", .val 2), ("title", .val 3), ("toString", .val 9)]
        [("id", .val 1), ("class", .val 5), ("href", .val 7), ("valueOf", .val 4)] =
      [HostOp.patchProps 4 "class" (.val 2) (.val 5),
        HostOp.patchProps 4 "href" .undefined (.val 7),
        HostOp.patchProps 4 "valueOf" (.inherited "valueOf") (.val 4),
        HostOp.patchProps 4 "title" (.val 3) .null] ∧
    exec (patchElement (patch 1)
        (liProps 1 [("id", .val 1), ("class", .val 2), ("title", .val 3), ("toString", .val 9)]
          (some 4))
        (liProps 1 [("id", .val 1), ("class", .val 5), ("href", .val 7), ("valueOf", .val 4)]
          none)) (Host.mounted 0 [4]) =
      exec (patchChildren (patch 1)
        (liProps 1 [("id", .val 1), ("class", .val 2), ("title", .val 3), ("toString", .val 9)]
          (some 4))
        ((liProps 1 [("id", .val 1), ("class", .val 5), ("href", .val 7), ("valueOf", .val 4)]
          none).setEl (some 4)) (some 4))
        ((Host.mounted 0 [4]).logged
          (inPropCalls 4
            [("id", .val 1), ("class", .val 2), ("title", .val 3), ("toString", .val 9)]
            [("id", .val 1), ("class", .val 5), ("href", .val 7), ("valueOf", .val 4)])) :=
  ⟨rfl, by decide,
    C13_patchElement_props (patch 1) _ _ 4 _ _ _ rfl rfl rfl (by decide) (by decide)⟩

/-- C14 (old children coerced to an empty sequence): fails. With new children
`[A]`, `patchChildren` ends with a `TypeError` and mounts nothing when the old
children are the string `"hi"` (the characters are walked as old nodes and
`unmount` reads `el.parentNode` of a character), when they are absent
(`oldChildren[0]` of `undefined`), and even when they are the empty array (the
prefix loop reads `.key` of `oldChildren[0]`). -/
theorem C14_old_text_children_throw (fuel : Nat) :
    observe (patchChildren (patch (fuel + 1))
        (.mk (.tag "ul") none none (.str "hi") (some 0)) (ul [li 1 none] (some 0)) (some 0))
        (Host.mounted 0 []) 0 =
      { error := some Err.typeError, els := [], childNodes := [], log := [] } ∧
    observe (patchChildren (patch (fuel + 1))
        (.mk (.tag "ul") none none .absent (some 0)) (ul [li 1 none] (some 0)) (some 0))
        (Host.mounted 0 []) 0 =
      { error := some Err.typeError, els := [], childNodes := [], log := [] } ∧
    observe (patchChildren (patch (fuel + 1))
        (ul [] (some 0)) (ul [li 1 none] (some 0)) (some 0))
        (Host.mounted 0 []) 0 =
      { error := some Err.typeError, els := [], childNodes := [], log := [] } := by
  have h1 : observe (patchChildren (patch 1)
        (.mk (.tag "ul") none none (.str "hi") (some 0)) (ul [li 1 none] (some 0)) (some 0))
        (Host.mounted 0 []) 0 =
      { error := some Err.typeError, els := [], childNodes := [], log := [] } := by decide!
  have h2 : observe (patchChildren (patch 1)
        (.mk (.tag "ul") none none .absent (some 0)) (ul [li 1 none] (some 0)) (some 0))
        (Host.mounted 0 []) 0 =
      { error := some Err.typeError, els := [], childNodes := [], log := [] } := by decide!
  have h3 : observe (patchChildren (patch 1)
        (ul [] (some 0)) (ul [li 1 none] (some 0)) (some 0))
        (Host.mounted 0 []) 0 =
      { error := some Err.typeError, els := [], childNodes := [], log := [] } := by decide!
  rw [observe_patchChildren_fuel 1 fuel _ _ _ _ _ (by rw [h1]; decide), h1,
    observe_patchChildren_fuel 1 fuel _ _ _ _ _ (by rw [h2]; decide), h2,
    observe_patchChildren_fuel 1 fuel _ _ _ _ _ (by rw [h3]; decide), h3]
  exact ⟨rfl, rfl, rfl⟩

/-- C15 (`unmount`): for every node `v` and host tree `h`: if `v` is a fragment
with the children `cs`, `unmount(v)` is the loop that unmounts each child in
turn, with no removal for the fragment itself; otherwise, if `v.el` has the
parent `p`, `unmount(v)` returns after the single call `p.removeChild(v.el)`,
and if `v.el` has no parent it returns without any call and leaves the host
tree as it is. -/
theorem C15_unmount (v : VNode) (h : Host) :
    (∀ cs, v.type = VType.Fragment → v.children = Children.arr cs →
      unmount v = unmountEach cs) ∧
    unmountEach [] = pure () ∧
    (∀ c cs, unmountEach (c :: cs) = (do unmount c; unmountEach cs)) ∧
    (∀ e p, v.type ≠ VType.Fragment → v.el = some e → h.parentNode e = some p →
      exec (unmount v) h = (.ok (), h.without p e)) ∧
    (∀ e, v.type ≠ VType.Fragment → v.el = some e → h.parentNode e = none →
      exec (unmount v) h = (.ok (), h)) := by
  obtain ⟨t, k, ps, ch, el⟩ := v
  refine ⟨?_, ?_, ?_, ?_, ?_⟩
  · intro cs ht hc
    have ht2 : t = VType.Fragment := ht
    have hc2 : ch = Children.arr cs := hc
    subst ht2
    subst hc2
    rw [unmount]
    simp
  · rw [unmountEach]
  · intro c cs
    rw [unmountEach]
  · intro e p ht he hp
    have ht2 : t ≠ VType.Fragment := ht
    have he2 : el = some e := he
    subst he2
    have hg : exec (get : M Host) h = (.ok h, h) := rfl
    cases ch <;>
    · simp only [unmount, if_neg ht2]
      rw [exec_bind, exec_deref_some]
      dsimp only
      rw [exec_bind, hg]
      dsimp only
      rw [hp]
      rfl
  · intro e ht he hp
    have ht2 : t ≠ VType.Fragment := ht
    have he2 : el = some e := he
    subst he2
    have hg : exec (get : M Host) h = (.ok h, h) := rfl
    cases ch <;>
    · simp only [unmount, if_neg ht2]
      rw [exec_bind, exec_deref_some]
      dsimp only
      rw [exec_bind, hg]
      dsimp only
      rw [hp]
      rfl

/-- C15 on the host tree with `1` and `2` under `0`: the element on handle `2`
is detached from `0`, leaving `[1]`; the element on the parentless handle `7`
leaves the tree and the log as they are; a fragment with these two children
removes handle `2` only. -/
theorem C15_unmount_witness :
    (li 1 (some 2)).type ≠ VType.Fragment ∧
    (Host.mounted 0 [1, 2]).parentNode 2 = some 0 ∧
    (Host.mounted 0 [1, 2]).parentNode 7 = none ∧
    exec (unmount (li 1 (some 2))) (Host.mounted 0 [1, 2]) =
      (.ok (), (Host.mounted 0 [1, 2]).without 0 2) ∧
    ((Host.mounted 0 [1, 2]).without 0 2).childNodes 0 = [1] ∧
    exec (unmount (li 1 (some 7))) (Host.mounted 0 [1, 2]) = (.ok (), Host.mounted 0 [1, 2]) ∧
    unmount (.mk .Fragment none none (.arr [li 1 (some 2), li 3 (some 7)]) none) =
      unmountEach [li 1 (some 2), li 3 (some 7)] ∧
    (exec (unmount (.mk .Fragment none none (.arr [li 1 (some 2), li 3 (some 7)]) none))
      (Host.mounted 0 [1, 2])).2.log = [HostOp.removeChild 0 2] :=
  ⟨by decide, by decide, by decide,
    (C15_unmount (li 1 (some 2)) (Host.mounted 0 [1, 2])).2.2.2.1 2 0 (by decide) rfl
      (by decide),
    by decide,
    (C15_unmount (li 1 (some 7)) (Host.mounted 0 [1, 2])).2.2.2.2 7 (by decide) rfl (by decide),
    (C15_unmount (.mk .Fragment none none (.arr [li 1 (some 2), li 3 (some 7)]) none)
      (Host.mounted 0 [1, 2])).1 _ rfl rfl,
    by decide!⟩

/-- C16 (exhaustion guard), as stated: fails for old keys `[2, 1, 1, 1, 3]`,
new keys `[1, 4]`. The new remainder has `count = 2` nodes, yet at every
recursion depth the walk ends with `patched = 3`: the guard is
`patched <= count` (line 210, as its comment says), so the third old node
with key `1` is still looked up and patched when `patched` already equals
`count`. The log shows the three patches (on handles `2`, `3`, `4`), and the
new node with key `1` ends on handle `4`. -/
theorem C16_guard_admits_one_patch_too_many :
    (∀ fuel : Nat, walkOutcome (fuel + 1)
        [li 2 (some 1), li 1 (some 2), li 1 (some 3), li 1 (some 4), li 3 (some 5)]
        [li 1 none, li 4 none] (Host.mounted 0 [1, 2, 3, 4, 5]) 0 = some (2, 3)) ∧
    (∀ fuel : Nat, reconcile (fuel + 1)
        [li 2 (some 1), li 1 (some 2), li 1 (some 3), li 1 (some 4), li 3 (some 5)]
        [li 1 none, li 4 none] (Host.mounted 0 [1, 2, 3, 4, 5]) 0 =
      { error := none
        els := [(some 1, some 4), (some 4, none)]
        childNodes := [2, 3, 4]
        log := [HostOp.removeChild 0 1, HostOp.setElementText 2 "",
          HostOp.setElementText 3 "", HostOp.setElementText 4 "",
          HostOp.removeChild 0 5] }) := by
  have h1 : walkOutcome 1
        [li 2 (some 1), li 1 (some 2), li 1 (some 3), li 1 (some 4), li 3 (some 5)]
        [li 1 none, li 4 none] (Host.mounted 0 [1, 2, 3, 4, 5]) 0 = some (2, 3) := by decide!
  have h2 : reconcile 1
        [li 2 (some 1), li 1 (some 2), li 1 (some 3), li 1 (some 4), li 3 (some 5)]
        [li 1 none, li 4 none] (Host.mounted 0 [1, 2, 3, 4, 5]) 0 =
      { error := none
        els := [(some 1, some 4), (some 4, none)]
        childNodes := [2, 3, 4]
        log := [HostOp.removeChild 0 1, HostOp.setElementText 2 "",
          HostOp.setElementText 3 "", HostOp.setElementText 4 "",
          HostOp.removeChild 0 5] } := by decide!
  exact ⟨fun fuel => walkOutcome_fuel 1 fuel _ _ _ _ _ h1,
    fun fuel => by rw [reconcile_fuel 1 fuel _ _ _ _ (by rw [h2]; decide), h2]⟩

/-- C16 (exhaustion guard), amended: in the general case of
`patchKeyeChildren`, for every old and new remainder (old remainders with
duplicate keys included), once the number of patched old nodes exceeds the
size `count` of the new remainder, every further old node is unmounted without
being looked up in the index table or patched (the walk goes on as the loop
`unmount(oldChildren[i++])` and leaves its variables alone), so the number of
patched old nodes never exceeds `count + 1`. Here `walkOutcome` is the pair of
`count` and `patched` when the trims and the walk return. -/
theorem C16_patches_stop_after_count_plus_one (fuel : Nat) (old new : List VNode)
    (h : Host) (container : Handle) (r : Int × Nat)
    (hr : walkOutcome fuel old new h container = some r) :
    (r.2 : Int) ≤ r.1 + 1 ∧
    ∀ (keyIndex : List (Option Nat × Nat)) (count newStart n i : Nat) (st : WalkState)
      (h1 : Host), count < st.patched →
      exec (walkOld (patch fuel) old (some container) keyIndex count newStart n i st) h1 =
        exec (removeLoop old n i >>= fun _ => pure st) h1 := by
  refine ⟨?_, fun keyIndex count newStart n i st h1 hst =>
    exec_walkOld_exhausted (patch fuel) old (some container) keyIndex count newStart n i st h1
      hst⟩
  have hE : Ensures (do
      let t ← trims (patch fuel) old new (some container)
      let st ← indexAndWalk (patch fuel) old (some container) t.1 t.2.1 t.2.2.1 t.2.2.2
      pure (t.2.2.1 - t.1 + 1, st.patched)) fun a => ((a.2 : Nat) : Int) ≤ a.1 + 1 :=
    ensures_bind (ensures_true _) fun t _ =>
      ensures_bind (indexAndWalk_patched_le (patch fuel) old (some container) t.1 t.2.1
        t.2.2.1 t.2.2.2) fun st hst => ensures_pure _ hst
  unfold walkOutcome at hr
  rcases hx : exec (do
      let t ← trims (patch fuel) old new (some container)
      let st ← indexAndWalk (patch fuel) old (some container) t.1 t.2.1 t.2.2.1 t.2.2.2
      pure (t.2.2.1 - t.1 + 1, st.patched)) h with ⟨res, h2⟩
  rw [hx] at hr
  cases res with
  | error e => cases hr
  | ok a =>
    dsimp only at hr
    cases hr
    exact hE h _ h2 hx

/-- C16, amended, on old keys `[2, 4, 4, 4, 4, 3]`, new keys `[4, 1]`: `count`
is `2`, three of the four old nodes with key `4` are patched, the fourth is
unmounted. -/
theorem C16_patches_stop_after_count_plus_one_witness :
    walkOutcome 1
        [li 2 (some 1), li 4 (some 2), li 4 (some 3), li 4 (some 4), li 4 (some 5),
          li 3 (some 6)]
        [li 4 none, li 1 none] (Host.mounted 0 [1, 2, 3, 4, 5, 6]) 0 = some (2, 3) ∧
    ((3 : Nat) : Int) ≤ 2 + 1 :=
  ⟨by decide!,
    (C16_patches_stop_after_count_plus_one 1
      [li 2 (some 1), li 4 (some 2), li 4 (some 3), li 4 (some 4), li 4 (some 5),
        li 3 (some 6)]
      [li 4 none, li 1 none] (Host.mounted 0 [1, 2, 3, 4, 5, 6]) 0 (2, 3) (by decide!)).1⟩

/-- C17 (suffix trim): fails for old keys `[1, 3, 9]`, new keys `[2, 3, 7, 9]`.
The longest common key-suffix is `[9]`, of length `1`, but the trims end with
`oldEnd = 0` and `newEnd = 1`, two steps from either end: after the pair of
key `9` the loop reads `newChildren[oldEnd]`, compares `old[1]` with `new[1]`
(both of key `3`) instead of `new[2]`, and patches that pair as well. -/
theorem C17_suffix_trim_reads_the_wrong_side (fuel : Nat) :
    trimsOutcome (fuel + 1) [li 1 (some 1), li 3 (some 2), li 9 (some 3)]
        [li 2 none, li 3 none, li 7 none, li 9 none] (Host.mounted 0 [1, 2, 3]) 0 =
      some (0, 0, 1) ∧
    commonSuffixLength ([li 1 (some 1), li 3 (some 2), li 9 (some 3)].map VNode.key)
        ([li 2 none, li 3 none, li 7 none, li 9 none].map VNode.key) = 1 ∧
    (reconcile (fuel + 1) [li 1 (some 1), li 3 (some 2), li 9 (some 3)]
        [li 2 none, li 3 none, li 7 none, li 9 none] (Host.mounted 0 [1, 2, 3]) 0).log.take 2 =
      [HostOp.setElementText 3 "", HostOp.setElementText 2 ""] := by
  have h1 : trimsOutcome 1 [li 1 (some 1), li 3 (some 2), li 9 (some 3)]
        [li 2 none, li 3 none, li 7 none, li 9 none] (Host.mounted 0 [1, 2, 3]) 0 =
      some (0, 0, 1) := by decide!
  have h2 : reconcile 1 [li 1 (some 1), li 3 (some 2), li 9 (some 3)]
        [li 2 none, li 3 none, li 7 none, li 9 none] (Host.mounted 0 [1, 2, 3]) 0 =
      { error := none
        els := [(some 2, none), (some 3, some 2), (some 7, none), (some 9, some 3)]
        childNodes := [2, 3]
        log := [HostOp.setElementText 3 "", HostOp.setElementText 2 "",
          HostOp.removeChild 0 1] } := by decide!
  refine ⟨trimsOutcome_fuel 1 fuel _ _ _ _ _ h1, by decide!, ?_⟩
  rw [reconcile_fuel 1 fuel _ _ _ _ (by rw [h2]; decide), h2]
  rfl

/-- C18: for every non-empty array of strictly positive integers,
`getSequence` (a total function; `search_fuel` shows that the bound on its
binary search is never reached) returns a list of indices of the array, in
strictly increasing order, whose values increase strictly, and whose length is
the length `lisLength arr` of a longest strictly increasing subsequence. -/
theorem C18_getSequence_is_a_longest_increasing_subsequence (arr : List Int)
    (hne : arr ≠ []) (hpos : ∀ x ∈ arr, 0 < x) :
    ∃ is : List Nat, getSequence arr = is.map (fun (i : Nat) => some (i : Int)) ∧
      is.Pairwise (· < ·) ∧ (∀ i ∈ is, i < arr.length) ∧
      (is.map fun i => arr.getD i 0).Pairwise (· < ·) ∧
      is.length = lisLength arr := by
  obtain ⟨is, h1, h2, h3, h4, h5⟩ := getSequence_spec arr hne
  refine ⟨is, h1, h2, h3, h4, ?_⟩
  symm
  apply lisLength_eq
  · exact ⟨is.map (valueAt arr), map_valueAt_sublist arr is h2 h3, h4, List.length_map _ _⟩
  · intro s hs hinc
    obtain ⟨js, hj1, hj2, rfl⟩ := sublist_eq_map_valueAt arr s hs
    rw [List.length_map]
    exact h5 (fun x hx => ne_of_gt (hpos x hx)) js hj1 hj2 hinc

theorem C18_getSequence_is_a_longest_increasing_subsequence_witness :
    getSequence [2, 5, 3, 7, 4] = [some 0, some 2, some 4] ∧ lisLength [2, 5, 3, 7, 4] = 3 ∧
      ∃ is : List Nat, getSequence [2, 5, 3, 7, 4] = is.map (fun (i : Nat) => some (i : Int)) ∧
        is.Pairwise (· < ·) ∧ (∀ i ∈ is, i < ([2, 5, 3, 7, 4] : List Int).length) ∧
        (is.map fun i => ([2, 5, 3, 7, 4] : List Int).getD i 0).Pairwise (· < ·) ∧
        is.length = lisLength [2, 5, 3, 7, 4] :=
  ⟨by decide, by decide,
    C18_getSequence_is_a_longest_increasing_subsequence [2, 5, 3, 7, 4] (by decide)
      (by decide)⟩

/-- C19 (a permutation of leaves is reordered without a mount or an unmount):
fails when a node has props and the node with its key has none. For old
`[A, B]` and new `[B, A]`, all four childless `li` elements, with props
`{ id: 1 }` on the new `B` only, the call ends at every recursion depth with a
`TypeError` and the container still holds `[1, 2]`: the walk patches `A`, then
`patchElement` reads `oldProps[key]` (line 113) on the old `B`, whose `props`
is `undefined`. With the props on the old `A` only, `patchElement` fails on
`key in newProps` (line 118) before any host call. `mountElement` tests
`if (vnode.props)` (line 28); `patchElement` tests neither `props`. When the
nodes of every key have props on both sides or on neither, the claim holds
(`permutation_of_leaves`). -/
theorem C19_props_on_one_side_throw (fuel : Nat) :
    isLeaf (liProps 2 [("id", .val 1)] none) = true ∧
    reconcile (fuel + 1) [li 1 (some 1), li 2 (some 2)]
        [liProps 2 [("id", .val 1)] none, li 1 none] (Host.mounted 0 [1, 2]) 0 =
      { error := some Err.typeError, els := [], childNodes := [1, 2],
        log := [HostOp.setElementText 1 ""] } ∧
    reconcile (fuel + 1) [liProps 1 [("id", .val 1)] (some 1), li 2 (some 2)]
        [li 2 none, li 1 none] (Host.mounted 0 [1, 2]) 0 =
      { error := some Err.typeError, els := [], childNodes := [1, 2], log := [] } := by
  have h1 : reconcile 1 [li 1 (some 1), li 2 (some 2)]
        [liProps 2 [("id", .val 1)] none, li 1 none] (Host.mounted 0 [1, 2]) 0 =
      { error := some Err.typeError, els := [], childNodes := [1, 2],
        log := [HostOp.setElementText 1 ""] } := by decide!
  have h2 : reconcile 1 [liProps 1 [("id", .val 1)] (some 1), li 2 (some 2)]
        [li 2 none, li 1 none] (Host.mounted 0 [1, 2]) 0 =
      { error := some Err.typeError, els := [], childNodes := [1, 2], log := [] } := by decide!
  exact ⟨rfl, by rw [reconcile_fuel 1 fuel _ _ _ _ (by rw [h1]; decide), h1],
    by rw [reconcile_fuel 1 fuel _ _ _ _ (by rw [h2]; decide), h2]⟩

/-- C20: whenever the prefix trim and the suffix trim of `patchKeyeChildren`
both finish without error, the cursors satisfy `j ≤ oldEnd`, so the condition
of the pure-insertion branch (`j > oldEnd` and `j ≤ newEnd`) is false: by
`patchKeyeChildren_phases` the branch of `afterTrims` that mounts the new
remainder is never entered. -/
theorem C20_insertion_branch_is_dead (fuel : Nat) (old new : List VNode) (h : Host)
    (container : Handle) (r : Nat × Int × Int)
    (hr : trimsOutcome fuel old new h container = some r) :
    (r.1 : Int) ≤ r.2.1 ∧ ¬ ((r.1 : Int) > r.2.1 ∧ (r.1 : Int) ≤ r.2.2) := by
  unfold trimsOutcome at hr
  rcases hx : exec (trims (patch fuel) old new (some container)) h with ⟨x, h1⟩
  rw [hx] at hr
  cases x with
  | error e => cases hr
  | ok v =>
    obtain ⟨j, oe, ne, new1⟩ := v
    dsimp only at hr
    cases hr
    have hle := trims_returns (patch fuel) (fun n1 n2 c a => patch_keepsKey fuel n1 n2 c a)
      old new (some container) h h1 j oe ne new1 hx
    exact ⟨hle, fun hgt => absurd hle (not_le.mpr hgt.1)⟩

theorem C20_insertion_branch_is_dead_witness :
    trimsOutcome 1 [li 1 (some 1), li 2 (some 2)] [li 2 none, li 1 none]
        (Host.mounted 0 [1, 2]) 0 = some (0, 1, 1) ∧
      ((0 : Nat) : Int) ≤ 1 ∧ ¬ (((0 : Nat) : Int) > 1 ∧ ((0 : Nat) : Int) ≤ 1) :=
  ⟨by decide!, C20_insertion_branch_is_dead 1 [li 1 (some 1), li 2 (some 2)]
    [li 2 none, li 1 none] (Host.mounted 0 [1, 2]) 0 (0, 1, 1) (by decide!)⟩

end Renderer
